import Mathlib

/-!
Verification of the bitstream-io core: bit accumulator, endianness-polymorphic
reader/writer engines, unary codes, signed reads/writes, and the Huffman
decode-tree compiler.

The reader's byte source is modelled as a script: a list of `Except` values,
where an `ok` entry is the next byte the source yields and an `error` entry is
an I/O error the source raises at that point.  An exhausted script raises the
end-of-data error, matching the exact-length-read contract.  The writer's sink
is a growing byte list (a `Vec<u8>` sink, which never fails).

Machine integers are modelled as `Nat` with explicit bounds; the `to_u8`
truncating conversion is modelled as `% 256` exactly where the source calls it.
-/

/-- Bit-order policy: most-significant-bit-first (`be`) or
least-significant-bit-first (`le`). -/
inductive Endian where
  | be
  | le
deriving DecidableEq

/-- Bit accumulator state: a residual value together with the number of valid
bits it holds (`BitQueue` in the source). -/
structure BQ where
  value : Nat
  count : Nat
deriving DecidableEq

/-- Modelled from the spec: the bit accumulator's `push(n, value)` appends `n`
bits of `value` at the policy-dependent end (`lib.rs` is absent from the
sources; behavior is pinned by the doctests in read.rs and write.rs).
MSB-first shifts the existing value up and ors the new field in at the bottom;
LSB-first places the new field above the existing bits. -/
def bqPush : Endian → Nat → Nat → BQ → BQ
  | .be, n, v, q => ⟨q.value * 2 ^ n + v, q.count + n⟩
  | .le, n, v, q => ⟨q.value + v * 2 ^ q.count, q.count + n⟩

/-- Modelled from the spec: `pop(n)` extracts and removes the `n` next bits per
policy (MSB-first takes the top of the value, LSB-first the bottom); popping
everything returns the whole value and clears the queue. -/
def bqPop : Endian → Nat → BQ → Nat × BQ
  | .be, n, q =>
    if n < q.count then
      (q.value / 2 ^ (q.count - n), ⟨q.value % 2 ^ (q.count - n), q.count - n⟩)
    else (q.value, ⟨0, 0⟩)
  | .le, n, q =>
    if n < q.count then
      (q.value % 2 ^ n, ⟨q.value / 2 ^ n, q.count - n⟩)
    else (q.value, ⟨0, 0⟩)

/-- Bits of an `n`-bit field of `v`, listed in the order the policy consumes
or produces them on the stream (MSB-first: high bit first). -/
def valBits : Endian → Nat → Nat → List Bool
  | _, 0, _ => []
  | .be, n+1, v => decide (v / 2 ^ n % 2 = 1) :: valBits .be n v
  | .le, n+1, v => decide (v % 2 = 1) :: valBits .le n (v / 2)

/-- The numeric value a policy assigns to a bit list (inverse of `valBits`). -/
def valOf : Endian → List Bool → Nat
  | _, [] => 0
  | .be, b :: l => (if b then 1 else 0) * 2 ^ l.length + valOf .be l
  | .le, b :: l => (if b then 1 else 0) + 2 * valOf .le l

/-- The bits currently held by an accumulator, in pop order. -/
def queueBits (E : Endian) (q : BQ) : List Bool :=
  valBits E q.count q.value

/-- The stream-order bits of one byte. -/
def byteBits (E : Endian) (b : Nat) : List Bool :=
  valBits E 8 b

/-- Well-formed accumulator value: bits at positions at or above `count` are
zero. -/
def bqInv (q : BQ) : Prop := q.value < 2 ^ q.count

theorem valBits_length (E : Endian) (n v : Nat) : (valBits E n v).length = n := by
  induction n generalizing v with
  | zero => cases E <;> rfl
  | succ k ih => cases E <;> simp [valBits, ih]

theorem valOf_lt (E : Endian) (l : List Bool) : valOf E l < 2 ^ l.length := by
  induction l with
  | nil => cases E <;> simp [valOf]
  | cons b t ih =>
    cases E <;> simp only [valOf, List.length_cons, pow_succ] <;> cases b <;>
      simp <;> omega

/-- MSB-first bits of a width-`(n+1)` field, split at the low end. -/
theorem valBits_be_snoc (n v : Nat) :
    valBits .be (n + 1) v = valBits .be n (v / 2) ++ [decide (v % 2 = 1)] := by
  induction n generalizing v with
  | zero => simp [valBits]
  | succ k ih =>
    conv_lhs => rw [valBits]
    rw [ih v]
    conv_rhs => rw [valBits]
    rw [List.cons_append]
    congr 2
    rw [Nat.div_div_eq_div_mul]
    congr 2
    rw [pow_succ]
    ring

/-- MSB-first concatenation of fields: the first field occupies the high bits. -/
theorem valBits_be_append (m n x y : Nat) (hy : y < 2 ^ n) :
    valBits .be (m + n) (x * 2 ^ n + y) = valBits .be m x ++ valBits .be n y := by
  induction n generalizing y with
  | zero =>
    interval_cases y
    simp [valBits]
  | succ k ih =>
    have hms : m + (k + 1) = (m + k) + 1 := by omega
    rw [hms, valBits_be_snoc]
    have hdiv : (x * 2 ^ (k + 1) + y) / 2 = x * 2 ^ k + y / 2 := by
      have h1 : x * 2 ^ (k + 1) + y = (x * 2 ^ k) * 2 + y := by ring
      omega
    have hmod : (x * 2 ^ (k + 1) + y) % 2 = y % 2 := by
      have h1 : x * 2 ^ (k + 1) + y = y + (x * 2 ^ k) * 2 := by ring
      omega
    rw [hdiv, hmod, ih (y / 2) (by
      have h2 : 2 ^ (k + 1) = 2 ^ k * 2 := by rw [pow_succ]
      omega)]
    rw [List.append_assoc]
    congr 1
    rw [valBits_be_snoc]

/-- LSB-first concatenation of fields: the first field occupies the low bits. -/
theorem valBits_le_append (m n x y : Nat) (hx : x < 2 ^ m) :
    valBits .le (m + n) (x + y * 2 ^ m) = valBits .le m x ++ valBits .le n y := by
  induction m generalizing x with
  | zero =>
    interval_cases x
    simp [valBits]
  | succ k ih =>
    have hms : (k + 1) + n = (k + n) + 1 := by omega
    rw [hms]
    conv_lhs => rw [valBits]
    conv_rhs => rw [valBits, List.cons_append]
    have hmod : (x + y * 2 ^ (k + 1)) % 2 = x % 2 := by
      have h1 : x + y * 2 ^ (k + 1) = x + (y * 2 ^ k) * 2 := by ring
      omega
    have hdiv : (x + y * 2 ^ (k + 1)) / 2 = x / 2 + y * 2 ^ k := by
      have h1 : x + y * 2 ^ (k + 1) = x + (y * 2 ^ k) * 2 := by ring
      omega
    rw [hmod, hdiv, ih (x / 2) (by
      have h2 : 2 ^ (k + 1) = 2 ^ k * 2 := by rw [pow_succ]
      omega)]

/-- The value of the bits of a field is the field reduced to its width. -/
theorem valOf_valBits_mod (E : Endian) (n v : Nat) :
    valOf E (valBits E n v) = v % 2 ^ n := by
  induction n generalizing v with
  | zero => cases E <;> simp [valBits, valOf] <;> omega
  | succ k ih =>
    cases E with
    | be =>
      simp only [valBits, valOf, valBits_length, ih]
      have hx := Nat.div_add_mod (v % (2 ^ k * 2)) (2 ^ k)
      rw [Nat.mod_mul_right_div_self, Nat.mod_mod_of_dvd v ⟨2, rfl⟩] at hx
      rw [pow_succ]
      rcases Nat.mod_two_eq_zero_or_one (v / 2 ^ k) with h | h <;>
        rw [h] at hx <;> simp [h] <;> omega
    | le =>
      simp only [valBits, valOf, ih]
      have hx := Nat.div_add_mod (v % (2 * 2 ^ k)) 2
      rw [Nat.mod_mul_right_div_self, Nat.mod_mod_of_dvd v ⟨2 ^ k, rfl⟩] at hx
      rw [pow_succ, Nat.mul_comm (2 ^ k) 2]
      rcases Nat.mod_two_eq_zero_or_one v with h | h <;>
        rw [h] at hx <;> simp [h] <;> omega

/-- Round trip: the bits of an in-range field decode to the field itself. -/
theorem valOf_valBits (E : Endian) (n v : Nat) (hv : v < 2 ^ n) :
    valOf E (valBits E n v) = v := by
  rw [valOf_valBits_mod, Nat.mod_eq_of_lt hv]

/-- Round trip: re-encoding the value of a bit list gives back the list. -/
theorem valBits_valOf (E : Endian) (l : List Bool) :
    valBits E l.length (valOf E l) = l := by
  induction l with
  | nil => cases E <;> rfl
  | cons b t ih =>
    cases E with
    | be =>
      have h : (1 : Nat) + t.length = t.length + 1 := by omega
      have happ := valBits_be_append 1 t.length (if b then 1 else 0) (valOf .be t)
        (valOf_lt .be t)
      simp only [List.length_cons, valOf]
      rw [← h, happ]
      rw [ih]
      congr 1
      cases b <;> rfl
    | le =>
      simp only [List.length_cons, valOf, valBits, List.cons.injEq]
      have hdiv : ((if b then 1 else 0) + 2 * valOf .le t) / 2 = valOf .le t := by
        cases b <;> simp <;> omega
      refine ⟨?_, by rw [hdiv, ih]⟩
      cases b <;> simp <;> omega

theorem queueBits_length (E : Endian) (q : BQ) :
    (queueBits E q).length = q.count := valBits_length E q.count q.value

theorem byteBits_length (E : Endian) (b : Nat) :
    (byteBits E b).length = 8 := valBits_length E 8 b

theorem queueBits_zero (E : Endian) : queueBits E ⟨0, 0⟩ = [] := by
  cases E <;> rfl

theorem bqInv_zero : bqInv ⟨0, 0⟩ := by simp [bqInv]

/-- An accumulator built from a bit list holds exactly those bits. -/
theorem queueBits_of_list (E : Endian) (l : List Bool) :
    queueBits E ⟨valOf E l, l.length⟩ = l := valBits_valOf E l

theorem bqInv_of_list (E : Endian) (l : List Bool) :
    bqInv ⟨valOf E l, l.length⟩ := valOf_lt E l

/-- Pushing appends the new field's bits at the tail of the pop order, for
both policies. -/
theorem queueBits_push (E : Endian) (n v : Nat) (q : BQ) (hq : bqInv q)
    (hv : v < 2 ^ n) :
    queueBits E (bqPush E n v q) = queueBits E q ++ valBits E n v := by
  cases E with
  | be => exact valBits_be_append q.count n q.value v hv
  | le => exact valBits_le_append q.count n q.value v hq

theorem bqInv_push (E : Endian) (n v : Nat) (q : BQ) (hq : bqInv q)
    (hv : v < 2 ^ n) : bqInv (bqPush E n v q) := by
  cases E with
  | be =>
    simp only [bqInv, bqPush, pow_add]
    have h1 : q.value * 2 ^ n + v < (q.value + 1) * 2 ^ n := by nlinarith
    have h2 : (q.value + 1) * 2 ^ n ≤ 2 ^ q.count * 2 ^ n :=
      Nat.mul_le_mul_right _ (Nat.succ_le_of_lt hq)
    omega
  | le =>
    simp only [bqInv, bqPush, pow_add]
    have hq' : q.value < 2 ^ q.count := hq
    have h1 : v * 2 ^ q.count + 2 ^ q.count ≤ 2 ^ n * 2 ^ q.count := by
      have := Nat.mul_le_mul_right (2 ^ q.count) (Nat.succ_le_of_lt hv)
      nlinarith
    have h2 : 2 ^ q.count * 2 ^ n = 2 ^ n * 2 ^ q.count := Nat.mul_comm _ _
    omega

theorem bqPush_count (E : Endian) (n v : Nat) (q : BQ) :
    (bqPush E n v q).count = q.count + n := by
  cases E <;> rfl

/-- Popping removes bits from the head of the pop order and returns their
value, for both policies. -/
theorem bqPop_spec (E : Endian) (n : Nat) (q : BQ) (hq : bqInv q)
    (hn : n ≤ q.count) :
    (bqPop E n q).1 = valOf E (List.take n (queueBits E q)) ∧
    queueBits E (bqPop E n q).2 = List.drop n (queueBits E q) ∧
    (bqPop E n q).2.count = q.count - n ∧ bqInv (bqPop E n q).2 := by
  rcases Nat.lt_or_ge n q.count with hlt | hge
  · have hsplit : queueBits E q =
        valBits E n (bqPop E n q).1 ++ queueBits E (bqPop E n q).2 := by
      cases E with
      | be =>
        simp only [queueBits, bqPop, if_pos hlt]
        have hc : q.count = n + (q.count - n) := by omega
        have hval : q.value =
            q.value / 2 ^ (q.count - n) * 2 ^ (q.count - n) +
              q.value % 2 ^ (q.count - n) :=
          (Nat.div_add_mod' q.value (2 ^ (q.count - n))).symm
        conv_lhs => rw [hc, hval]
        exact valBits_be_append n (q.count - n) _ _
          (Nat.mod_lt _ (pow_pos (by norm_num) _))
      | le =>
        simp only [queueBits, bqPop, if_pos hlt]
        have hc : q.count = n + (q.count - n) := by omega
        have hval : q.value = q.value % 2 ^ n + (q.value / 2 ^ n) * 2 ^ n :=
          (Nat.mod_add_div' q.value (2 ^ n)).symm
        conv_lhs => rw [hc, hval]
        exact valBits_le_append n (q.count - n) _ _
          (Nat.mod_lt _ (pow_pos (by norm_num) _))
    have hcnt : (bqPop E n q).2.count = q.count - n := by
      cases E <;> simp [bqPop, if_pos hlt]
    have hinv : bqInv (bqPop E n q).2 := by
      cases E with
      | be =>
        simp only [bqInv, bqPop, if_pos hlt]
        exact Nat.mod_lt _ (pow_pos (by norm_num) _)
      | le =>
        simp only [bqInv, bqPop, if_pos hlt]
        have h1 : q.value < 2 ^ n * 2 ^ (q.count - n) := by
          rw [← pow_add]
          have hc : n + (q.count - n) = q.count := by omega
          rw [hc]
          exact hq
        exact Nat.div_lt_of_lt_mul (by rw [Nat.mul_comm] at h1 ⊢; exact h1)
    have hpop1 : (bqPop E n q).1 < 2 ^ n := by
      cases E with
      | be =>
        simp only [bqPop, if_pos hlt]
        have h1 : q.value < 2 ^ (q.count - n) * 2 ^ n := by
          rw [← pow_add]
          have hc : (q.count - n) + n = q.count := by omega
          rw [hc]
          exact hq
        exact Nat.div_lt_of_lt_mul (by rw [Nat.mul_comm] at h1 ⊢; exact h1)
      | le =>
        simp only [bqPop, if_pos hlt]
        exact Nat.mod_lt _ (pow_pos (by norm_num) _)
    refine ⟨?_, ?_, hcnt, hinv⟩
    · rw [hsplit, List.take_left' (valBits_length E n _), valOf_valBits E n _ hpop1]
    · rw [hsplit, List.drop_left' (valBits_length E n _)]
  · have h1 : ¬ n < q.count := by omega
    have hpop : bqPop E n q = (q.value, ⟨0, 0⟩) := by
      cases E <;> simp [bqPop, h1]
    rw [hpop]
    refine ⟨?_, ?_, by simp; omega, bqInv_zero⟩
    · rw [List.take_of_length_le (by rw [queueBits_length]; omega)]
      simp only [queueBits]
      exact (valOf_valBits E q.count q.value hq).symm
    · rw [List.drop_of_length_le (by rw [queueBits_length]; omega)]
      exact queueBits_zero E

/-- Kind of I/O error an underlying stream can raise (`std::io::ErrorKind`):
the end-of-data signal or any other kind, abstracted by a code. -/
inductive EK where
  | unexpectedEof
  | other (code : Nat)
deriving DecidableEq

/-- Errors an operation can surface: argument validation (`InvalidInput`),
an I/O error of the underlying stream, or a panic of the Rust code
(arithmetic underflow in debug builds, or the `invalid state` panic). -/
inductive Err where
  | invalidInput
  | ioErr (k : EK)
  | panicked
deriving DecidableEq

deriving instance DecidableEq for Except

/-- A byte source script: each entry is either the next byte the source
yields or an I/O error it raises at that point. -/
def Src : Type := List (Except EK Nat)

instance : DecidableEq Src := inferInstanceAs (DecidableEq (List (Except EK Nat)))

/-- A script that yields exactly the given bytes and then signals
end-of-data. -/
def okBytes (B : List Nat) : Src := B.map Except.ok

/-- One `read_exact` of a single byte: consumes the next script entry;
an exhausted script is the end-of-data error. -/
def readByteS : Src → Except Err Nat × Src
  | [] => (Except.error (Err.ioErr EK.unexpectedEof), [])
  | .ok b :: rest => (Except.ok b, rest)
  | .error k :: rest => (Except.error (Err.ioErr k), rest)

/-- One `read_exact` of `k` bytes, byte by byte; stops at the first error. -/
def takeBytes : Nat → Src → Except Err (List Nat) × Src
  | 0, s => (Except.ok [], s)
  | k+1, s =>
    match readByteS s with
    | (.ok b, s1) =>
      match takeBytes k s1 with
      | (.ok bs, s2) => (Except.ok (b :: bs), s2)
      | (.error e, s2) => (Except.error e, s2)
    | (.error e, s1) => (Except.error e, s1)

/-- `read_aligned`: fetch `k` whole bytes and push each into the
accumulator; on failure the accumulator is not modified. -/
def readAligned (E : Endian) (k : Nat) (s : Src) (acc : BQ) :
    Except Err Unit × Src × BQ :=
  match takeBytes k s with
  | (.ok bs, s1) => (Except.ok (), s1, bs.foldl (fun a b => bqPush E 8 b a) acc)
  | (.error e, s1) => (Except.error e, s1, acc)

/-- `read_unaligned`: if `m > 0`, fetch one byte, load it into the residual
queue, and move its first `m` bits into the accumulator; the rest of the
byte becomes the new residual. -/
def readUnaligned (E : Endian) (m : Nat) (s : Src) (acc rem : BQ) :
    Except Err Unit × Src × BQ × BQ :=
  if m = 0 then (Except.ok (), s, acc, rem)
  else
    match readByteS s with
    | (.ok b, s1) =>
      let p := bqPop E m ⟨b, 8⟩
      (Except.ok (), s1, bqPush E m p.1 acc, p.2)
    | (.error e, s1) => (Except.error e, s1, acc, rem)

/-- `BitReader` state: the remaining source script and the residual bit
queue. -/
structure Rdr where
  src : Src
  bq : BQ
deriving DecidableEq

/-- A freshly constructed reader over the given byte list. -/
def mkReader (B : List Nat) : Rdr := ⟨okBytes B, ⟨0, 0⟩⟩

/-- `BitReader::read_bit`: refill from one source byte if the queue is
empty, then pop a single bit. -/
def readBit (E : Endian) (r : Rdr) : Except Err Bool × Rdr :=
  if r.bq.count = 0 then
    match readByteS r.src with
    | (.ok b, s1) =>
      let p := bqPop E 1 ⟨b, 8⟩
      (Except.ok (decide (p.1 = 1)), ⟨s1, p.2⟩)
    | (.error e, s1) => (Except.error e, ⟨s1, r.bq⟩)
  else
    let p := bqPop E 1 r.bq
    (Except.ok (decide (p.1 = 1)), ⟨r.src, p.2⟩)

/-- `BitReader::read::<U>(bits)` for a `U` of bit width `w`: rejects
`bits > w`; pops directly from the queue when it holds enough bits, else
drains the queue, fetches whole aligned bytes, then an unaligned
remainder whose leftover becomes the new residual. -/
def readOp (E : Endian) (w bits : Nat) (r : Rdr) : Except Err Nat × Rdr :=
  if bits ≤ w then
    if bits ≤ r.bq.count then
      let p := bqPop E bits r.bq
      (Except.ok p.1, ⟨r.src, p.2⟩)
    else
      let ql := r.bq.count
      let acc : BQ := ⟨(bqPop E ql r.bq).1, ql⟩
      let bits2 := bits - ql
      match readAligned E (bits2 / 8) r.src acc with
      | (.ok _, s1, acc1) =>
        match readUnaligned E (bits2 % 8) s1 acc1 (bqPop E ql r.bq).2 with
        | (.ok _, s2, acc2, rem2) => (Except.ok acc2.value, ⟨s2, rem2⟩)
        | (.error e, s2, _, rem2) => (Except.error e, ⟨s2, rem2⟩)
      | (.error e, s1, _) => (Except.error e, ⟨s1, (bqPop E ql r.bq).2⟩)
  else (Except.error Err.invalidInput, r)

/-- `skip_aligned` + `skip_unaligned` composed as in `BitReader::skip`:
drop from the queue, skip whole bytes, then skip within one more byte
whose leftover becomes the residual. -/
def skipOp (E : Endian) (bits0 : Nat) (r : Rdr) : Except Err Unit × Rdr :=
  let toDrop := min r.bq.count bits0
  let q1 := if toDrop ≠ 0 then (bqPop E toDrop r.bq).2 else r.bq
  let bits := bits0 - toDrop
  match takeBytes (bits / 8) r.src with
  | (.ok _, s1) =>
    if bits % 8 > 0 then
      match readByteS s1 with
      | (.ok b, s2) => (Except.ok (), ⟨s2, (bqPop E (bits % 8) ⟨b, 8⟩).2⟩)
      | (.error e, s2) => (Except.error e, ⟨s2, q1⟩)
    else (Except.ok (), ⟨s1, q1⟩)
  | (.error e, s1) => (Except.error e, ⟨s1, q1⟩)

/-- Byte-by-byte fallback loop of `BitReader::read_bytes`. -/
def readBytesLoop (E : Endian) : Nat → Rdr → Except Err (List Nat) × Rdr
  | 0, r => (Except.ok [], r)
  | k+1, r =>
    match readOp E 8 8 r with
    | (.ok b, r1) =>
      match readBytesLoop E k r1 with
      | (.ok bs, r2) => (Except.ok (b :: bs), r2)
      | (.error e, r2) => (Except.error e, r2)
    | (.error e, r1) => (Except.error e, r1)

/-- `BitReader::read_bytes` into a buffer of `k` bytes: a direct bulk read
when byte-aligned, else per-byte 8-bit reads. -/
def readBytes (E : Endian) (k : Nat) (r : Rdr) : Except Err (List Nat) × Rdr :=
  if r.bq.count = 0 then
    match takeBytes k r.src with
    | (.ok bs, s1) => (Except.ok bs, ⟨s1, r.bq⟩)
    | (.error e, s1) => (Except.error e, ⟨s1, r.bq⟩)
  else readBytesLoop E k r

/-- `read_aligned_unary`: fetch bytes as long as they equal the
all-matching sentinel, adding 8 per such byte; the first differing byte is
returned to become the new residual. -/
def readAlignedUnary (cv : Nat) : Src → Except Err (Nat × Nat) × Src
  | [] => (Except.error (Err.ioErr EK.unexpectedEof), [])
  | .error k :: rest => (Except.error (Err.ioErr k), rest)
  | .ok b :: rest =>
    if b = cv then
      match readAlignedUnary cv rest with
      | (.ok (u, stop), s1) => (Except.ok (u + 8, stop), s1)
      | (.error e, s1) => (Except.error e, s1)
    else (Except.ok (0, b), rest)

/-- Modelled from the spec: `pop_leading_ones` pops all 1 bits up to and
including the terminating 0 bit and returns how many 1 bits there were. -/
def popOnes (E : Endian) (q : BQ) : Nat × BQ :=
  if h : q.count = 0 then (0, q)
  else
    let p := bqPop E 1 q
    if p.1 = 1 then
      let r := popOnes E p.2
      (r.1 + 1, r.2)
    else (0, p.2)
termination_by q.count
decreasing_by
  cases E <;> simp only [bqPop] <;> split <;> simp <;> omega

/-- Modelled from the spec: `pop_leading_zeros`, dual of `popOnes`. -/
def popZeros (E : Endian) (q : BQ) : Nat × BQ :=
  if h : q.count = 0 then (0, q)
  else
    let p := bqPop E 1 q
    if p.1 = 0 then
      let r := popZeros E p.2
      (r.1 + 1, r.2)
    else (0, p.2)
termination_by q.count
decreasing_by
  cases E <;> simp only [bqPop] <;> split <;> simp <;> omega

/-- Modelled from the spec: `all_ones` is true iff every valid bit is 1. -/
def allOnes (q : BQ) : Bool := decide (q.value = 2 ^ q.count - 1)

/-- Modelled from the spec: `all_zeros` is true iff every valid bit is 0. -/
def allZeros (q : BQ) : Bool := decide (q.value = 0)

/-- `BitReader::read_unary0`: count 1 bits up to the next 0 bit, using the
whole-byte fast path over all-ones bytes. -/
def readUnary0 (E : Endian) (r : Rdr) : Except Err Nat × Rdr :=
  if r.bq.count = 0 then
    match readAlignedUnary 255 r.src with
    | (.ok (u, stop), s1) =>
      let p := popOnes E ⟨stop, 8⟩
      (Except.ok (u + p.1), ⟨s1, p.2⟩)
    | (.error e, s1) => (Except.error e, ⟨s1, r.bq⟩)
  else if allOnes r.bq then
    let base := r.bq.count
    match readAlignedUnary 255 r.src with
    | (.ok (u, stop), s1) =>
      let p := popOnes E ⟨stop, 8⟩
      (Except.ok (base + u + p.1), ⟨s1, p.2⟩)
    | (.error e, s1) => (Except.error e, ⟨s1, ⟨0, 0⟩⟩)
  else
    let p := popOnes E r.bq
    (Except.ok p.1, ⟨r.src, p.2⟩)

/-- `BitReader::read_unary1`: count 0 bits up to the next 1 bit, dual of
`readUnary0`. -/
def readUnary1 (E : Endian) (r : Rdr) : Except Err Nat × Rdr :=
  if r.bq.count = 0 then
    match readAlignedUnary 0 r.src with
    | (.ok (u, stop), s1) =>
      let p := popZeros E ⟨stop, 8⟩
      (Except.ok (u + p.1), ⟨s1, p.2⟩)
    | (.error e, s1) => (Except.error e, ⟨s1, r.bq⟩)
  else if allZeros r.bq then
    let base := r.bq.count
    match readAlignedUnary 0 r.src with
    | (.ok (u, stop), s1) =>
      let p := popZeros E ⟨stop, 8⟩
      (Except.ok (base + u + p.1), ⟨s1, p.2⟩)
    | (.error e, s1) => (Except.error e, ⟨s1, ⟨0, 0⟩⟩)
  else
    let p := popZeros E r.bq
    (Except.ok p.1, ⟨r.src, p.2⟩)

/-- `BitReader::byte_aligned`. -/
def rdrByteAligned (r : Rdr) : Bool := decide (r.bq.count = 0)

/-- `BitReader::byte_align`: discard the residual. -/
def rdrByteAlign (r : Rdr) : Rdr := ⟨r.src, ⟨0, 0⟩⟩

/-- `BitReader::into_unread`. -/
def intoUnread (r : Rdr) : Nat × Nat := (r.bq.count, r.bq.value)

/-- The `u32` subtraction `bits - 1`, which underflows (panicking in debug
builds) when `bits = 0`. -/
def sub1 (bits : Nat) : Except Err Nat :=
  if bits = 0 then Except.error Err.panicked else Except.ok (bits - 1)

/-- Modelled from the spec: `as_negative(bits)` yields the two's-complement
negative interpretation of the magnitude for the given width. -/
def asNegative (u : Nat) (bits : Nat) : Int := (u : Int) - 2 ^ (bits - 1)

/-- `BitReader::read_signed::<S>(bits)` for a width-`w` signed type:
MSB-first reads the sign bit before the magnitude, LSB-first after it. -/
def readSigned (E : Endian) (w bits : Nat) (r : Rdr) : Except Err Int × Rdr :=
  match E with
  | .be =>
    if bits ≤ w then
      match readBit .be r with
      | (.ok sg, r1) =>
        match sub1 bits with
        | .error e => (Except.error e, r1)
        | .ok bm =>
          match readOp .be w bm r1 with
          | (.ok u, r2) =>
            (Except.ok (if sg then asNegative u bits else (u : Int)), r2)
          | (.error e, r2) => (Except.error e, r2)
      | (.error e, r1) => (Except.error e, r1)
    else (Except.error Err.invalidInput, r)
  | .le =>
    if bits ≤ w then
      match sub1 bits with
      | .error e => (Except.error e, r)
      | .ok bm =>
        match readOp .le w bm r with
        | (.ok u, r1) =>
          match readBit .le r1 with
          | (.ok sg, r2) =>
            (Except.ok (if sg then asNegative u bits else (u : Int)), r2)
          | (.error e, r2) => (Except.error e, r2)
        | (.error e, r1) => (Except.error e, r1)
    else (Except.error Err.invalidInput, r)

/-- `BitWriter` state: bytes flushed so far to the sink (a byte vector,
which never fails) and the residual bit queue. -/
structure Wtr where
  sink : List Nat
  bq : BQ
deriving DecidableEq

/-- A freshly constructed writer over an empty byte vector. -/
def mkWriter : Wtr := ⟨[], ⟨0, 0⟩⟩

/-- `BitWriter::write_bit`: push one bit, flushing a byte when the queue
fills. -/
def writeBit (E : Endian) (b : Bool) (st : Wtr) : Except Err Unit × Wtr :=
  let q := bqPush E 1 (if b then 1 else 0) st.bq
  if q.count = 8 then
    let p := bqPop E 8 q
    (Except.ok (), ⟨st.sink ++ [p.1], p.2⟩)
  else (Except.ok (), ⟨st.sink, q⟩)

/-- `write_unaligned`: transfer bits from the accumulator to fill the
residual byte, flushing it when full. -/
def writeUnaligned (E : Endian) (acc rem : BQ) (sink : List Nat) :
    BQ × BQ × List Nat :=
  if rem.count = 0 then (acc, rem, sink)
  else
    let t := min (8 - rem.count) acc.count
    let p := bqPop E t acc
    let rem1 := bqPush E t (p.1 % 256) rem
    if rem1.count = 8 then
      let p8 := bqPop E 8 rem1
      (p.2, p8.2, sink ++ [p8.1])
    else (p.2, rem1, sink)

/-- The byte-popping loop of `write_aligned`. -/
def popBytesAux (E : Endian) : Nat → BQ → List Nat × BQ
  | 0, q => ([], q)
  | k+1, q =>
    let p := bqPop E 8 q
    let r := popBytesAux E k p.2
    (p.1 % 256 :: r.1, r.2)

/-- `write_aligned`: flush all whole bytes held by the accumulator. -/
def writeAligned (E : Endian) (acc : BQ) (sink : List Nat) : List Nat × BQ :=
  let r := popBytesAux E (acc.count / 8) acc
  (sink ++ r.1, r.2)

/-- `BitWriter::write::<U>(bits, value)` for a `U` of bit width `w`:
rejects `bits > w` and, when `bits < w`, a value not fitting in `bits`;
appends directly if the residual has room, else fills and flushes the
current byte, writes whole bytes, and keeps the sub-byte remainder. -/
def writeOp (E : Endian) (w bits v : Nat) (st : Wtr) : Except Err Unit × Wtr :=
  if bits > w then (Except.error Err.invalidInput, st)
  else if bits < w ∧ 2 ^ bits ≤ v then (Except.error Err.invalidInput, st)
  else if bits < 8 - st.bq.count then
    (Except.ok (), ⟨st.sink, bqPush E bits (v % 256) st.bq⟩)
  else
    let acc : BQ := ⟨v, bits⟩
    let u := writeUnaligned E acc st.bq st.sink
    let a := writeAligned E u.1 u.2.2
    (Except.ok (), ⟨a.1, bqPush E a.2.count (a.2.value % 256) u.2.1⟩)

/-- Byte-by-byte fallback loop of `BitWriter::write_bytes`. -/
def writeBytesLoop (E : Endian) : List Nat → Wtr → Except Err Unit × Wtr
  | [], st => (Except.ok (), st)
  | b :: bs, st =>
    match writeOp E 8 8 b st with
    | (.ok _, st1) => writeBytesLoop E bs st1
    | (.error e, st1) => (Except.error e, st1)

/-- `BitWriter::write_bytes`: a direct bulk write when byte-aligned, else
per-byte 8-bit writes. -/
def writeBytes (E : Endian) (bs : List Nat) (st : Wtr) : Except Err Unit × Wtr :=
  if st.bq.count = 0 then (Except.ok (), ⟨st.sink ++ bs.map (· % 256), st.bq⟩)
  else writeBytesLoop E bs st

/-- The `while bits > 64` chunk loop together with the dispatch of
`BitWriter::write_unary0`: `n` one bits followed by a terminating 0 bit,
emitted in up-to-64-bit all-ones chunks. -/
def writeUnary0 (E : Endian) (n : Nat) (st : Wtr) : Except Err Unit × Wtr :=
  if n = 0 then writeBit E false st
  else if n ≤ 31 then
    match writeOp E 32 n (2 ^ n - 1) st with
    | (.ok _, st1) => writeBit E false st1
    | (.error e, st1) => (Except.error e, st1)
  else if n = 32 then
    match writeOp E 32 32 (2 ^ 32 - 1) st with
    | (.ok _, st1) => writeBit E false st1
    | (.error e, st1) => (Except.error e, st1)
  else if n ≤ 63 then
    match writeOp E 64 n (2 ^ n - 1) st with
    | (.ok _, st1) => writeBit E false st1
    | (.error e, st1) => (Except.error e, st1)
  else if n = 64 then
    match writeOp E 64 64 (2 ^ 64 - 1) st with
    | (.ok _, st1) => writeBit E false st1
    | (.error e, st1) => (Except.error e, st1)
  else
    match writeOp E 64 64 (2 ^ 64 - 1) st with
    | (.ok _, st1) => writeUnary0 E (n - 64) st1
    | (.error e, st1) => (Except.error e, st1)
termination_by n

/-- `BitWriter::write_unary1`: `n` zero bits then a 1 bit, in chunks. -/
def writeUnary1 (E : Endian) (n : Nat) (st : Wtr) : Except Err Unit × Wtr :=
  if n = 0 then writeBit E true st
  else if n ≤ 32 then
    match writeOp E 32 n 0 st with
    | (.ok _, st1) => writeBit E true st1
    | (.error e, st1) => (Except.error e, st1)
  else if n ≤ 64 then
    match writeOp E 64 n 0 st with
    | (.ok _, st1) => writeBit E true st1
    | (.error e, st1) => (Except.error e, st1)
  else
    match writeOp E 64 64 0 st with
    | (.ok _, st1) => writeUnary1 E (n - 64) st1
    | (.error e, st1) => (Except.error e, st1)
termination_by n

/-- `BitWriter::byte_aligned`. -/
def wtrByteAligned (st : Wtr) : Bool := decide (st.bq.count = 0)

/-- The `while !byte_aligned` loop of `BitWriter::byte_align`, which pushes
0 bits until a whole byte is flushed; with the residual invariant
(at most 7 bits) it terminates within 8 iterations, which the fuel makes
explicit. -/
def byteAlignLoop (E : Endian) : Nat → Wtr → Wtr
  | 0, st => st
  | f+1, st => if st.bq.count = 0 then st else byteAlignLoop E f (writeBit E false st).2

/-- `BitWriter::byte_align`: pad with 0 bits until aligned (the underlying
sink never fails, so the result is always `ok`). -/
def wtrByteAlign (E : Endian) (st : Wtr) : Wtr := byteAlignLoop E 8 st

/-- `BitWriter::into_unwritten`. -/
def intoUnwritten (st : Wtr) : Nat × Nat := (st.bq.count, st.bq.value)

/-- Modelled from the spec: `as_unsigned(bits)` maps a negative value to
the magnitude field of its two's-complement representation. -/
def asUnsigned (v : Int) (bits : Nat) : Nat := (v + 2 ^ (bits - 1)).toNat

/-- `BitWriter::write_signed::<S>(bits, value)` for a width-`w` signed
type: MSB-first writes the sign bit before the magnitude, LSB-first after
it; negative values are written via their two's-complement representation. -/
def writeSigned (E : Endian) (w bits : Nat) (v : Int) (st : Wtr) :
    Except Err Unit × Wtr :=
  match E with
  | .be =>
    if bits > w then (Except.error Err.invalidInput, st)
    else if v < 0 then
      match writeBit .be true st with
      | (.ok _, st1) =>
        match sub1 bits with
        | .error e => (Except.error e, st1)
        | .ok bm => writeOp .be w bm (asUnsigned v bits) st1
      | (.error e, st1) => (Except.error e, st1)
    else
      match writeBit .be false st with
      | (.ok _, st1) =>
        match sub1 bits with
        | .error e => (Except.error e, st1)
        | .ok bm => writeOp .be w bm v.toNat st1
      | (.error e, st1) => (Except.error e, st1)
  | .le =>
    if bits > w then (Except.error Err.invalidInput, st)
    else if v < 0 then
      match sub1 bits with
      | .error e => (Except.error e, st)
      | .ok bm =>
        match writeOp .le w bm (asUnsigned v bits) st with
        | (.ok _, st1) => writeBit .le true st1
        | (.error e, st1) => (Except.error e, st1)
    else
      match sub1 bits with
      | .error e => (Except.error e, st)
      | .ok bm =>
        match writeOp .le w bm v.toNat st with
        | (.ok _, st1) => writeBit .le false st1
        | (.error e, st1) => (Except.error e, st1)

/-- The byte loop of `copy_reader_to_writer`: read single bytes until the
source signals end-of-data (which terminates the loop), writing each to
the writer; any other error is returned. -/
def copyLoop : Src → Wtr → Except Err Unit × Src × Wtr
  | [], w => (Except.ok (), [], w)
  | .error EK.unexpectedEof :: rest, w => (Except.ok (), rest, w)
  | .error (EK.other c) :: rest, w =>
    (Except.error (Err.ioErr (EK.other c)), rest, w)
  | .ok b :: rest, w =>
    match writeBytes .le [b] w with
    | (.ok _, w1) => copyLoop rest w1
    | (.error e, w1) => (Except.error e, rest, w1)

/-- `copy_reader_to_writer`: flush the reader's residual into the
LSB-first writer, then copy bytes until end-of-data. -/
def copyReaderToWriter (E : Endian) (r : Rdr) (w : Wtr) :
    Except Err Unit × Rdr × Wtr :=
  if r.bq.count > 0 then
    let p := bqPop E r.bq.count r.bq
    match writeOp .le 8 r.bq.count p.1 w with
    | (.ok _, w1) =>
      match copyLoop r.src w1 with
      | (res, s1, w2) => (res, ⟨s1, p.2⟩, w2)
    | (.error e, w1) => (Except.error e, ⟨r.src, p.2⟩, w1)
  else
    match copyLoop r.src w with
    | (res, s1, w1) => (res, ⟨s1, r.bq⟩, w1)

/-- `BitReader::concatenate_reader`: merge the unread remainders of two
readers into one LSB-first reader, front-padding with zero bits to stay
byte-aligned and trimming the padding off the result. -/
def concatenateReader (E : Endian) (r1 r2 : Rdr) : Except Err Rdr :=
  let off := (r1.bq.count + r2.bq.count) % 8
  let step0 : Except Err Unit × Wtr :=
    if off > 0 then writeOp .le 32 (8 - off) 0 mkWriter
    else (Except.ok (), mkWriter)
  match step0 with
  | (.error e, _) => Except.error e
  | (.ok _, w1) =>
    match copyReaderToWriter E r1 w1 with
    | (.error e, _, _) => Except.error e
    | (.ok _, _, w2) =>
      match copyReaderToWriter E r2 w2 with
      | (.error e, _, _) => Except.error e
      | (.ok _, _, w3) =>
        let nr : Rdr := ⟨okBytes w3.sink, ⟨0, 0⟩⟩
        if off > 0 then
          match skipOp .le (8 - off) nr with
          | (.ok _, nr1) => Except.ok nr1
          | (.error e, _) => Except.error e
        else Except.ok nr

/-- `BitReader::create_sub_reader(bits)`: materialize the next `bits` bits
as an independent LSB-first reader over a fresh buffer. -/
def createSubReader (E : Endian) (bits : Nat) (r : Rdr) :
    Except Err Rdr × Rdr :=
  let rb := bits % 8
  match (if rb > 0 then
           match readOp E 8 rb r with
           | (.ok v, r1) => (Except.ok [v * 2 ^ (8 - rb) % 256], r1)
           | (.error e, r1) => (Except.error e, r1)
         else (Except.ok ([] : List Nat), r) :
         Except Err (List Nat) × Rdr) with
  | (.error e, r1) => (Except.error e, r1)
  | (.ok first, r1) =>
    match readBytes E (bits / 8) r1 with
    | (.ok bs, r2) =>
      let nr : Rdr := ⟨okBytes (first ++ bs), ⟨0, 0⟩⟩
      if rb > 0 then
        match skipOp .le (8 - rb) nr with
        | (.ok _, nr1) => (Except.ok nr1, r2)
        | (.error e, _) => (Except.error e, r2)
      else (Except.ok nr, r2)
    | (.error e, r2) => (Except.error e, r2)

/-- A byte sink script: the outcome the underlying `io::Write` gives each
`write_all` call write.rs makes — accepted, or an I/O error it raises at
that point; an exhausted script accepts everything. The flushed byte
values themselves are tracked by the infallible-sink embedding `Wtr`
above; this script abstracts the generic `io::Write` parameter's failure
behavior. -/
def writeAllS : List (Except EK Unit) →
    Except Err Unit × List (Except EK Unit)
  | [] => (Except.ok (), [])
  | .ok _ :: rest => (Except.ok (), rest)
  | .error k :: rest => (Except.error (Err.ioErr k), rest)

/-- `BitWriter` state over a fallible sink: the remaining sink script and
the residual bit queue. -/
structure FWtr where
  sink : List (Except EK Unit)
  bq : BQ
deriving DecidableEq

/-- `BitWriter::write_bit` over a fallible sink: push one bit; when the
queue fills, `write_byte` performs one `write_all`, whose error is
returned. -/
def fwriteBit (E : Endian) (b : Bool) (st : FWtr) : Except Err Unit × FWtr :=
  let q := bqPush E 1 (if b then 1 else 0) st.bq
  if q.count = 8 then
    let p := bqPop E 8 q
    match writeAllS st.sink with
    | (.ok _, s1) => (Except.ok (), ⟨s1, p.2⟩)
    | (.error e, s1) => (Except.error e, ⟨s1, p.2⟩)
  else (Except.ok (), ⟨st.sink, q⟩)

/-- `write_unaligned` over a fallible sink: fill the residual byte from
the accumulator; a completed byte is one `write_byte` call. -/
def fwriteUnaligned (E : Endian) (acc rem : BQ)
    (s : List (Except EK Unit)) :
    Except Err Unit × BQ × BQ × List (Except EK Unit) :=
  if rem.count = 0 then (Except.ok (), acc, rem, s)
  else
    let t := min (8 - rem.count) acc.count
    let p := bqPop E t acc
    let rem1 := bqPush E t (p.1 % 256) rem
    if rem1.count = 8 then
      let p8 := bqPop E 8 rem1
      match writeAllS s with
      | (.ok _, s1) => (Except.ok (), p.2, p8.2, s1)
      | (.error e, s1) => (Except.error e, p.2, p8.2, s1)
    else (Except.ok (), p.2, rem1, s)

/-- `write_aligned` over a fallible sink: all whole accumulator bytes go
out in one `write_all` when there are any. -/
def fwriteAligned (E : Endian) (acc : BQ) (s : List (Except EK Unit)) :
    Except Err Unit × BQ × List (Except EK Unit) :=
  if acc.count / 8 > 0 then
    let r := popBytesAux E (acc.count / 8) acc
    match writeAllS s with
    | (.ok _, s1) => (Except.ok (), r.2, s1)
    | (.error e, s1) => (Except.error e, r.2, s1)
  else (Except.ok (), acc, s)

/-- `BitWriter::write` over a fallible sink: the same validation and
fast/slow paths as `writeOp`, with the unaligned and aligned flushes
chained by `and_then` so a sink error short-circuits and is returned. -/
def fwriteOp (E : Endian) (w bits v : Nat) (st : FWtr) :
    Except Err Unit × FWtr :=
  if bits > w then (Except.error Err.invalidInput, st)
  else if bits < w ∧ 2 ^ bits ≤ v then (Except.error Err.invalidInput, st)
  else if bits < 8 - st.bq.count then
    (Except.ok (), ⟨st.sink, bqPush E bits (v % 256) st.bq⟩)
  else
    let acc : BQ := ⟨v, bits⟩
    match fwriteUnaligned E acc st.bq st.sink with
    | (.ok _, acc1, rem1, s1) =>
      match fwriteAligned E acc1 s1 with
      | (.ok _, acc2, s2) =>
        (Except.ok (), ⟨s2, bqPush E acc2.count (acc2.value % 256) rem1⟩)
      | (.error e, _, s2) => (Except.error e, ⟨s2, rem1⟩)
    | (.error e, _, rem1, s1) => (Except.error e, ⟨s1, rem1⟩)

/-- Byte-by-byte fallback loop of `BitWriter::write_bytes` over a
fallible sink. -/
def fwriteBytesLoop (E : Endian) : List Nat → FWtr → Except Err Unit × FWtr
  | [], st => (Except.ok (), st)
  | b :: bs, st =>
    match fwriteOp E 8 8 b st with
    | (.ok _, st1) => fwriteBytesLoop E bs st1
    | (.error e, st1) => (Except.error e, st1)

/-- `BitWriter::write_bytes` over a fallible sink: when byte-aligned a
nonempty buffer is one direct `write_all`, else per-byte 8-bit writes. -/
def fwriteBytes (E : Endian) (bs : List Nat) (st : FWtr) :
    Except Err Unit × FWtr :=
  if st.bq.count = 0 then
    if bs = [] then (Except.ok (), st)
    else
      match writeAllS st.sink with
      | (.ok _, s1) => (Except.ok (), ⟨s1, st.bq⟩)
      | (.error e, s1) => (Except.error e, ⟨s1, st.bq⟩)
  else fwriteBytesLoop E bs st

/-- `BitWriter::write_unary0` over a fallible sink: same chunk dispatch as
`writeUnary0`, every step's sink error returned. -/
def fwriteUnary0 (E : Endian) (n : Nat) (st : FWtr) : Except Err Unit × FWtr :=
  if n = 0 then fwriteBit E false st
  else if n ≤ 31 then
    match fwriteOp E 32 n (2 ^ n - 1) st with
    | (.ok _, st1) => fwriteBit E false st1
    | (.error e, st1) => (Except.error e, st1)
  else if n = 32 then
    match fwriteOp E 32 32 (2 ^ 32 - 1) st with
    | (.ok _, st1) => fwriteBit E false st1
    | (.error e, st1) => (Except.error e, st1)
  else if n ≤ 63 then
    match fwriteOp E 64 n (2 ^ n - 1) st with
    | (.ok _, st1) => fwriteBit E false st1
    | (.error e, st1) => (Except.error e, st1)
  else if n = 64 then
    match fwriteOp E 64 64 (2 ^ 64 - 1) st with
    | (.ok _, st1) => fwriteBit E false st1
    | (.error e, st1) => (Except.error e, st1)
  else
    match fwriteOp E 64 64 (2 ^ 64 - 1) st with
    | (.ok _, st1) => fwriteUnary0 E (n - 64) st1
    | (.error e, st1) => (Except.error e, st1)
termination_by n

/-- `BitWriter::write_unary1` over a fallible sink. -/
def fwriteUnary1 (E : Endian) (n : Nat) (st : FWtr) : Except Err Unit × FWtr :=
  if n = 0 then fwriteBit E true st
  else if n ≤ 32 then
    match fwriteOp E 32 n 0 st with
    | (.ok _, st1) => fwriteBit E true st1
    | (.error e, st1) => (Except.error e, st1)
  else if n ≤ 64 then
    match fwriteOp E 64 n 0 st with
    | (.ok _, st1) => fwriteBit E true st1
    | (.error e, st1) => (Except.error e, st1)
  else
    match fwriteOp E 64 64 0 st with
    | (.ok _, st1) => fwriteUnary1 E (n - 64) st1
    | (.error e, st1) => (Except.error e, st1)
termination_by n

/-- The `while !byte_aligned` loop of `BitWriter::byte_align` over a
fallible sink: a failing bit write's error is returned; the fuel makes the
at-most-8 iterations explicit. -/
def fByteAlignLoop (E : Endian) : Nat → FWtr → Except Err Unit × FWtr
  | 0, st => (Except.ok (), st)
  | f + 1, st =>
    if st.bq.count = 0 then (Except.ok (), st)
    else
      match fwriteBit E false st with
      | (.ok _, st1) => fByteAlignLoop E f st1
      | (.error e, st1) => (Except.error e, st1)

/-- `BitWriter::byte_align` over a fallible sink. -/
def fwtrByteAlign (E : Endian) (st : FWtr) : Except Err Unit × FWtr :=
  fByteAlignLoop E 8 st

/-- `BitWriter::write_signed` over a fallible sink: MSB-first writes the
sign bit then the magnitude, LSB-first the magnitude then the sign bit. -/
def fwriteSigned (E : Endian) (w bits : Nat) (v : Int) (st : FWtr) :
    Except Err Unit × FWtr :=
  match E with
  | .be =>
    if bits > w then (Except.error Err.invalidInput, st)
    else if v < 0 then
      match fwriteBit .be true st with
      | (.ok _, st1) =>
        match sub1 bits with
        | .error e => (Except.error e, st1)
        | .ok bm => fwriteOp .be w bm (asUnsigned v bits) st1
      | (.error e, st1) => (Except.error e, st1)
    else
      match fwriteBit .be false st with
      | (.ok _, st1) =>
        match sub1 bits with
        | .error e => (Except.error e, st1)
        | .ok bm => fwriteOp .be w bm v.toNat st1
      | (.error e, st1) => (Except.error e, st1)
  | .le =>
    if bits > w then (Except.error Err.invalidInput, st)
    else if v < 0 then
      match sub1 bits with
      | .error e => (Except.error e, st)
      | .ok bm =>
        match fwriteOp .le w bm (asUnsigned v bits) st with
        | (.ok _, st1) => fwriteBit .le true st1
        | (.error e, st1) => (Except.error e, st1)
    else
      match sub1 bits with
      | .error e => (Except.error e, st)
      | .ok bm =>
        match fwriteOp .le w bm v.toNat st with
        | (.ok _, st1) => fwriteBit .le false st1
        | (.error e, st1) => (Except.error e, st1)

/-- Errors of the Huffman tree compilers (`HuffmanTreeError`). -/
inductive HErr where
  | invalidBit
  | missingLeaf
  | duplicateLeaf
  | orphanedLeaf
deriving DecidableEq

/-- Work-in-progress decode trie (`WipHuffmanTree`): may contain empty
nodes during construction. -/
inductive WipT (α : Type) where
  | empty
  | leaf (v : α)
  | tree (z o : WipT α)
deriving DecidableEq

/-- Finalized decode trie (`ReadHuffmanTree` of huffman.rs): a leaf or a
fully populated binary node. -/
inductive RTree (α : Type) where
  | leaf (v : α)
  | tree (z o : RTree α)
deriving DecidableEq

/-- `WipHuffmanTree::add`: descend along the code, growing empty nodes;
an exhausted code at an occupied slot is a duplicate, a code running past
an existing leaf is orphaned, and a non-0/1 element is invalid. -/
def WipT.add {α : Type} : WipT α → List Nat → α → Except HErr (WipT α)
  | .empty, [], s => Except.ok (.leaf s)
  | .empty, b :: c, s => WipT.add (.tree .empty .empty) (b :: c) s
  | .leaf _, [], _ => Except.error HErr.duplicateLeaf
  | .leaf _, _ :: _, _ => Except.error HErr.orphanedLeaf
  | .tree _ _, [], _ => Except.error HErr.duplicateLeaf
  | .tree z o, b :: c, s =>
    if b = 0 then (WipT.add z c s).map (fun z1 => .tree z1 o)
    else if b = 1 then (WipT.add o c s).map (fun o1 => .tree z o1)
    else Except.error HErr.invalidBit
termination_by t c => (c.length, match t with | .empty => 1 | _ => 0)

/-- `WipHuffmanTree::into_read_tree`: the finalization pass; any remaining
empty node is a missing leaf. -/
def WipT.intoReadTree {α : Type} : WipT α → Except HErr (RTree α)
  | .empty => Except.error HErr.missingLeaf
  | .leaf v => Except.ok (.leaf v)
  | .tree z o =>
    (WipT.intoReadTree z).bind fun z1 =>
      (WipT.intoReadTree o).map fun o1 => .tree z1 o1

/-- `ReadHuffmanTree::new` of huffman.rs: insert every code into an empty
trie, then finalize. -/
def compileReadTree {α : Type} (values : List (α × List Nat)) :
    Except HErr (RTree α) :=
  (values.foldlM (fun t p => WipT.add t p.2 p.1) WipT.empty).bind
    WipT.intoReadTree

/-- Bit-by-bit descent of the finalized trie over a bit list: consume bits
until a leaf is hit (returning the symbol and the remaining bits), or run
out of bits at an inner node. -/
def decodeTrie {α : Type} : RTree α → List Bool → Option (α × List Bool)
  | .leaf v, bs => some (v, bs)
  | .tree _ _, [] => none
  | .tree z o, b :: bs => decodeTrie (if b then o else z) bs

/-- Descend the trie along a fixed bit list: either the bits run out at a
node (left) or a leaf is reached with leftover bits (right). -/
def walk {α : Type} : RTree α → List Bool → RTree α ⊕ (α × List Bool)
  | .leaf v, bs => Sum.inr (v, bs)
  | .tree z o, [] => Sum.inl (.tree z o)
  | .tree z o, b :: bs => walk (if b then o else z) bs

/-- Compiled byte-wise decode automaton entry, the `ReadHuffmanTree` that
read.rs consumes: a decoded symbol with the residual `(value, bits)` to
restore, a 256-entry continuation table for the next byte, or the invalid
marker. -/
inductive HAut (α : Type) where
  | done (v : α) (qval qbits : Nat)
  | cont (tbl : List (HAut α))
  | invalidState

/-- Depth of a finalized trie. -/
def RTree.height {α : Type} : RTree α → Nat
  | .leaf _ => 0
  | .tree z o => max z.height o.height + 1

/-- Modelled from the spec: one 256-entry transition table per depth level
reached, built by simulating 8-bit-at-a-time descent of the trie; the fuel
bounds the number of levels and is chosen large enough below. -/
def tableF {α : Type} (E : Endian) : Nat → RTree α → List (HAut α)
  | 0, _ => List.replicate 256 HAut.invalidState
  | f+1, t =>
    (List.range 256).map fun b =>
      match walk t (byteBits E b) with
      | Sum.inr p => HAut.done p.1 (valOf E p.2) p.2.length
      | Sum.inl t1 => HAut.cont (tableF E f t1)

/-- Modelled from the spec: `to_lookup_index`, the residual interpreted as
a table index for the automaton's initial probe; the index encodes both
the residual's bit count and its value. -/
def toState (q : BQ) : Nat := 2 ^ q.count + q.value

/-- Modelled from the spec: compile a finalized trie into the byte-wise
lookup automaton consumed by `read_huffman`, one entry per initial
residual state. -/
def compileAut {α : Type} (E : Endian) (t : RTree α) : List (HAut α) :=
  (List.range 512).map fun i =>
    if i = 0 then HAut.invalidState
    else
      match walk t (valBits E (Nat.log2 i) (i - 2 ^ Nat.log2 i)) with
      | Sum.inr p => HAut.done p.1 (valOf E p.2) p.2.length
      | Sum.inl t1 => HAut.cont (tableF E t.height t1)

/-- The loop of `BitReader::read_huffman`: follow `Continue` entries by
fetching raw bytes; `Done` restores the saved residual; reaching the
invalid marker is the `invalid state` panic. -/
def readHuffmanLoop {α : Type} : HAut α → Src → Except Err (α × BQ) × Src
  | HAut.done v qv qb, s => (Except.ok (v, ⟨qv, qb⟩), s)
  | HAut.invalidState, s => (Except.error Err.panicked, s)
  | HAut.cont tbl, s =>
    match s with
    | [] => (Except.error (Err.ioErr EK.unexpectedEof), [])
    | .ok b :: rest => readHuffmanLoop (tbl.getD b HAut.invalidState) rest
    | .error k :: rest => (Except.error (Err.ioErr k), rest)

/-- `BitReader::read_huffman`: start at the entry indexed by the current
residual state and run the automaton. -/
def readHuffman {α : Type} (tbl : List (HAut α)) (r : Rdr) :
    Except Err α × Rdr :=
  match readHuffmanLoop (tbl.getD (toState r.bq) HAut.invalidState) r.src with
  | (.ok (v, q), s) => (Except.ok v, ⟨s, q⟩)
  | (.error e, s) => (Except.error e, ⟨s, r.bq⟩)

/-- The unread bits of a reader state, in stream order: the residual queue
first, then every remaining byte's bits. -/
def streamBits (E : Endian) (q : BQ) (B : List Nat) : List Bool :=
  queueBits E q ++ B.flatMap (byteBits E)

/-- The bits a writer state has produced, in stream order: the flushed
bytes' bits followed by the residual queue. -/
def outBits (E : Endian) (st : Wtr) : List Bool :=
  st.sink.flatMap (byteBits E) ++ queueBits E st.bq

theorem flatMap_byteBits_length (E : Endian) (B : List Nat) :
    (B.flatMap (byteBits E)).length = 8 * B.length := by
  induction B with
  | nil => simp
  | cons b t ih =>
    rw [List.flatMap_cons, List.length_append, byteBits_length, ih,
      List.length_cons]
    ring

theorem streamBits_length (E : Endian) (q : BQ) (B : List Nat) :
    (streamBits E q B).length = q.count + 8 * B.length := by
  simp only [streamBits]
  rw [List.length_append, queueBits_length, flatMap_byteBits_length]

theorem valOf_queueBits (E : Endian) (q : BQ) (hq : bqInv q) :
    valOf E (queueBits E q) = q.value := valOf_valBits E q.count q.value hq

theorem takeBytes_okBytes (k : Nat) (B : List Nat) (hk : k ≤ B.length) :
    takeBytes k (okBytes B) =
      (Except.ok (List.take k B), okBytes (List.drop k B)) := by
  induction k generalizing B with
  | zero => simp [takeBytes]
  | succ j ih =>
    cases B with
    | nil => simp at hk
    | cons b t =>
      have ht : j ≤ t.length := by simpa using hk
      have hob : okBytes (b :: t) = Except.ok b :: okBytes t := rfl
      rw [hob]
      simp only [takeBytes, readByteS]
      rw [ih t ht]
      simp

theorem flatMap_byteBits_take (E : Endian) (k : Nat) (B : List Nat) :
    (List.take k B).flatMap (byteBits E) =
      List.take (8 * k) (B.flatMap (byteBits E)) := by
  induction k generalizing B with
  | zero => simp
  | succ j ih =>
    cases B with
    | nil => simp
    | cons b t =>
      simp only [List.take_succ_cons, List.flatMap_cons]
      have h8 : 8 * (j + 1) = (byteBits E b).length + 8 * j := by
        rw [byteBits_length]; ring
      rw [h8, List.take_append, ih]

theorem flatMap_byteBits_drop (E : Endian) (k : Nat) (B : List Nat) :
    (List.drop k B).flatMap (byteBits E) =
      List.drop (8 * k) (B.flatMap (byteBits E)) := by
  induction k generalizing B with
  | zero => simp
  | succ j ih =>
    cases B with
    | nil => simp
    | cons b t =>
      simp only [List.drop_succ_cons, List.flatMap_cons]
      have h8 : 8 * (j + 1) = (byteBits E b).length + 8 * j := by
        rw [byteBits_length]; ring
      rw [h8, List.drop_append, ih]

theorem foldl_push_bytes (E : Endian) (bs : List Nat) (acc : BQ)
    (hacc : bqInv acc) (hbs : ∀ b ∈ bs, b < 256) :
    queueBits E (bs.foldl (fun a b => bqPush E 8 b a) acc) =
        queueBits E acc ++ bs.flatMap (byteBits E) ∧
      bqInv (bs.foldl (fun a b => bqPush E 8 b a) acc) ∧
      (bs.foldl (fun a b => bqPush E 8 b a) acc).count =
        acc.count + 8 * bs.length := by
  induction bs generalizing acc with
  | nil => simp [hacc]
  | cons b t ih =>
    have hb : b < 256 := hbs b (List.mem_cons_self b t)
    have hb' : b < 2 ^ 8 := hb
    have hpush := queueBits_push E 8 b acc hacc hb'
    have hinv := bqInv_push E 8 b acc hacc hb'
    have ht : ∀ x ∈ t, x < 256 := fun x hx => hbs x (List.mem_cons_of_mem b hx)
    obtain ⟨h1, h2, h3⟩ := ih (bqPush E 8 b acc) hinv ht
    refine ⟨?_, h2, ?_⟩
    · simp only [List.foldl_cons, h1, hpush, List.flatMap_cons, byteBits,
        List.append_assoc]
    · simp only [List.foldl_cons, h3, bqPush_count, List.length_cons]
      ring

theorem bq_mk_count (v c : Nat) : (BQ.mk v c).count = c := rfl

theorem bq_mk_value (v c : Nat) : (BQ.mk v c).value = v := rfl

theorem take_queue_append (E : Endian) (q : BQ) (j : Nat) (L : List Bool) :
    List.take (q.count + j) (queueBits E q ++ L) =
      queueBits E q ++ List.take j L := by
  rw [← queueBits_length E q, List.take_append]

theorem drop_queue_append (E : Endian) (q : BQ) (j : Nat) (L : List Bool) :
    List.drop (q.count + j) (queueBits E q ++ L) = List.drop j L := by
  rw [← queueBits_length E q, List.drop_append]

/-- Main reader lemma: a permitted `read` consumes exactly the first
`bits` stream bits and returns their value under the policy's packing;
the new residual is well formed and holds at most 7 bits. -/
theorem readOp_spec (E : Endian) (w bits : Nat) (q : BQ) (B : List Nat)
    (hq : bqInv q) (h7 : q.count ≤ 7) (hB : ∀ b ∈ B, b < 256)
    (hw : bits ≤ w) (hav : bits ≤ q.count + 8 * B.length) :
    ∃ q1 B1,
      readOp E w bits ⟨okBytes B, q⟩ =
        (Except.ok (valOf E (List.take bits (streamBits E q B))),
          ⟨okBytes B1, q1⟩) ∧
      streamBits E q1 B1 = List.drop bits (streamBits E q B) ∧
      bqInv q1 ∧ q1.count ≤ 7 ∧ (∀ b ∈ B1, b < 256) := by
  by_cases hfast : bits ≤ q.count
  · obtain ⟨hp1, hp2, hp3, hp4⟩ := bqPop_spec E bits q hq hfast
    refine ⟨(bqPop E bits q).2, B, ?_, ?_, hp4, by omega, hB⟩
    · simp only [readOp, if_pos hw, if_pos hfast]
      have htk : List.take bits (streamBits E q B) =
          List.take bits (queueBits E q) := by
        simp only [streamBits]
        exact List.take_append_of_le_length (by rw [queueBits_length]; omega)
      rw [htk, ← hp1]
    · simp only [streamBits, hp2]
      exact (List.drop_append_of_le_length
        (by rw [queueBits_length]; omega)).symm
  · have hpop_all : bqPop E q.count q = (q.value, ⟨0, 0⟩) := by
      cases E <;> simp [bqPop]
    have ham : 8 * ((bits - q.count) / 8) + (bits - q.count) % 8 =
        bits - q.count := Nat.div_add_mod _ 8
    have hm8 : (bits - q.count) % 8 < 8 := Nat.mod_lt _ (by norm_num)
    have ha_le : (bits - q.count) / 8 ≤ B.length := by omega
    have hBtake : ∀ b ∈ List.take ((bits - q.count) / 8) B, b < 256 :=
      fun b hb => hB b (List.take_subset _ B hb)
    obtain ⟨hf1, hf2, hf3⟩ :=
      foldl_push_bytes E (List.take ((bits - q.count) / 8) B) q hq hBtake
    have htkB := takeBytes_okBytes ((bits - q.count) / 8) B ha_le
    have hra : readAligned E ((bits - q.count) / 8) (okBytes B) q =
        (Except.ok (), okBytes (List.drop ((bits - q.count) / 8) B),
          (List.take ((bits - q.count) / 8) B).foldl
            (fun a b => bqPush E 8 b a) q) := by
      simp only [readAligned, htkB]
    have hq_eta : (⟨q.value, q.count⟩ : BQ) = q := rfl
    by_cases hm0 : (bits - q.count) % 8 = 0
    · -- aligned remainder: the accumulator already holds all `bits` bits
      have hbits : bits = q.count + 8 * ((bits - q.count) / 8) := by omega
      have hrun : readUnaligned E ((bits - q.count) % 8)
          (okBytes (List.drop ((bits - q.count) / 8) B))
          ((List.take ((bits - q.count) / 8) B).foldl
            (fun a b => bqPush E 8 b a) q) (⟨0, 0⟩ : BQ) =
          (Except.ok (), okBytes (List.drop ((bits - q.count) / 8) B),
            (List.take ((bits - q.count) / 8) B).foldl
              (fun a b => bqPush E 8 b a) q, (⟨0, 0⟩ : BQ)) := by
        simp [readUnaligned, hm0]
      refine ⟨⟨0, 0⟩, List.drop ((bits - q.count) / 8) B, ?_, ?_, bqInv_zero,
        by norm_num, fun b hb => hB b (List.drop_subset _ B hb)⟩
      · simp only [readOp, if_pos hw, if_neg hfast, hpop_all, hq_eta, hra,
          hrun]
        have hval : ((List.take ((bits - q.count) / 8) B).foldl
            (fun a b => bqPush E 8 b a) q).value =
            valOf E (List.take bits (streamBits E q B)) := by
          have htk : List.take bits (streamBits E q B) =
              queueBits E q ++
                List.take (8 * ((bits - q.count) / 8))
                  (B.flatMap (byteBits E)) := by
            simp only [streamBits]
            conv_lhs => rw [hbits]
            rw [← queueBits_length E q, List.take_append]
          rw [htk, ← flatMap_byteBits_take, ← hf1, valOf_queueBits E _ hf2]
        rw [hval]
      · simp only [streamBits, queueBits_zero, List.nil_append]
        rw [flatMap_byteBits_drop]
        conv_rhs => rw [hbits]
        rw [← queueBits_length E q, List.drop_append]
    · -- unaligned remainder: one more byte is fetched and split
      have ha_lt : (bits - q.count) / 8 < B.length := by omega
      have hdropB : List.drop ((bits - q.count) / 8) B =
          B[(bits - q.count) / 8] :: List.drop ((bits - q.count) / 8 + 1) B :=
        List.drop_eq_getElem_cons ha_lt
      have hBa : B[(bits - q.count) / 8] < 256 := hB _ (List.getElem_mem _)
      have h256 : (2 : Nat) ^ 8 = 256 := by norm_num
      have hBa' : bqInv (BQ.mk B[(bits - q.count) / 8] 8) := by
        simp only [bqInv, bq_mk_count, bq_mk_value]
        omega
      obtain ⟨hu1, hu2, hu3, hu4⟩ := bqPop_spec E ((bits - q.count) % 8)
        (BQ.mk B[(bits - q.count) / 8] 8) hBa'
        (show (bits - q.count) % 8 ≤ 8 by omega)
      have hu3' : (bqPop E ((bits - q.count) % 8)
          (BQ.mk B[(bits - q.count) / 8] 8)).2.count =
          8 - (bits - q.count) % 8 := hu3
      have hqb : queueBits E (BQ.mk B[(bits - q.count) / 8] 8) =
          byteBits E B[(bits - q.count) / 8] := rfl
      have hlen : (List.take ((bits - q.count) % 8)
          (queueBits E (BQ.mk B[(bits - q.count) / 8] 8))).length =
          (bits - q.count) % 8 := by
        rw [List.length_take, queueBits_length]
        show min ((bits - q.count) % 8) 8 = (bits - q.count) % 8
        omega
      have hval_lt : (bqPop E ((bits - q.count) % 8)
          (BQ.mk B[(bits - q.count) / 8] 8)).1 <
          2 ^ ((bits - q.count) % 8) := by
        rw [hu1]
        have h := valOf_lt E (List.take ((bits - q.count) % 8)
          (queueBits E (BQ.mk B[(bits - q.count) / 8] 8)))
        rw [hlen] at h
        exact h
      have hvb : valBits E ((bits - q.count) % 8)
          (bqPop E ((bits - q.count) % 8)
            (BQ.mk B[(bits - q.count) / 8] 8)).1 =
          List.take ((bits - q.count) % 8)
            (byteBits E B[(bits - q.count) / 8]) := by
        have h2 := valBits_valOf E (List.take ((bits - q.count) % 8)
          (queueBits E (BQ.mk B[(bits - q.count) / 8] 8)))
        rw [hlen] at h2
        rw [hu1, ← hqb]
        exact h2
      have hrun : readUnaligned E ((bits - q.count) % 8)
          (okBytes (List.drop ((bits - q.count) / 8) B))
          ((List.take ((bits - q.count) / 8) B).foldl
            (fun a b => bqPush E 8 b a) q) (⟨0, 0⟩ : BQ) =
          (Except.ok (), okBytes (List.drop ((bits - q.count) / 8 + 1) B),
            bqPush E ((bits - q.count) % 8)
              (bqPop E ((bits - q.count) % 8)
                (BQ.mk B[(bits - q.count) / 8] 8)).1
              ((List.take ((bits - q.count) / 8) B).foldl
                (fun a b => bqPush E 8 b a) q),
            (bqPop E ((bits - q.count) % 8)
              (BQ.mk B[(bits - q.count) / 8] 8)).2) := by
        rw [hdropB]
        simp only [readUnaligned, if_neg hm0, okBytes, List.map_cons,
          readByteS]
      have hacc2_bits : queueBits E (bqPush E ((bits - q.count) % 8)
          (bqPop E ((bits - q.count) % 8)
            (BQ.mk B[(bits - q.count) / 8] 8)).1
          ((List.take ((bits - q.count) / 8) B).foldl
            (fun a b => bqPush E 8 b a) q)) =
          List.take bits (streamBits E q B) := by
        rw [queueBits_push E _ _ _ hf2 hval_lt, hf1, hvb]
        have hbits : bits =
            q.count + (8 * ((bits - q.count) / 8) + (bits - q.count) % 8) := by
          omega
        conv_rhs => rw [hbits]
        simp only [streamBits]
        rw [take_queue_append, List.take_add, ← flatMap_byteBits_take,
          ← flatMap_byteBits_drop, hdropB, List.flatMap_cons,
          List.take_append_of_le_length (by rw [byteBits_length]; omega),
          List.append_assoc]
      have hacc2_inv : bqInv (bqPush E ((bits - q.count) % 8)
          (bqPop E ((bits - q.count) % 8)
            (BQ.mk B[(bits - q.count) / 8] 8)).1
          ((List.take ((bits - q.count) / 8) B).foldl
            (fun a b => bqPush E 8 b a) q)) :=
        bqInv_push E _ _ _ hf2 hval_lt
      refine ⟨(bqPop E ((bits - q.count) % 8)
          (BQ.mk B[(bits - q.count) / 8] 8)).2,
        List.drop ((bits - q.count) / 8 + 1) B, ?_, ?_, hu4, by omega,
        fun b hb => hB b (List.drop_subset _ B hb)⟩
      · simp only [readOp, if_pos hw, if_neg hfast, hpop_all, hq_eta, hra,
          hrun]
        rw [← hacc2_bits, valOf_queueBits E _ hacc2_inv]
      · simp only [streamBits, hu2, hqb]
        have hbits : bits =
            q.count + (8 * ((bits - q.count) / 8) + (bits - q.count) % 8) := by
          omega
        conv_rhs => rw [hbits, drop_queue_append, ← List.drop_drop,
          ← flatMap_byteBits_drop, hdropB, List.flatMap_cons]
        rw [List.drop_append_of_le_length (by rw [byteBits_length]; omega)]

theorem valBits_bit (E : Endian) (b : Bool) :
    valBits E 1 (if b then 1 else 0) = [b] := by
  cases E <;> cases b <;> rfl

theorem bq_count_zero_eq (q : BQ) (hq : bqInv q) (h0 : q.count = 0) :
    q = ⟨0, 0⟩ := by
  have h1 : q.value < 1 := by
    have := hq
    simp only [bqInv, h0, pow_zero] at this
    exact this
  cases q
  simp_all

/-- Popping `k` whole bytes off a well-formed accumulator yields exactly
its first `8k` bits as bytes. -/
theorem popBytesAux_spec (E : Endian) (k : Nat) (q : BQ) (hq : bqInv q)
    (hk : 8 * k ≤ q.count) :
    (popBytesAux E k q).1.flatMap (byteBits E) =
        List.take (8 * k) (queueBits E q) ∧
      (∀ b ∈ (popBytesAux E k q).1, b < 256) ∧
      queueBits E (popBytesAux E k q).2 = List.drop (8 * k) (queueBits E q) ∧
      (popBytesAux E k q).2.count = q.count - 8 * k ∧
      bqInv (popBytesAux E k q).2 := by
  induction k generalizing q with
  | zero => simp [popBytesAux, hq]
  | succ j ih =>
    obtain ⟨hp1, hp2, hp3, hp4⟩ := bqPop_spec E 8 q hq (by omega)
    have hlen8 : (List.take 8 (queueBits E q)).length = 8 := by
      rw [List.length_take, queueBits_length]
      omega
    have hv8 : (bqPop E 8 q).1 < 2 ^ 8 := by
      rw [hp1]
      have h := valOf_lt E (List.take 8 (queueBits E q))
      rw [hlen8] at h
      exact h
    have hmod : (bqPop E 8 q).1 % 256 = (bqPop E 8 q).1 :=
      Nat.mod_eq_of_lt (by omega)
    have hbb : byteBits E (bqPop E 8 q).1 = List.take 8 (queueBits E q) := by
      have h2 := valBits_valOf E (List.take 8 (queueBits E q))
      rw [hlen8] at h2
      rw [byteBits, hp1]
      exact h2
    obtain ⟨hi1, hi2, hi3, hi4, hi5⟩ := ih (bqPop E 8 q).2 hp4 (by
      rw [hp3]
      omega)
    simp only [popBytesAux]
    refine ⟨?_, ?_, ?_, ?_, hi5⟩
    · rw [List.flatMap_cons, hmod, hbb, hi1, hp2]
      have h8 : 8 * (j + 1) = 8 + 8 * j := by ring
      rw [h8, List.take_add]
    · intro b hb
      rcases List.mem_cons.mp hb with h | h
      · rw [h, hmod]; omega
      · exact hi2 b h
    · rw [hi3, hp2, List.drop_drop]
      congr 1
      ring
    · rw [hi4, hp3]
      omega

/-- `write_bit` appends one stream bit, flushing a byte exactly when the
residual fills. -/
theorem writeBit_spec (E : Endian) (b : Bool) (st : Wtr) (hq : bqInv st.bq)
    (h7 : st.bq.count ≤ 7) (hsink : ∀ x ∈ st.sink, x < 256) :
    ∃ st1, writeBit E b st = (Except.ok (), st1) ∧
      outBits E st1 = outBits E st ++ [b] ∧
      bqInv st1.bq ∧ st1.bq.count = (st.bq.count + 1) % 8 ∧
      (∀ x ∈ st1.sink, x < 256) := by
  have hb1 : (if b then 1 else 0) < 2 ^ 1 := by cases b <;> simp
  have hpush := queueBits_push E 1 (if b then 1 else 0) st.bq hq hb1
  have hpinv := bqInv_push E 1 (if b then 1 else 0) st.bq hq hb1
  rw [valBits_bit] at hpush
  by_cases hfull : (bqPush E 1 (if b then 1 else 0) st.bq).count = 8
  · obtain ⟨hp1, hp2, hp3, hp4⟩ :=
      bqPop_spec E 8 (bqPush E 1 (if b then 1 else 0) st.bq) hpinv
        (by omega)
    have hlen8 : (List.take 8
        (queueBits E (bqPush E 1 (if b then 1 else 0) st.bq))).length = 8 := by
      rw [List.length_take, queueBits_length]
      omega
    have hbb : byteBits E
        (bqPop E 8 (bqPush E 1 (if b then 1 else 0) st.bq)).1 =
        queueBits E (bqPush E 1 (if b then 1 else 0) st.bq) := by
      have h2 := valBits_valOf E (List.take 8
        (queueBits E (bqPush E 1 (if b then 1 else 0) st.bq)))
      rw [hlen8] at h2
      rw [byteBits, hp1, h2]
      exact List.take_of_length_le (by rw [queueBits_length]; omega)
    have hv8 : (bqPop E 8 (bqPush E 1 (if b then 1 else 0) st.bq)).1 <
        2 ^ 8 := by
      rw [hp1]
      have h := valOf_lt E (List.take 8
        (queueBits E (bqPush E 1 (if b then 1 else 0) st.bq)))
      rw [hlen8] at h
      exact h
    refine ⟨⟨st.sink ++ [(bqPop E 8 (bqPush E 1 (if b then 1 else 0) st.bq)).1],
        (bqPop E 8 (bqPush E 1 (if b then 1 else 0) st.bq)).2⟩,
      by simp only [writeBit, if_pos hfull], ?_, ?_, ?_, ?_⟩
    · simp only [outBits, List.flatMap_append, List.flatMap_cons,
        List.flatMap_nil, List.append_nil, hbb, hpush]
      have hq2 : (bqPop E 8 (bqPush E 1 (if b then 1 else 0) st.bq)).2 =
          ⟨0, 0⟩ := by
        apply bq_count_zero_eq _ hp4
        rw [hp3, hfull]
      rw [hq2, queueBits_zero, List.append_nil, List.append_assoc]
    · have hq2 : (bqPop E 8 (bqPush E 1 (if b then 1 else 0) st.bq)).2 =
          ⟨0, 0⟩ := by
        apply bq_count_zero_eq _ hp4
        rw [hp3, hfull]
      rw [hq2]
      exact bqInv_zero
    · rw [hp3, hfull]
      have hc : st.bq.count + 1 = 8 := by
        rw [← hfull, bqPush_count]
      omega
    · intro x hx
      rcases List.mem_append.mp hx with h | h
      · exact hsink x h
      · rcases List.mem_singleton.mp h with h1
        rw [h1]
        omega
  · refine ⟨⟨st.sink, bqPush E 1 (if b then 1 else 0) st.bq⟩,
      by simp only [writeBit, if_neg hfull], ?_, hpinv, ?_, hsink⟩
    · simp only [outBits, hpush, List.append_assoc]
    · rw [bqPush_count] at hfull ⊢
      omega

theorem queueBits_mk (E : Endian) (v n : Nat) :
    queueBits E (BQ.mk v n) = valBits E n v := rfl

/-- Main writer lemma: a permitted `write` appends exactly the field's
bits to the output stream; the residual stays at most 7 bits. -/
theorem writeOp_spec (E : Endian) (w bits v : Nat) (st : Wtr)
    (hq : bqInv st.bq) (h7 : st.bq.count ≤ 7) (hsink : ∀ x ∈ st.sink, x < 256)
    (hw : bits ≤ w) (hv : v < 2 ^ bits) :
    ∃ st1, writeOp E w bits v st = (Except.ok (), st1) ∧
      outBits E st1 = outBits E st ++ valBits E bits v ∧
      bqInv st1.bq ∧ st1.bq.count = (st.bq.count + bits) % 8 ∧
      (∀ x ∈ st1.sink, x < 256) := by
  have hng : ¬ bits > w := by omega
  have hnv : ¬ (bits < w ∧ 2 ^ bits ≤ v) := by
    rintro ⟨_, h2⟩
    omega
  by_cases hfast : bits < 8 - st.bq.count
  · have h27 : (2 : Nat) ^ bits ≤ 2 ^ 7 :=
      Nat.pow_le_pow_right (by norm_num) (by omega)
    have hmod : v % 256 = v := Nat.mod_eq_of_lt (by
      have : (2 : Nat) ^ 7 = 128 := by norm_num
      omega)
    refine ⟨⟨st.sink, bqPush E bits (v % 256) st.bq⟩,
      by simp only [writeOp, if_neg hng, if_neg hnv, if_pos hfast], ?_, ?_,
      ?_, hsink⟩
    · rw [hmod]
      simp only [outBits, queueBits_push E bits v st.bq hq hv,
        List.append_assoc]
    · rw [hmod]
      exact bqInv_push E bits v st.bq hq hv
    · rw [hmod, bqPush_count, Nat.mod_eq_of_lt (by omega)]
  · have hge : 8 - st.bq.count ≤ bits := by omega
    have hvinv : bqInv (BQ.mk v bits) := hv
    by_cases hc0 : st.bq.count = 0
    · -- residual empty: only aligned bytes and the final sub-byte remain
      have hst0 : st.bq = ⟨0, 0⟩ := bq_count_zero_eq st.bq hq hc0
      have hwu : writeUnaligned E (BQ.mk v bits) st.bq st.sink =
          (BQ.mk v bits, st.bq, st.sink) := by
        simp [writeUnaligned, hc0]
      obtain ⟨hP1, hP2, hP3, hP4, hP5⟩ :=
        popBytesAux_spec E (bits / 8) (BQ.mk v bits) hvinv
          (by rw [bq_mk_count]; omega)
      have hP4' : (popBytesAux E (bits / 8) (BQ.mk v bits)).2.count =
          bits % 8 := by
        rw [hP4, bq_mk_count]
        omega
      have hvlt : (popBytesAux E (bits / 8) (BQ.mk v bits)).2.value < 256 := by
        have h1 := hP5
        rw [bqInv, hP4'] at h1
        have h2 : (2 : Nat) ^ (bits % 8) ≤ 2 ^ 7 :=
          Nat.pow_le_pow_right (by norm_num) (by omega)
        have h3 : (2 : Nat) ^ 7 = 128 := by norm_num
        omega
      have hvmod : (popBytesAux E (bits / 8) (BQ.mk v bits)).2.value % 256 =
          (popBytesAux E (bits / 8) (BQ.mk v bits)).2.value :=
        Nat.mod_eq_of_lt hvlt
      refine ⟨⟨st.sink ++ (popBytesAux E (bits / 8) (BQ.mk v bits)).1,
          bqPush E (popBytesAux E (bits / 8) (BQ.mk v bits)).2.count
            ((popBytesAux E (bits / 8) (BQ.mk v bits)).2.value % 256)
            st.bq⟩,
        ?_, ?_, ?_, ?_, ?_⟩
      · simp only [writeOp, if_neg hng, if_neg hnv, if_neg hfast, hwu,
          writeAligned]
      · rw [hvmod, hst0]
        have hpp := queueBits_push E
          (popBytesAux E (bits / 8) (BQ.mk v bits)).2.count
          (popBytesAux E (bits / 8) (BQ.mk v bits)).2.value
          ⟨0, 0⟩ bqInv_zero hP5
        simp only [outBits, List.flatMap_append, hpp, queueBits_zero,
          List.append_nil, List.nil_append]
        have hqb2 : valBits E (popBytesAux E (bits / 8) (BQ.mk v bits)).2.count
            (popBytesAux E (bits / 8) (BQ.mk v bits)).2.value =
            queueBits E (popBytesAux E (bits / 8) (BQ.mk v bits)).2 := rfl
        rw [hqb2, hP1, hP3, List.append_assoc, List.take_append_drop,
          queueBits_mk, hst0, queueBits_zero, List.append_nil]
      · rw [hvmod, hst0]
        exact bqInv_push E _ _ _ bqInv_zero hP5
      · rw [hvmod, hst0, bqPush_count, hP4']
        simp only [bq_mk_count]
        omega
      · intro x hx
        rcases List.mem_append.mp hx with h | h
        · exact hsink x h
        · exact hP2 x h
    · -- nonempty residual: fill and flush the current byte first
      have ht : min (8 - st.bq.count) (BQ.mk v bits).count =
          8 - st.bq.count := by
        simp only [bq_mk_count]
        omega
      obtain ⟨ha1, ha2, ha3, ha4⟩ :=
        bqPop_spec E (8 - st.bq.count) (BQ.mk v bits) hvinv
          (by simp only [bq_mk_count]; omega)
      have ha3' : (bqPop E (8 - st.bq.count) (BQ.mk v bits)).2.count =
          bits - (8 - st.bq.count) := ha3
      have hlen_t : (List.take (8 - st.bq.count)
          (queueBits E (BQ.mk v bits))).length = 8 - st.bq.count := by
        rw [List.length_take, queueBits_length]
        simp only [bq_mk_count]
        omega
      have hp1lt : (bqPop E (8 - st.bq.count) (BQ.mk v bits)).1 <
          2 ^ (8 - st.bq.count) := by
        rw [ha1]
        have h := valOf_lt E (List.take (8 - st.bq.count)
          (queueBits E (BQ.mk v bits)))
        rw [hlen_t] at h
        exact h
      have hp1mod : (bqPop E (8 - st.bq.count) (BQ.mk v bits)).1 % 256 =
          (bqPop E (8 - st.bq.count) (BQ.mk v bits)).1 := by
        apply Nat.mod_eq_of_lt
        have h2 : (2 : Nat) ^ (8 - st.bq.count) ≤ 2 ^ 7 :=
          Nat.pow_le_pow_right (by norm_num) (by omega)
        have h3 : (2 : Nat) ^ 7 = 128 := by norm_num
        omega
      have hvb_t : valBits E (8 - st.bq.count)
          (bqPop E (8 - st.bq.count) (BQ.mk v bits)).1 =
          List.take (8 - st.bq.count) (queueBits E (BQ.mk v bits)) := by
        have h2 := valBits_valOf E (List.take (8 - st.bq.count)
          (queueBits E (BQ.mk v bits)))
        rw [hlen_t] at h2
        rw [ha1]
        exact h2
      have hrem1_inv : bqInv (bqPush E (8 - st.bq.count)
          (bqPop E (8 - st.bq.count) (BQ.mk v bits)).1 st.bq) :=
        bqInv_push E _ _ _ hq hp1lt
      have hrem1_cnt : (bqPush E (8 - st.bq.count)
          (bqPop E (8 - st.bq.count) (BQ.mk v bits)).1 st.bq).count = 8 := by
        rw [bqPush_count]
        omega
      have hrem1_bits : queueBits E (bqPush E (8 - st.bq.count)
          (bqPop E (8 - st.bq.count) (BQ.mk v bits)).1 st.bq) =
          queueBits E st.bq ++
            List.take (8 - st.bq.count) (queueBits E (BQ.mk v bits)) := by
        rw [queueBits_push E _ _ _ hq hp1lt, hvb_t]
      obtain ⟨hb1, hb2, hb3, hb4⟩ :=
        bqPop_spec E 8 (bqPush E (8 - st.bq.count)
          (bqPop E (8 - st.bq.count) (BQ.mk v bits)).1 st.bq) hrem1_inv
          (by omega)
      have hbyte_bits : byteBits E (bqPop E 8 (bqPush E (8 - st.bq.count)
          (bqPop E (8 - st.bq.count) (BQ.mk v bits)).1 st.bq)).1 =
          queueBits E (bqPush E (8 - st.bq.count)
            (bqPop E (8 - st.bq.count) (BQ.mk v bits)).1 st.bq) := by
        have hlen8 : (List.take 8 (queueBits E (bqPush E (8 - st.bq.count)
            (bqPop E (8 - st.bq.count) (BQ.mk v bits)).1 st.bq))).length =
            8 := by
          rw [List.length_take, queueBits_length]
          omega
        have h2 := valBits_valOf E (List.take 8
          (queueBits E (bqPush E (8 - st.bq.count)
            (bqPop E (8 - st.bq.count) (BQ.mk v bits)).1 st.bq)))
        rw [hlen8] at h2
        rw [byteBits, hb1, h2]
        exact List.take_of_length_le (by rw [queueBits_length]; omega)
      have hbyte_lt : (bqPop E 8 (bqPush E (8 - st.bq.count)
          (bqPop E (8 - st.bq.count) (BQ.mk v bits)).1 st.bq)).1 < 256 := by
        have hlen8 : (List.take 8 (queueBits E (bqPush E (8 - st.bq.count)
            (bqPop E (8 - st.bq.count) (BQ.mk v bits)).1 st.bq))).length =
            8 := by
          rw [List.length_take, queueBits_length]
          omega
        have h := valOf_lt E (List.take 8
          (queueBits E (bqPush E (8 - st.bq.count)
            (bqPop E (8 - st.bq.count) (BQ.mk v bits)).1 st.bq)))
        rw [hlen8] at h
        rw [hb1]
        have h256 : (2 : Nat) ^ 8 = 256 := by norm_num
        omega
      have hrem2 : (bqPop E 8 (bqPush E (8 - st.bq.count)
          (bqPop E (8 - st.bq.count) (BQ.mk v bits)).1 st.bq)).2 =
          ⟨0, 0⟩ := by
        apply bq_count_zero_eq _ hb4
        rw [hb3, hrem1_cnt]
      have hwu : writeUnaligned E (BQ.mk v bits) st.bq st.sink =
          ((bqPop E (8 - st.bq.count) (BQ.mk v bits)).2,
            (bqPop E 8 (bqPush E (8 - st.bq.count)
              (bqPop E (8 - st.bq.count) (BQ.mk v bits)).1 st.bq)).2,
            st.sink ++ [(bqPop E 8 (bqPush E (8 - st.bq.count)
              (bqPop E (8 - st.bq.count) (BQ.mk v bits)).1 st.bq)).1]) := by
        simp only [writeUnaligned, if_neg hc0, ht, hp1mod, hrem1_cnt,
          if_pos]
      obtain ⟨hP1, hP2, hP3, hP4, hP5⟩ :=
        popBytesAux_spec E ((bits - (8 - st.bq.count)) / 8)
          (bqPop E (8 - st.bq.count) (BQ.mk v bits)).2 ha4
          (by rw [ha3']; omega)
      have hP4' : (popBytesAux E ((bits - (8 - st.bq.count)) / 8)
          (bqPop E (8 - st.bq.count) (BQ.mk v bits)).2).2.count =
          (bits - (8 - st.bq.count)) % 8 := by
        rw [hP4, ha3']
        omega
      have hvlt : (popBytesAux E ((bits - (8 - st.bq.count)) / 8)
          (bqPop E (8 - st.bq.count) (BQ.mk v bits)).2).2.value < 256 := by
        have h1 := hP5
        rw [bqInv, hP4'] at h1
        have h2 : (2 : Nat) ^ ((bits - (8 - st.bq.count)) % 8) ≤ 2 ^ 7 :=
          Nat.pow_le_pow_right (by norm_num)
            (by have := Nat.mod_lt (bits - (8 - st.bq.count))
                  (y := 8) (by norm_num)
                omega)
        have h3 : (2 : Nat) ^ 7 = 128 := by norm_num
        omega
      have hvmod : (popBytesAux E ((bits - (8 - st.bq.count)) / 8)
          (bqPop E (8 - st.bq.count) (BQ.mk v bits)).2).2.value % 256 =
          (popBytesAux E ((bits - (8 - st.bq.count)) / 8)
            (bqPop E (8 - st.bq.count) (BQ.mk v bits)).2).2.value :=
        Nat.mod_eq_of_lt hvlt
      refine ⟨⟨(st.sink ++ [(bqPop E 8 (bqPush E (8 - st.bq.count)
            (bqPop E (8 - st.bq.count) (BQ.mk v bits)).1 st.bq)).1]) ++
            (popBytesAux E ((bits - (8 - st.bq.count)) / 8)
              (bqPop E (8 - st.bq.count) (BQ.mk v bits)).2).1,
          bqPush E (popBytesAux E ((bits - (8 - st.bq.count)) / 8)
              (bqPop E (8 - st.bq.count) (BQ.mk v bits)).2).2.count
            ((popBytesAux E ((bits - (8 - st.bq.count)) / 8)
              (bqPop E (8 - st.bq.count) (BQ.mk v bits)).2).2.value % 256)
            (bqPop E 8 (bqPush E (8 - st.bq.count)
              (bqPop E (8 - st.bq.count) (BQ.mk v bits)).1 st.bq)).2⟩,
        ?_, ?_, ?_, ?_, ?_⟩
      · simp only [writeOp, if_neg hng, if_neg hnv, if_neg hfast, hwu,
          writeAligned, ha3']
      · rw [hvmod, hrem2]
        have hpp := queueBits_push E
          (popBytesAux E ((bits - (8 - st.bq.count)) / 8)
            (bqPop E (8 - st.bq.count) (BQ.mk v bits)).2).2.count
          (popBytesAux E ((bits - (8 - st.bq.count)) / 8)
            (bqPop E (8 - st.bq.count) (BQ.mk v bits)).2).2.value
          ⟨0, 0⟩ bqInv_zero hP5
        simp only [outBits, List.flatMap_append, hpp, queueBits_zero,
          List.append_nil, List.nil_append, List.flatMap_cons,
          List.flatMap_nil]
        have hqb2 : valBits E
            (popBytesAux E ((bits - (8 - st.bq.count)) / 8)
              (bqPop E (8 - st.bq.count) (BQ.mk v bits)).2).2.count
            (popBytesAux E ((bits - (8 - st.bq.count)) / 8)
              (bqPop E (8 - st.bq.count) (BQ.mk v bits)).2).2.value =
            queueBits E (popBytesAux E ((bits - (8 - st.bq.count)) / 8)
              (bqPop E (8 - st.bq.count) (BQ.mk v bits)).2).2 := rfl
        rw [hqb2, hP1, hP3, hbyte_bits, hrem1_bits, ha2]
        simp only [List.append_assoc, List.take_append_drop]
        rfl
      · rw [hvmod, hrem2]
        exact bqInv_push E _ _ _ bqInv_zero hP5
      · rw [hvmod, hrem2, bqPush_count, hP4', bq_mk_count]
        omega
      · intro x hx
        rcases List.mem_append.mp hx with h | h
        · rcases List.mem_append.mp h with h1 | h1
          · exact hsink x h1
          · rcases List.mem_singleton.mp h1 with h2
            rw [h2]
            exact hbyte_lt
        · exact hP2 x h

/-- The padding loop of `byte_align` in terms of stream bits: with enough
fuel it emits exactly the zero bits needed to reach a whole byte. -/
theorem byteAlignLoop_spec (E : Endian) (f : Nat) (st : Wtr)
    (hq : bqInv st.bq) (h7 : st.bq.count ≤ 7)
    (hsink : ∀ x ∈ st.sink, x < 256)
    (hf : st.bq.count ≠ 0 → 8 - st.bq.count ≤ f) :
    (byteAlignLoop E f st).bq = ⟨0, 0⟩ ∧
      outBits E (byteAlignLoop E f st) =
        outBits E st ++ List.replicate ((8 - st.bq.count) % 8) false ∧
      (∀ x ∈ (byteAlignLoop E f st).sink, x < 256) := by
  induction f generalizing st with
  | zero =>
    have h0 : st.bq.count = 0 := by
      by_contra h
      have := hf h
      omega
    simp only [byteAlignLoop]
    refine ⟨bq_count_zero_eq st.bq hq h0, ?_, hsink⟩
    rw [h0]
    simp
  | succ g ih =>
    by_cases h0 : st.bq.count = 0
    · simp only [byteAlignLoop, if_pos h0]
      refine ⟨bq_count_zero_eq st.bq hq h0, ?_, hsink⟩
      rw [h0]
      simp
    · obtain ⟨st1, hw, hout, hinv1, hcnt1, hsink1⟩ :=
        writeBit_spec E false st hq h7 hsink
      have hsnd : (writeBit E false st).2 = st1 := by rw [hw]
      have h71 : st1.bq.count ≤ 7 := by
        rw [hcnt1]
        exact Nat.le_of_lt_succ (Nat.mod_lt _ (by norm_num))
      have hf1 : st1.bq.count ≠ 0 → 8 - st1.bq.count ≤ g := by
        intro hne
        rw [hcnt1] at hne ⊢
        have := hf h0
        omega
      obtain ⟨hb1, hb2, hb3⟩ := ih st1 hinv1 h71 hsink1 hf1
      simp only [byteAlignLoop, if_neg h0, hsnd]
      refine ⟨hb1, ?_, hb3⟩
      rw [hb2, hout, List.append_assoc]
      congr 1
      have hrep : (8 - st1.bq.count) % 8 + 1 = (8 - st.bq.count) % 8 := by
        rw [hcnt1]
        omega
      rw [← hrep, List.singleton_append, List.replicate_succ]

/-- `byte_align` flushes the residual by padding with `(8 - count) % 8`
zero bits, leaving the writer byte-aligned. -/
theorem wtrByteAlign_spec (E : Endian) (st : Wtr) (hq : bqInv st.bq)
    (h7 : st.bq.count ≤ 7) (hsink : ∀ x ∈ st.sink, x < 256) :
    (wtrByteAlign E st).bq = ⟨0, 0⟩ ∧
      outBits E (wtrByteAlign E st) =
        outBits E st ++ List.replicate ((8 - st.bq.count) % 8) false ∧
      (∀ x ∈ (wtrByteAlign E st).sink, x < 256) :=
  byteAlignLoop_spec E 8 st hq h7 hsink (fun _ => by omega)

theorem mkWriter_out (E : Endian) : outBits E mkWriter = [] := by
  simp [outBits, mkWriter, queueBits_zero]

/-- Claim C1: for every bit-order policy, every width `n` in 1..=64 and
every value `v` below `2^n`, writing `v` with `write(n, v)` on a fresh
writer succeeds, and reading `n` bits with `read(n)` from a fresh reader
of the same policy over the produced output (the flushed bytes together
with the writer's residual bits, materialized by `byte_align`) yields `v`
again. -/
theorem claim_c1_round_trip (E : Endian) (n v : Nat) (h1 : 1 ≤ n)
    (h64 : n ≤ 64) (hv : v < 2 ^ n) :
    ∃ st1, writeOp E 64 n v mkWriter = (Except.ok (), st1) ∧
      (readOp E 64 n (mkReader (wtrByteAlign E st1).sink)).1 =
        Except.ok v := by
  obtain ⟨st1, hw, hout, hinv1, hcnt1, hsink1⟩ :=
    writeOp_spec E 64 n v mkWriter bqInv_zero
      (by show (0 : Nat) ≤ 7; norm_num)
      (by intro x hx; simp [mkWriter] at hx) h64 hv
  refine ⟨st1, hw, ?_⟩
  obtain ⟨ha1, ha2, ha3⟩ := wtrByteAlign_spec E st1 hinv1
    (by rw [hcnt1]; exact Nat.le_of_lt_succ (Nat.mod_lt _ (by norm_num)))
    hsink1
  have hflat : (wtrByteAlign E st1).sink.flatMap (byteBits E) =
      valBits E n v ++
        List.replicate ((8 - st1.bq.count) % 8) false := by
    have h2 : outBits E (wtrByteAlign E st1) =
        (wtrByteAlign E st1).sink.flatMap (byteBits E) := by
      simp [outBits, ha1, queueBits_zero]
    rw [← h2, ha2, hout, mkWriter_out, List.nil_append]
  have hlen : n ≤ 8 * (wtrByteAlign E st1).sink.length := by
    have h3 := flatMap_byteBits_length E (wtrByteAlign E st1).sink
    rw [hflat] at h3
    rw [← h3, List.length_append, valBits_length]
    omega
  obtain ⟨q1, B1, hr, hrest, hrinv, hr7, hrB⟩ :=
    readOp_spec E 64 n ⟨0, 0⟩ (wtrByteAlign E st1).sink bqInv_zero
      (by norm_num) ha3 h64 (by simpa using hlen)
  have hmk : mkReader (wtrByteAlign E st1).sink =
      ⟨okBytes (wtrByteAlign E st1).sink, ⟨0, 0⟩⟩ := rfl
  rw [hmk, hr]
  have hstream : streamBits E ⟨0, 0⟩ (wtrByteAlign E st1).sink =
      valBits E n v ++ List.replicate ((8 - st1.bq.count) % 8) false := by
    simp only [streamBits, queueBits_zero, List.nil_append]
    exact hflat
  rw [hstream, List.take_append_of_le_length (by rw [valBits_length]),
    List.take_of_length_le (by rw [valBits_length]), valOf_valBits E n v hv]

theorem claim_c1_witness :
    (1 ≤ 3 ∧ 3 ≤ 64 ∧ 5 < 2 ^ 3) ∧
      (∃ st1, writeOp Endian.be 64 3 5 mkWriter = (Except.ok (), st1) ∧
        (readOp Endian.be 64 3 (mkReader (wtrByteAlign Endian.be st1).sink)).1 =
          Except.ok 5) :=
  ⟨by decide, claim_c1_round_trip Endian.be 3 5 (by decide) (by decide)
    (by decide)⟩

theorem readByteS_no_inv (s : Src) :
    (readByteS s).1 ≠ Except.error Err.invalidInput := by
  match s with
  | [] => simp [readByteS]
  | .ok b :: rest => simp [readByteS]
  | .error k :: rest => simp [readByteS]

theorem takeBytes_no_inv (k : Nat) (s : Src) :
    (takeBytes k s).1 ≠ Except.error Err.invalidInput := by
  induction k generalizing s with
  | zero => simp [takeBytes]
  | succ j ih =>
    rcases h1 : readByteS s with ⟨res, s1⟩
    rcases res with e | b
    · have hh := readByteS_no_inv s
      rw [h1] at hh
      simp only [takeBytes, h1]
      simpa using hh
    · rcases h2 : takeBytes j s1 with ⟨res2, s2⟩
      rcases res2 with e2 | bs
      · have hh := ih s1
        rw [h2] at hh
        simp only [takeBytes, h1, h2]
        simpa using hh
      · simp [takeBytes, h1, h2]

theorem readOp_no_inv (E : Endian) (w bits : Nat) (r : Rdr)
    (hw : bits ≤ w) :
    (readOp E w bits r).1 ≠ Except.error Err.invalidInput := by
  simp only [readOp, if_pos hw]
  by_cases hfast : bits ≤ r.bq.count
  · simp [if_pos hfast]
  · rcases h1 : takeBytes ((bits - r.bq.count) / 8) r.src with ⟨res, s1⟩
    rcases res with e | bs
    · have hh := takeBytes_no_inv ((bits - r.bq.count) / 8) r.src
      rw [h1] at hh
      simp only [if_neg hfast, readAligned, h1]
      simpa using hh
    · by_cases hm : (bits - r.bq.count) % 8 = 0
      · simp [if_neg hfast, readAligned, h1, readUnaligned, hm]
      · rcases h2 : readByteS s1 with ⟨res2, s2⟩
        rcases res2 with e2 | b
        · have hh := readByteS_no_inv s1
          rw [h2] at hh
          simp only [if_neg hfast, readAligned, h1, readUnaligned,
            if_neg hm, h2]
          simpa using hh
        · simp [if_neg hfast, readAligned, h1, readUnaligned, hm, h2]

theorem writeOp_ok_shape (E : Endian) (w bits v : Nat) (st : Wtr)
    (h1 : ¬ bits > w) (h2 : ¬ (bits < w ∧ 2 ^ bits ≤ v)) :
    (writeOp E w bits v st).1 = Except.ok () := by
  simp only [writeOp, if_neg h1, if_neg h2]
  by_cases hfast : bits < 8 - st.bq.count
  · simp [if_pos hfast]
  · simp [if_neg hfast]

/-- Claim C2: `read` fails with InvalidInput exactly when the requested
bit count exceeds the type's width; `write` fails with InvalidInput
exactly when the bit count exceeds the width, or the count is below the
width and the value does not fit it; no other argument combination
produces InvalidInput. -/
theorem claim_c2_invalid_input (E : Endian) (w bits v : Nat) (r : Rdr)
    (st : Wtr) (hv : v < 2 ^ w) :
    ((readOp E w bits r).1 = Except.error Err.invalidInput ↔ w < bits) ∧
    ((writeOp E w bits v st).1 = Except.error Err.invalidInput ↔
      (w < bits ∨ (bits < w ∧ 2 ^ bits ≤ v))) := by
  constructor
  · constructor
    · intro h
      by_contra hle
      exact readOp_no_inv E w bits r (by omega) h
    · intro h
      simp [readOp, Nat.not_le_of_lt h]
  · constructor
    · intro h
      by_contra hcases
      push_neg at hcases
      obtain ⟨hc1, hc2⟩ := hcases
      have hsh := writeOp_ok_shape E w bits v st (by omega)
        (by rintro ⟨hb1, hb2⟩; exact absurd hb2 (by simpa using hc2 hb1))
      rw [hsh] at h
      simp at h
    · intro h
      rcases h with h | ⟨ha, hb⟩
      · simp [writeOp, h, Nat.lt_iff_add_one_le]
      · have hng : ¬ bits > w := by omega
        simp [writeOp, if_neg hng, ha, hb]

/-- Claim C8: an InvalidInput rejection happens before the accumulator is
touched: the rejected `read` or `write` returns with the reader's or
writer's residual queue and underlying stream exactly as before the
call. -/
theorem claim_c8_reject_untouched (E : Endian) (w bits v : Nat) (r : Rdr)
    (st : Wtr) :
    (w < bits → readOp E w bits r = (Except.error Err.invalidInput, r)) ∧
    (w < bits ∨ (bits < w ∧ 2 ^ bits ≤ v) →
      writeOp E w bits v st = (Except.error Err.invalidInput, st)) := by
  constructor
  · intro h
    simp [readOp, Nat.not_le_of_lt h]
  · intro h
    rcases h with h | ⟨ha, hb⟩
    · simp [writeOp, h, Nat.lt_iff_add_one_le]
    · have hng : ¬ bits > w := by omega
      simp [writeOp, if_neg hng, ha, hb]

theorem claim_c2_witness :
    (5 : Nat) < 2 ^ 8 ∧
      (((readOp Endian.be 8 9 (mkReader [])).1 =
          Except.error Err.invalidInput ↔ 8 < 9) ∧
        ((writeOp Endian.be 8 9 5 mkWriter).1 =
          Except.error Err.invalidInput ↔
          (8 < 9 ∨ (9 < 8 ∧ 2 ^ 9 ≤ 5)))) :=
  ⟨by decide, claim_c2_invalid_input Endian.be 8 9 5 (mkReader []) mkWriter
    (by decide)⟩

theorem claim_c8_witness :
    (8 < 9 → readOp Endian.le 8 9 (mkReader [7]) =
      (Except.error Err.invalidInput, mkReader [7])) ∧
    (8 < 9 ∨ (9 < 8 ∧ 2 ^ 9 ≤ 3) →
      writeOp Endian.le 8 9 3 mkWriter =
        (Except.error Err.invalidInput, mkWriter)) :=
  claim_c8_reject_untouched Endian.le 8 9 3 (mkReader [7]) mkWriter

theorem readByteS_err (s : Src) (e : Err) (h : (readByteS s).1 = Except.error e) :
    ∃ k, e = Err.ioErr k := by
  match s with
  | [] =>
    simp [readByteS] at h
    exact ⟨EK.unexpectedEof, h.symm⟩
  | .ok b :: rest => simp [readByteS] at h
  | .error k :: rest =>
    simp [readByteS] at h
    exact ⟨k, h.symm⟩

theorem takeBytes_err (k : Nat) (s : Src) (e : Err)
    (h : (takeBytes k s).1 = Except.error e) : ∃ k1, e = Err.ioErr k1 := by
  induction k generalizing s with
  | zero => simp [takeBytes] at h
  | succ j ih =>
    rcases h1 : readByteS s with ⟨res, s1⟩
    rcases res with e0 | b
    · have hh := readByteS_err s e0 (by rw [h1])
      simp only [takeBytes, h1] at h
      rw [Except.error.injEq] at h
      subst h
      exact hh
    · rcases h2 : takeBytes j s1 with ⟨res2, s2⟩
      rcases res2 with e2 | bs
      · simp only [takeBytes, h1, h2] at h
        rw [Except.error.injEq] at h
        subst h
        exact ih s1 (by rw [h2])
      · simp [takeBytes, h1, h2] at h

theorem readOp_err (E : Endian) (w bits : Nat) (r : Rdr) (e : Err)
    (h : (readOp E w bits r).1 = Except.error e) :
    e = Err.invalidInput ∨ ∃ k, e = Err.ioErr k := by
  by_cases hw : bits ≤ w
  · right
    by_cases hfast : bits ≤ r.bq.count
    · simp [readOp, hw, hfast] at h
    · rcases h1 : takeBytes ((bits - r.bq.count) / 8) r.src with ⟨res, s1⟩
      rcases res with e0 | bs
      · have hh := takeBytes_err _ _ e0 (by rw [h1])
        simp only [readOp, if_pos hw, if_neg hfast, readAligned, h1] at h
        rw [Except.error.injEq] at h
        subst h
        exact hh
      · by_cases hm : (bits - r.bq.count) % 8 = 0
        · simp [readOp, hw, hfast, readAligned, h1, readUnaligned, hm] at h
        · rcases h2 : readByteS s1 with ⟨res2, s2⟩
          rcases res2 with e2 | b
          · have hh := readByteS_err s1 e2 (by rw [h2])
            simp only [readOp, if_pos hw, if_neg hfast, readAligned, h1,
              readUnaligned, if_neg hm, h2] at h
            rw [Except.error.injEq] at h
            subst h
            exact hh
          · simp [readOp, hw, hfast, readAligned, h1, readUnaligned, hm,
              h2] at h
  · left
    have h2 : (readOp E w bits r).1 = Except.error Err.invalidInput := by
      simp [readOp, hw]
    rw [h2] at h
    injection h with h3
    exact h3.symm

theorem readBit_err (E : Endian) (r : Rdr) (e : Err)
    (h : (readBit E r).1 = Except.error e) : ∃ k, e = Err.ioErr k := by
  by_cases h0 : r.bq.count = 0
  · rcases h1 : readByteS r.src with ⟨res, s1⟩
    rcases res with e0 | b
    · have hh := readByteS_err r.src e0 (by rw [h1])
      simp only [readBit, if_pos h0, h1] at h
      rw [Except.error.injEq] at h
      subst h
      exact hh
    · simp [readBit, h0, h1] at h
  · simp [readBit, h0] at h

theorem writeBit_never_err (E : Endian) (b : Bool) (st : Wtr) :
    ∃ st1, writeBit E b st = (Except.ok (), st1) := by
  by_cases hfull : (bqPush E 1 (if b then 1 else 0) st.bq).count = 8
  · exact ⟨⟨st.sink ++ [(bqPop E 8 (bqPush E 1 (if b then 1 else 0) st.bq)).1],
      (bqPop E 8 (bqPush E 1 (if b then 1 else 0) st.bq)).2⟩,
      by simp only [writeBit, if_pos hfull]⟩
  · exact ⟨⟨st.sink, bqPush E 1 (if b then 1 else 0) st.bq⟩,
      by simp only [writeBit, if_neg hfull]⟩

theorem writeOp_err (E : Endian) (w bits v : Nat) (st : Wtr) (e : Err)
    (h : (writeOp E w bits v st).1 = Except.error e) :
    e = Err.invalidInput := by
  by_cases h1 : bits > w
  · have h3 : (writeOp E w bits v st).1 = Except.error Err.invalidInput := by
      simp [writeOp, h1]
    rw [h3] at h
    injection h with h4
    exact h4.symm
  · by_cases h2 : bits < w ∧ 2 ^ bits ≤ v
    · have h3 : (writeOp E w bits v st).1 =
          Except.error Err.invalidInput := by
        simp [writeOp, if_neg h1, if_pos h2]
      rw [h3] at h
      injection h with h4
      exact h4.symm
    · rw [writeOp_ok_shape E w bits v st h1 h2] at h
      simp at h

/-- Claim C10: `read_signed` and `write_signed` do not validate
`bits >= 1`: with `bits = 0` the width check passes and the `u32`
subtraction `bits - 1` underflows (a panic in debug builds) instead of
returning InvalidInput — for the MSB-first reader this happens after the
sign bit is read, so a readable source is assumed there; with
`bits >= 1` neither operation can reach the panic. -/
theorem claim_c10_signed_zero_bits :
    (∀ (w : Nat) (r : Rdr),
      (readSigned Endian.le w 0 r).1 = Except.error Err.panicked) ∧
    (∀ (w b : Nat) (s : Src) (q : BQ),
      (readSigned Endian.be w 0 ⟨Except.ok b :: s, q⟩).1 =
        Except.error Err.panicked) ∧
    (∀ (E : Endian) (w : Nat) (v : Int) (st : Wtr),
      (writeSigned E w 0 v st).1 = Except.error Err.panicked) ∧
    (∀ (E : Endian) (w bits : Nat) (r : Rdr) (st : Wtr) (v : Int),
      1 ≤ bits →
      (readSigned E w bits r).1 ≠ Except.error Err.panicked ∧
      (writeSigned E w bits v st).1 ≠ Except.error Err.panicked) := by
  refine ⟨?_, ?_, ?_, ?_⟩
  · intro w r
    simp [readSigned, sub1]
  · intro w b s q
    by_cases h0 : q.count = 0
    · simp [readSigned, readBit, h0, readByteS, sub1]
    · simp [readSigned, readBit, h0, readByteS, sub1]
  · intro E w v st
    cases E with
    | be =>
      by_cases hneg : v < 0
      · obtain ⟨st1, hwb⟩ := writeBit_never_err Endian.be true st
        simp [writeSigned, hneg, hwb, sub1]
      · obtain ⟨st1, hwb⟩ := writeBit_never_err Endian.be false st
        simp [writeSigned, hneg, hwb, sub1]
    | le =>
      by_cases hneg : v < 0
      · simp [writeSigned, hneg, sub1]
      · simp [writeSigned, hneg, sub1]
  · intro E w bits r st v hbits
    have hs1 : sub1 bits = Except.ok (bits - 1) := by
      simp [sub1]
      omega
    constructor
    · cases E with
      | be =>
        by_cases hw : bits ≤ w
        · rcases h1 : readBit Endian.be r with ⟨res, r1⟩
          rcases res with e0 | sg
          · obtain ⟨k, rfl⟩ := readBit_err Endian.be r e0 (by rw [h1])
            simp [readSigned, hw, h1]
          · rcases h2 : readOp Endian.be w (bits - 1) r1 with ⟨res2, r2⟩
            rcases res2 with e2 | u
            · rcases readOp_err Endian.be w (bits - 1) r1 e2
                (by rw [h2]) with rfl | ⟨k, rfl⟩ <;>
                simp [readSigned, hw, h1, hs1, h2]
            · simp [readSigned, hw, h1, hs1, h2]
        · simp [readSigned, hw]
      | le =>
        by_cases hw : bits ≤ w
        · rcases h2 : readOp Endian.le w (bits - 1) r with ⟨res2, r1⟩
          rcases res2 with e2 | u
          · rcases readOp_err Endian.le w (bits - 1) r e2
              (by rw [h2]) with rfl | ⟨k, rfl⟩ <;>
              simp [readSigned, hw, hs1, h2]
          · rcases h1 : readBit Endian.le r1 with ⟨res, r2⟩
            rcases res with e0 | sg
            · obtain ⟨k, rfl⟩ := readBit_err Endian.le r1 e0 (by rw [h1])
              simp [readSigned, hw, hs1, h2, h1]
            · simp [readSigned, hw, hs1, h2, h1]
        · simp [readSigned, hw]
    · cases E with
      | be =>
        by_cases hw : bits > w
        · simp [writeSigned, hw]
        · by_cases hneg : v < 0
          · obtain ⟨st1, hwb⟩ := writeBit_never_err Endian.be true st
            rcases h2 : writeOp Endian.be w (bits - 1)
              (asUnsigned v bits) st1 with ⟨res2, st2⟩
            rcases res2 with e2 | u
            · have := writeOp_err Endian.be w (bits - 1)
                (asUnsigned v bits) st1 e2 (by rw [h2])
              rcases this with rfl
              simp [writeSigned, hw, hneg, hwb, hs1, h2]
            · simp [writeSigned, hw, hneg, hwb, hs1, h2]
          · obtain ⟨st1, hwb⟩ := writeBit_never_err Endian.be false st
            rcases h2 : writeOp Endian.be w (bits - 1) v.toNat st1 with
              ⟨res2, st2⟩
            rcases res2 with e2 | u
            · have := writeOp_err Endian.be w (bits - 1) v.toNat st1 e2
                (by rw [h2])
              rcases this with rfl
              simp [writeSigned, hw, hneg, hwb, hs1, h2]
            · simp [writeSigned, hw, hneg, hwb, hs1, h2]
      | le =>
        by_cases hw : bits > w
        · simp [writeSigned, hw]
        · by_cases hneg : v < 0
          · rcases h2 : writeOp Endian.le w (bits - 1)
              (asUnsigned v bits) st with ⟨res2, st2⟩
            rcases res2 with e2 | u
            · have := writeOp_err Endian.le w (bits - 1)
                (asUnsigned v bits) st e2 (by rw [h2])
              rcases this with rfl
              simp [writeSigned, hw, hneg, hs1, h2]
            · obtain ⟨st3, hwb⟩ := writeBit_never_err Endian.le true st2
              simp [writeSigned, hw, hneg, hs1, h2, hwb]
          · rcases h2 : writeOp Endian.le w (bits - 1) v.toNat st with
              ⟨res2, st2⟩
            rcases res2 with e2 | u
            · have := writeOp_err Endian.le w (bits - 1) v.toNat st e2
                (by rw [h2])
              rcases this with rfl
              simp [writeSigned, hw, hneg, hs1, h2]
            · obtain ⟨st3, hwb⟩ := writeBit_never_err Endian.le false st2
              simp [writeSigned, hw, hneg, hs1, h2, hwb]

theorem claim_c10_witness :
    1 ≤ 4 ∧
      ((readSigned Endian.be 8 4 (mkReader [183])).1 ≠
          Except.error Err.panicked ∧
        (writeSigned Endian.be 8 4 (-5) mkWriter).1 ≠
          Except.error Err.panicked) :=
  ⟨by decide, (claim_c10_signed_zero_bits.2.2.2 Endian.be 8 4
    (mkReader [183]) mkWriter (-5) (by decide))⟩

theorem valOf_replicate_true (E : Endian) (b : Nat) :
    valOf E (List.replicate b true) = 2 ^ b - 1 := by
  induction b with
  | zero => cases E <;> simp [valOf]
  | succ k ih =>
    rw [List.replicate_succ]
    have hp : (1 : Nat) ≤ 2 ^ k := Nat.one_le_two_pow
    cases E with
    | be =>
      simp only [valOf, List.length_replicate, ih, pow_succ, if_true]
      omega
    | le =>
      simp only [valOf, ih, pow_succ, if_true]
      omega

theorem valOf_replicate_false (E : Endian) (b : Nat) :
    valOf E (List.replicate b false) = 0 := by
  induction b with
  | zero => cases E <;> simp [valOf]
  | succ k ih =>
    rw [List.replicate_succ]
    cases E with
    | be => simp [valOf, ih]
    | le => simp [valOf, ih]

theorem valBits_ones (E : Endian) (b : Nat) :
    valBits E b (2 ^ b - 1) = List.replicate b true := by
  have h := valBits_valOf E (List.replicate b true)
  rw [List.length_replicate, valOf_replicate_true] at h
  exact h

theorem valBits_zeros (E : Endian) (b : Nat) :
    valBits E b 0 = List.replicate b false := by
  have h := valBits_valOf E (List.replicate b false)
  rw [List.length_replicate, valOf_replicate_false] at h
  exact h

theorem byteBits_255 (E : Endian) : byteBits E 255 = List.replicate 8 true :=
  valBits_ones E 8

theorem byteBits_0 (E : Endian) : byteBits E 0 = List.replicate 8 false :=
  valBits_zeros E 8

theorem byteBits_inj (E : Endian) (a b : Nat) (ha : a < 256) (hb : b < 256)
    (h : byteBits E a = byteBits E b) : a = b := by
  have h1 := valOf_valBits E 8 a (by norm_num; omega)
  have h2 := valOf_valBits E 8 b (by norm_num; omega)
  rw [← h1, ← h2]
  exact congrArg (valOf E) h

theorem valOf_single (E : Endian) (b : Bool) :
    valOf E [b] = if b then 1 else 0 := by
  cases E <;> cases b <;> simp [valOf]

theorem take_rep_bit_le (c : Bool) (n k : Nat) (t : List Bool) (h : n ≤ k) :
    List.take n (List.replicate k c ++ (!c) :: t) = List.replicate n c := by
  rw [List.take_append_of_le_length (by rw [List.length_replicate]; omega),
    List.take_replicate]
  congr 1
  omega

theorem drop_rep_bit_le (c : Bool) (n k : Nat) (t : List Bool) (h : n ≤ k) :
    List.drop n (List.replicate k c ++ (!c) :: t) =
      List.replicate (k - n) c ++ (!c) :: t := by
  rw [List.drop_append_of_le_length (by rw [List.length_replicate]; omega),
    List.drop_replicate]

theorem take_rep_bit_param (c : Bool) (k d : Nat) (t : List Bool) :
    List.take (k + 1 + d) (List.replicate k c ++ (!c) :: t) =
      List.replicate k c ++ (!c) :: List.take d t := by
  rw [List.take_append_eq_append_take,
    List.take_of_length_le (by rw [List.length_replicate]; omega),
    List.length_replicate]
  congr 1
  have hnk : k + 1 + d - k = d + 1 := by omega
  rw [hnk, List.take_succ_cons]

theorem drop_rep_bit_param (c : Bool) (k d : Nat) (t : List Bool) :
    List.drop (k + 1 + d) (List.replicate k c ++ (!c) :: t) =
      List.drop d t := by
  rw [List.drop_append_eq_append_drop,
    List.drop_eq_nil_of_le (by rw [List.length_replicate]; omega),
    List.length_replicate, List.nil_append]
  have hnk : k + 1 + d - k = d + 1 := by omega
  rw [hnk, List.drop_succ_cons]

theorem take_rep_bit_gt (c : Bool) (n k : Nat) (t : List Bool) (h : k < n) :
    List.take n (List.replicate k c ++ (!c) :: t) =
      List.replicate k c ++ (!c) :: List.take (n - k - 1) t := by
  have hn : n = k + 1 + (n - k - 1) := by omega
  conv_lhs => rw [hn]
  exact take_rep_bit_param c k (n - k - 1) t

theorem drop_rep_bit_gt (c : Bool) (n k : Nat) (t : List Bool) (h : k < n) :
    List.drop n (List.replicate k c ++ (!c) :: t) =
      List.drop (n - k - 1) t := by
  have hn : n = k + 1 + (n - k - 1) := by omega
  conv_lhs => rw [hn]
  exact drop_rep_bit_param c k (n - k - 1) t

theorem rep_ne_rep_bit (c : Bool) (j : Nat) (hj : j < 8) (l : List Bool) :
    List.replicate 8 c ≠ List.replicate j c ++ (!c) :: l := by
  intro h
  have hd := congrArg (List.drop j) h
  rw [List.drop_replicate,
    List.drop_append_of_le_length (Nat.le_of_eq (List.length_replicate ..).symm),
    List.drop_replicate, Nat.sub_self] at hd
  simp only [List.replicate_zero, List.nil_append] at hd
  have h8 : 8 - j = (8 - j - 1) + 1 := by omega
  rw [h8, List.replicate_succ] at hd
  have hhead := List.head_eq_of_cons_eq hd
  cases c <;> simp at hhead

theorem rep_prefix_ge (b : Bool) (c n : Nat) (F t : List Bool)
    (h : List.replicate c b ++ F = List.replicate n b ++ (!b) :: t) :
    c ≤ n := by
  by_contra hlt
  push_neg at hlt
  have hd := congrArg (List.drop n) h
  rw [List.drop_append_of_le_length (by rw [List.length_replicate]; omega),
    List.drop_replicate,
    List.drop_append_of_le_length (Nat.le_of_eq (List.length_replicate ..).symm),
    List.drop_replicate, Nat.sub_self, List.replicate_zero,
    List.nil_append] at hd
  have hc : c - n = (c - n - 1) + 1 := by omega
  rw [hc, List.replicate_succ] at hd
  have hhead := List.head_eq_of_cons_eq hd
  cases b <;> simp at hhead

/-- The residual queue is the `count`-bit prefix of the unread stream. -/
theorem queueBits_eq_take (E : Endian) (q : BQ) (B : List Nat) :
    queueBits E q = List.take q.count (streamBits E q B) := by
  rw [streamBits,
    List.take_append_of_le_length (Nat.le_of_eq (queueBits_length E q).symm),
    List.take_of_length_le (Nat.le_of_eq (queueBits_length E q))]

/-- The source bytes' bits are the unread stream past the residual queue. -/
theorem flatMap_eq_drop (E : Endian) (q : BQ) (B : List Nat) :
    B.flatMap (byteBits E) = List.drop q.count (streamBits E q B) := by
  rw [streamBits,
    List.drop_append_of_le_length (Nat.le_of_eq (queueBits_length E q).symm),
    List.drop_eq_nil_of_le (Nat.le_of_eq (queueBits_length E q)),
    List.nil_append]

/-- `read_aligned_unary` over a run of sentinel bytes followed by a
different byte consumes exactly the run and returns 8 bits per run byte
together with the stopping byte. -/
theorem readAlignedUnary_run (cv m stop : Nat) (rest : List Nat)
    (hstop : stop ≠ cv) :
    readAlignedUnary cv (okBytes (List.replicate m cv ++ stop :: rest)) =
      (Except.ok (8 * m, stop), okBytes rest) := by
  induction m with
  | zero =>
    have h : okBytes (List.replicate 0 cv ++ stop :: rest) =
        Except.ok stop :: okBytes rest := rfl
    rw [h]
    simp [readAlignedUnary, hstop]
  | succ j ih =>
    have h : okBytes (List.replicate (j + 1) cv ++ stop :: rest) =
        Except.ok cv :: okBytes (List.replicate j cv ++ stop :: rest) := by
      rw [List.replicate_succ, List.cons_append]
      rfl
    rw [h]
    simp [readAlignedUnary, ih, Nat.mul_succ]

/-- `pop_leading_ones` on a queue whose bits are `k` ones then a zero pops
exactly through the zero and returns `k`. -/
theorem popOnes_spec (E : Endian) (k : Nat) (t : List Bool) :
    ∀ q : BQ, bqInv q →
      queueBits E q = List.replicate k true ++ false :: t →
      (popOnes E q).1 = k ∧ queueBits E (popOnes E q).2 = t ∧
        bqInv (popOnes E q).2 ∧ (popOnes E q).2.count = q.count - (k + 1) := by
  induction k with
  | zero =>
    intro q hq hs
    simp only [List.replicate_zero, List.nil_append] at hs
    have h0 : q.count ≠ 0 := by
      intro h
      have hl := queueBits_length E q
      rw [hs, h] at hl
      simp at hl
    obtain ⟨hp1, hp2, hp3, hp4⟩ := bqPop_spec E 1 q hq (by omega)
    rw [hs] at hp1 hp2
    simp only [List.take_succ_cons, List.take_zero, List.drop_succ_cons,
      List.drop_zero] at hp1 hp2
    rw [valOf_single] at hp1
    simp only [Bool.false_eq_true, if_false] at hp1
    have hpe : popOnes E q = (0, (bqPop E 1 q).2) := by
      conv_lhs => rw [popOnes]
      rw [dif_neg h0]
      simp [hp1]
    rw [hpe]
    exact ⟨rfl, hp2, hp4, by show (bqPop E 1 q).2.count = q.count - (0 + 1); omega⟩
  | succ j ih =>
    intro q hq hs
    rw [List.replicate_succ, List.cons_append] at hs
    have h0 : q.count ≠ 0 := by
      intro h
      have hl := queueBits_length E q
      rw [hs, h] at hl
      simp at hl
    obtain ⟨hp1, hp2, hp3, hp4⟩ := bqPop_spec E 1 q hq (by omega)
    rw [hs] at hp1 hp2
    simp only [List.take_succ_cons, List.take_zero, List.drop_succ_cons,
      List.drop_zero] at hp1 hp2
    rw [valOf_single] at hp1
    simp only [if_true] at hp1
    obtain ⟨ih1, ih2, ih3, ih4⟩ := ih (bqPop E 1 q).2 hp4 hp2
    have hpe : popOnes E q =
        ((popOnes E (bqPop E 1 q).2).1 + 1, (popOnes E (bqPop E 1 q).2).2) := by
      conv_lhs => rw [popOnes]
      rw [dif_neg h0]
      simp [hp1]
    rw [hpe]
    exact ⟨by rw [ih1], ih2, ih3, by rw [ih4, hp3]; omega⟩

/-- `pop_leading_zeros` on a queue whose bits are `k` zeros then a one pops
exactly through the one and returns `k`. -/
theorem popZeros_spec (E : Endian) (k : Nat) (t : List Bool) :
    ∀ q : BQ, bqInv q →
      queueBits E q = List.replicate k false ++ true :: t →
      (popZeros E q).1 = k ∧ queueBits E (popZeros E q).2 = t ∧
        bqInv (popZeros E q).2 ∧ (popZeros E q).2.count = q.count - (k + 1) := by
  induction k with
  | zero =>
    intro q hq hs
    simp only [List.replicate_zero, List.nil_append] at hs
    have h0 : q.count ≠ 0 := by
      intro h
      have hl := queueBits_length E q
      rw [hs, h] at hl
      simp at hl
    obtain ⟨hp1, hp2, hp3, hp4⟩ := bqPop_spec E 1 q hq (by omega)
    rw [hs] at hp1 hp2
    simp only [List.take_succ_cons, List.take_zero, List.drop_succ_cons,
      List.drop_zero] at hp1 hp2
    rw [valOf_single] at hp1
    simp only [if_true] at hp1
    have hpe : popZeros E q = (0, (bqPop E 1 q).2) := by
      conv_lhs => rw [popZeros]
      rw [dif_neg h0]
      simp [hp1]
    rw [hpe]
    exact ⟨rfl, hp2, hp4, by show (bqPop E 1 q).2.count = q.count - (0 + 1); omega⟩
  | succ j ih =>
    intro q hq hs
    rw [List.replicate_succ, List.cons_append] at hs
    have h0 : q.count ≠ 0 := by
      intro h
      have hl := queueBits_length E q
      rw [hs, h] at hl
      simp at hl
    obtain ⟨hp1, hp2, hp3, hp4⟩ := bqPop_spec E 1 q hq (by omega)
    rw [hs] at hp1 hp2
    simp only [List.take_succ_cons, List.take_zero, List.drop_succ_cons,
      List.drop_zero] at hp1 hp2
    rw [valOf_single] at hp1
    simp only [Bool.false_eq_true, if_false] at hp1
    obtain ⟨ih1, ih2, ih3, ih4⟩ := ih (bqPop E 1 q).2 hp4 hp2
    have hpe : popZeros E q =
        ((popZeros E (bqPop E 1 q).2).1 + 1, (popZeros E (bqPop E 1 q).2).2) := by
      conv_lhs => rw [popZeros]
      rw [dif_neg h0]
      simp [hp1]
    rw [hpe]
    exact ⟨by rw [ih1], ih2, ih3, by rw [ih4, hp3]; omega⟩

/-- A byte stream whose bits are a run of `n` copies of `c` followed by the
opposite bit decomposes as a run of all-`c` sentinel bytes, a stopping byte
containing the opposite bit, and the remaining bytes. -/
theorem flatMap_rep_decomp (E : Endian) (c : Bool) (cb : Nat) (hcb : cb < 256)
    (hcbbits : byteBits E cb = List.replicate 8 c) (B : List Nat) (n : Nat)
    (t : List Bool) (hB : ∀ b ∈ B, b < 256)
    (h : B.flatMap (byteBits E) = List.replicate n c ++ (!c) :: t) :
    ∃ m j stop rest t0,
      n = 8 * m + j ∧ j < 8 ∧
      B = List.replicate m cb ++ stop :: rest ∧ stop ≠ cb ∧
      byteBits E stop = List.replicate j c ++ (!c) :: t0 ∧
      t = t0 ++ rest.flatMap (byteBits E) := by
  induction B generalizing n with
  | nil =>
    exfalso
    rw [List.flatMap_nil] at h
    have hl := congrArg List.length h
    rw [List.length_nil, List.length_append, List.length_replicate,
      List.length_cons] at hl
    omega
  | cons b B' ih =>
    rw [List.flatMap_cons] at h
    have hblen : (byteBits E b).length = 8 := byteBits_length E b
    have hb256 : b < 256 := hB b (List.mem_cons_self b B')
    have hB' : ∀ x ∈ B', x < 256 := fun x hx => hB x (List.mem_cons_of_mem b hx)
    have h1 : byteBits E b =
        List.take 8 (List.replicate n c ++ (!c) :: t) := by
      rw [← h, List.take_append_of_le_length (Nat.le_of_eq hblen.symm),
        List.take_of_length_le (Nat.le_of_eq hblen)]
    have h2 : B'.flatMap (byteBits E) =
        List.drop 8 (List.replicate n c ++ (!c) :: t) := by
      rw [← h, List.drop_append_of_le_length (Nat.le_of_eq hblen.symm),
        List.drop_eq_nil_of_le (Nat.le_of_eq hblen), List.nil_append]
    by_cases hn : 8 ≤ n
    · rw [take_rep_bit_le c 8 n t hn] at h1
      rw [drop_rep_bit_le c 8 n t hn] at h2
      have hbcb : b = cb :=
        byteBits_inj E b cb hb256 hcb (h1.trans hcbbits.symm)
      obtain ⟨m, j, stop, rest, t0, hmj, hj, hBdec, hstop, hsb, ht⟩ :=
        ih (n - 8) hB' h2
      exact ⟨m + 1, j, stop, rest, t0, by omega, hj,
        by rw [List.replicate_succ, List.cons_append, hbcb, hBdec],
        hstop, hsb, ht⟩
    · push_neg at hn
      rw [take_rep_bit_gt c 8 n t hn] at h1
      rw [drop_rep_bit_gt c 8 n t hn] at h2
      have hbne : b ≠ cb := by
        intro hbe
        rw [hbe, hcbbits] at h1
        exact rep_ne_rep_bit c n hn (List.take (8 - n - 1) t) h1
      refine ⟨0, n, b, B', List.take (8 - n - 1) t, by omega, hn,
        by simp, hbne, h1, ?_⟩
      rw [h2, List.take_append_drop]

/-- `read_unary0` consumes exactly the leading run of 1 bits and the
terminating 0 bit of the unread stream and returns the run's length; the
stream past the terminator is untouched. -/
theorem readUnary0_spec (E : Endian) (q : BQ) (B : List Nat) (n : Nat)
    (t : List Bool) (hq : bqInv q) (h7 : q.count ≤ 7) (hB : ∀ b ∈ B, b < 256)
    (hs : streamBits E q B = List.replicate n true ++ false :: t) :
    ∃ q1 B1,
      readUnary0 E ⟨okBytes B, q⟩ = (Except.ok n, ⟨okBytes B1, q1⟩) ∧
      streamBits E q1 B1 = t ∧ bqInv q1 ∧ q1.count ≤ 7 ∧
      ∀ b ∈ B1, b < 256 := by
  have h28 : (2 : Nat) ^ 8 = 256 := by norm_num
  by_cases h0 : q.count = 0
  · have hqz : q = ⟨0, 0⟩ := bq_count_zero_eq q hq h0
    subst hqz
    simp only [streamBits, queueBits_zero, List.nil_append] at hs
    obtain ⟨m, j, stop, rest, t0, hmj, hj, hBdec, hstop, hsb, ht⟩ :=
      flatMap_rep_decomp E true 255 (by norm_num) (byteBits_255 E) B n t hB
        (by simp only [Bool.not_true]; exact hs)
    simp only [Bool.not_true] at hsb
    have hstop256 : stop < 256 := hB stop (by
      rw [hBdec]
      exact List.mem_append.mpr (Or.inr (List.mem_cons_self stop rest)))
    have hrest256 : ∀ b ∈ rest, b < 256 := fun x hx => hB x (by
      rw [hBdec]
      exact List.mem_append.mpr (Or.inr (List.mem_cons_of_mem stop hx)))
    have hsinv : bqInv (⟨stop, 8⟩ : BQ) := by
      show stop < 2 ^ 8
      omega
    have hqs : queueBits E (⟨stop, 8⟩ : BQ) =
        List.replicate j true ++ false :: t0 := by
      rw [queueBits_mk]
      exact hsb
    obtain ⟨hp1, hp2, hp3, hp4⟩ := popOnes_spec E j t0 ⟨stop, 8⟩ hsinv hqs
    have hsrc : readAlignedUnary 255 (okBytes B) =
        (Except.ok (8 * m, stop), okBytes rest) := by
      rw [hBdec]
      exact readAlignedUnary_run 255 m stop rest hstop
    refine ⟨(popOnes E ⟨stop, 8⟩).2, rest, ?_, ?_, hp3, ?_, hrest256⟩
    · have hgoal : readUnary0 E ⟨okBytes B, ⟨0, 0⟩⟩ =
          (Except.ok (8 * m + (popOnes E ⟨stop, 8⟩).1),
            ⟨okBytes rest, (popOnes E ⟨stop, 8⟩).2⟩) := by
        simp [readUnary0, hsrc]
      rw [hgoal, hp1, hmj]
    · simp only [streamBits]
      rw [hp2]
      exact ht.symm
    · have hc8 := bq_mk_count stop 8
      omega
  · by_cases hall : allOnes q = true
    · have hv : q.value = 2 ^ q.count - 1 := of_decide_eq_true hall
      have hqb : queueBits E q = List.replicate q.count true := by
        rw [queueBits, hv, valBits_ones]
      simp only [streamBits] at hs
      rw [hqb] at hs
      have hcn : q.count ≤ n :=
        rep_prefix_ge true q.count n (B.flatMap (byteBits E)) t
          (by simp only [Bool.not_true]; exact hs)
      have hflat : B.flatMap (byteBits E) =
          List.replicate (n - q.count) true ++ false :: t := by
        have hd := congrArg (List.drop q.count) hs
        rw [List.drop_append_of_le_length
            (Nat.le_of_eq (List.length_replicate ..).symm),
          List.drop_replicate, Nat.sub_self, List.replicate_zero,
          List.nil_append] at hd
        have hdr := drop_rep_bit_le true q.count n t hcn
        simp only [Bool.not_true] at hdr
        rw [hdr] at hd
        exact hd
      obtain ⟨m, j, stop, rest, t0, hmj, hj, hBdec, hstop, hsb, ht⟩ :=
        flatMap_rep_decomp E true 255 (by norm_num) (byteBits_255 E) B
          (n - q.count) t hB (by simp only [Bool.not_true]; exact hflat)
      simp only [Bool.not_true] at hsb
      have hstop256 : stop < 256 := hB stop (by
        rw [hBdec]
        exact List.mem_append.mpr (Or.inr (List.mem_cons_self stop rest)))
      have hrest256 : ∀ b ∈ rest, b < 256 := fun x hx => hB x (by
        rw [hBdec]
        exact List.mem_append.mpr (Or.inr (List.mem_cons_of_mem stop hx)))
      have hsinv : bqInv (⟨stop, 8⟩ : BQ) := by
        show stop < 2 ^ 8
        omega
      have hqs : queueBits E (⟨stop, 8⟩ : BQ) =
          List.replicate j true ++ false :: t0 := by
        rw [queueBits_mk]
        exact hsb
      obtain ⟨hp1, hp2, hp3, hp4⟩ := popOnes_spec E j t0 ⟨stop, 8⟩ hsinv hqs
      have hsrc : readAlignedUnary 255 (okBytes B) =
          (Except.ok (8 * m, stop), okBytes rest) := by
        rw [hBdec]
        exact readAlignedUnary_run 255 m stop rest hstop
      refine ⟨(popOnes E ⟨stop, 8⟩).2, rest, ?_, ?_, hp3, ?_, hrest256⟩
      · have hgoal : readUnary0 E ⟨okBytes B, q⟩ =
            (Except.ok (q.count + 8 * m + (popOnes E ⟨stop, 8⟩).1),
              ⟨okBytes rest, (popOnes E ⟨stop, 8⟩).2⟩) := by
          simp [readUnary0, h0, hall, hsrc]
        rw [hgoal, hp1]
        have hsum : q.count + 8 * m + j = n := by omega
        rw [hsum]
      · simp only [streamBits]
        rw [hp2]
        exact ht.symm
      · have hc8 := bq_mk_count stop 8
        omega
    · have hvne : ¬ (q.value = 2 ^ q.count - 1) := by
        intro hv
        exact hall (decide_eq_true hv)
      have hlt : n < q.count := by
        by_contra hge
        push_neg at hge
        have h1 : queueBits E q = List.replicate q.count true := by
          rw [queueBits_eq_take E q B, hs]
          have htk := take_rep_bit_le true q.count n t hge
          simp only [Bool.not_true] at htk
          rw [htk]
        have : q.value = 2 ^ q.count - 1 := by
          rw [← valOf_queueBits E q hq, h1, valOf_replicate_true]
        exact hvne this
      have hq1 : queueBits E q =
          List.replicate n true ++ false :: List.take (q.count - n - 1) t := by
        rw [queueBits_eq_take E q B, hs]
        have htk := take_rep_bit_gt true q.count n t hlt
        simp only [Bool.not_true] at htk
        rw [htk]
      have hfd : B.flatMap (byteBits E) = List.drop (q.count - n - 1) t := by
        rw [flatMap_eq_drop E q B, hs]
        have hdr := drop_rep_bit_gt true q.count n t hlt
        simp only [Bool.not_true] at hdr
        rw [hdr]
      obtain ⟨hp1, hp2, hp3, hp4⟩ :=
        popOnes_spec E n (List.take (q.count - n - 1) t) q hq hq1
      refine ⟨(popOnes E q).2, B, ?_, ?_, hp3, by omega, hB⟩
      · have hgoal : readUnary0 E ⟨okBytes B, q⟩ =
            (Except.ok (popOnes E q).1, ⟨okBytes B, (popOnes E q).2⟩) := by
          simp [readUnary0, h0, hall]
        rw [hgoal, hp1]
      · simp only [streamBits]
        rw [hp2, hfd, List.take_append_drop]

/-- `read_unary1` consumes exactly the leading run of 0 bits and the
terminating 1 bit of the unread stream and returns the run's length; the
stream past the terminator is untouched. -/
theorem readUnary1_spec (E : Endian) (q : BQ) (B : List Nat) (n : Nat)
    (t : List Bool) (hq : bqInv q) (h7 : q.count ≤ 7) (hB : ∀ b ∈ B, b < 256)
    (hs : streamBits E q B = List.replicate n false ++ true :: t) :
    ∃ q1 B1,
      readUnary1 E ⟨okBytes B, q⟩ = (Except.ok n, ⟨okBytes B1, q1⟩) ∧
      streamBits E q1 B1 = t ∧ bqInv q1 ∧ q1.count ≤ 7 ∧
      ∀ b ∈ B1, b < 256 := by
  have h28 : (2 : Nat) ^ 8 = 256 := by norm_num
  by_cases h0 : q.count = 0
  · have hqz : q = ⟨0, 0⟩ := bq_count_zero_eq q hq h0
    subst hqz
    simp only [streamBits, queueBits_zero, List.nil_append] at hs
    obtain ⟨m, j, stop, rest, t0, hmj, hj, hBdec, hstop, hsb, ht⟩ :=
      flatMap_rep_decomp E false 0 (by norm_num) (byteBits_0 E) B n t hB
        (by simp only [Bool.not_false]; exact hs)
    simp only [Bool.not_false] at hsb
    have hstop256 : stop < 256 := hB stop (by
      rw [hBdec]
      exact List.mem_append.mpr (Or.inr (List.mem_cons_self stop rest)))
    have hrest256 : ∀ b ∈ rest, b < 256 := fun x hx => hB x (by
      rw [hBdec]
      exact List.mem_append.mpr (Or.inr (List.mem_cons_of_mem stop hx)))
    have hsinv : bqInv (⟨stop, 8⟩ : BQ) := by
      show stop < 2 ^ 8
      omega
    have hqs : queueBits E (⟨stop, 8⟩ : BQ) =
        List.replicate j false ++ true :: t0 := by
      rw [queueBits_mk]
      exact hsb
    obtain ⟨hp1, hp2, hp3, hp4⟩ := popZeros_spec E j t0 ⟨stop, 8⟩ hsinv hqs
    have hsrc : readAlignedUnary 0 (okBytes B) =
        (Except.ok (8 * m, stop), okBytes rest) := by
      rw [hBdec]
      exact readAlignedUnary_run 0 m stop rest hstop
    refine ⟨(popZeros E ⟨stop, 8⟩).2, rest, ?_, ?_, hp3, ?_, hrest256⟩
    · have hgoal : readUnary1 E ⟨okBytes B, ⟨0, 0⟩⟩ =
          (Except.ok (8 * m + (popZeros E ⟨stop, 8⟩).1),
            ⟨okBytes rest, (popZeros E ⟨stop, 8⟩).2⟩) := by
        simp [readUnary1, hsrc]
      rw [hgoal, hp1, hmj]
    · simp only [streamBits]
      rw [hp2]
      exact ht.symm
    · have hc8 := bq_mk_count stop 8
      omega
  · by_cases hall : allZeros q = true
    · have hv : q.value = 0 := of_decide_eq_true hall
      have hqb : queueBits E q = List.replicate q.count false := by
        rw [queueBits, hv, valBits_zeros]
      simp only [streamBits] at hs
      rw [hqb] at hs
      have hcn : q.count ≤ n :=
        rep_prefix_ge false q.count n (B.flatMap (byteBits E)) t
          (by simp only [Bool.not_false]; exact hs)
      have hflat : B.flatMap (byteBits E) =
          List.replicate (n - q.count) false ++ true :: t := by
        have hd := congrArg (List.drop q.count) hs
        rw [List.drop_append_of_le_length
            (Nat.le_of_eq (List.length_replicate ..).symm),
          List.drop_replicate, Nat.sub_self, List.replicate_zero,
          List.nil_append] at hd
        have hdr := drop_rep_bit_le false q.count n t hcn
        simp only [Bool.not_false] at hdr
        rw [hdr] at hd
        exact hd
      obtain ⟨m, j, stop, rest, t0, hmj, hj, hBdec, hstop, hsb, ht⟩ :=
        flatMap_rep_decomp E false 0 (by norm_num) (byteBits_0 E) B
          (n - q.count) t hB (by simp only [Bool.not_false]; exact hflat)
      simp only [Bool.not_false] at hsb
      have hstop256 : stop < 256 := hB stop (by
        rw [hBdec]
        exact List.mem_append.mpr (Or.inr (List.mem_cons_self stop rest)))
      have hrest256 : ∀ b ∈ rest, b < 256 := fun x hx => hB x (by
        rw [hBdec]
        exact List.mem_append.mpr (Or.inr (List.mem_cons_of_mem stop hx)))
      have hsinv : bqInv (⟨stop, 8⟩ : BQ) := by
        show stop < 2 ^ 8
        omega
      have hqs : queueBits E (⟨stop, 8⟩ : BQ) =
          List.replicate j false ++ true :: t0 := by
        rw [queueBits_mk]
        exact hsb
      obtain ⟨hp1, hp2, hp3, hp4⟩ := popZeros_spec E j t0 ⟨stop, 8⟩ hsinv hqs
      have hsrc : readAlignedUnary 0 (okBytes B) =
          (Except.ok (8 * m, stop), okBytes rest) := by
        rw [hBdec]
        exact readAlignedUnary_run 0 m stop rest hstop
      refine ⟨(popZeros E ⟨stop, 8⟩).2, rest, ?_, ?_, hp3, ?_, hrest256⟩
      · have hgoal : readUnary1 E ⟨okBytes B, q⟩ =
            (Except.ok (q.count + 8 * m + (popZeros E ⟨stop, 8⟩).1),
              ⟨okBytes rest, (popZeros E ⟨stop, 8⟩).2⟩) := by
          simp [readUnary1, h0, hall, hsrc]
        rw [hgoal, hp1]
        have hsum : q.count + 8 * m + j = n := by omega
        rw [hsum]
      · simp only [streamBits]
        rw [hp2]
        exact ht.symm
      · have hc8 := bq_mk_count stop 8
        omega
    · have hvne : ¬ (q.value = 0) := by
        intro hv
        exact hall (decide_eq_true hv)
      have hlt : n < q.count := by
        by_contra hge
        push_neg at hge
        have h1 : queueBits E q = List.replicate q.count false := by
          rw [queueBits_eq_take E q B, hs]
          have htk := take_rep_bit_le false q.count n t hge
          simp only [Bool.not_false] at htk
          rw [htk]
        have : q.value = 0 := by
          rw [← valOf_queueBits E q hq, h1, valOf_replicate_false]
        exact hvne this
      have hq1 : queueBits E q =
          List.replicate n false ++ true :: List.take (q.count - n - 1) t := by
        rw [queueBits_eq_take E q B, hs]
        have htk := take_rep_bit_gt false q.count n t hlt
        simp only [Bool.not_false] at htk
        rw [htk]
      have hfd : B.flatMap (byteBits E) = List.drop (q.count - n - 1) t := by
        rw [flatMap_eq_drop E q B, hs]
        have hdr := drop_rep_bit_gt false q.count n t hlt
        simp only [Bool.not_false] at hdr
        rw [hdr]
      obtain ⟨hp1, hp2, hp3, hp4⟩ :=
        popZeros_spec E n (List.take (q.count - n - 1) t) q hq hq1
      refine ⟨(popZeros E q).2, B, ?_, ?_, hp3, by omega, hB⟩
      · have hgoal : readUnary1 E ⟨okBytes B, q⟩ =
            (Except.ok (popZeros E q).1, ⟨okBytes B, (popZeros E q).2⟩) := by
          simp [readUnary1, h0, hall]
        rw [hgoal, hp1]
      · simp only [streamBits]
        rw [hp2, hfd, List.take_append_drop]

/-- `write_unary0(n)` appends exactly `n` one bits and a terminating zero
bit to the output stream, in up-to-64-bit chunks; the residual stays at
most 7 bits. -/
theorem writeUnary0_spec (E : Endian) (n : Nat) :
    ∀ st : Wtr, bqInv st.bq → st.bq.count ≤ 7 → (∀ x ∈ st.sink, x < 256) →
      ∃ st1, writeUnary0 E n st = (Except.ok (), st1) ∧
        outBits E st1 = outBits E st ++ (List.replicate n true ++ [false]) ∧
        bqInv st1.bq ∧ st1.bq.count ≤ 7 ∧ ∀ x ∈ st1.sink, x < 256 := by
  induction n using Nat.strong_induction_on with
  | _ n ih =>
    intro st hq h7 hsink
    have hone : ∀ k : Nat, (2 : Nat) ^ k - 1 < 2 ^ k := by
      intro k
      have : (1 : Nat) ≤ 2 ^ k := Nat.one_le_two_pow
      omega
    by_cases h0 : n = 0
    · subst h0
      obtain ⟨st1, hw, hout, hinv, hcnt, hsk⟩ :=
        writeBit_spec E false st hq h7 hsink
      refine ⟨st1, ?_, ?_, hinv, ?_, hsk⟩
      · rw [writeUnary0, if_pos rfl]
        exact hw
      · rw [hout]
        simp
      · rw [hcnt]
        exact Nat.le_of_lt_succ (Nat.mod_lt _ (by norm_num))
    · by_cases h31 : n ≤ 31
      · obtain ⟨st1, hw1, hout1, hinv1, hcnt1, hsk1⟩ :=
          writeOp_spec E 32 n (2 ^ n - 1) st hq h7 hsink (by omega) (hone n)
        obtain ⟨st2, hw2, hout2, hinv2, hcnt2, hsk2⟩ :=
          writeBit_spec E false st1 hinv1
            (by rw [hcnt1]; exact Nat.le_of_lt_succ (Nat.mod_lt _ (by norm_num)))
            hsk1
        refine ⟨st2, ?_, ?_, hinv2, ?_, hsk2⟩
        · rw [writeUnary0, if_neg h0, if_pos h31]
          simp only [hw1, hw2]
        · rw [hout2, hout1, valBits_ones, List.append_assoc]
        · rw [hcnt2]
          exact Nat.le_of_lt_succ (Nat.mod_lt _ (by norm_num))
      · by_cases h32 : n = 32
        · subst h32
          obtain ⟨st1, hw1, hout1, hinv1, hcnt1, hsk1⟩ :=
            writeOp_spec E 32 32 (2 ^ 32 - 1) st hq h7 hsink (by omega)
              (hone 32)
          obtain ⟨st2, hw2, hout2, hinv2, hcnt2, hsk2⟩ :=
            writeBit_spec E false st1 hinv1
              (by rw [hcnt1]
                  exact Nat.le_of_lt_succ (Nat.mod_lt _ (by norm_num)))
              hsk1
          refine ⟨st2, ?_, ?_, hinv2, ?_, hsk2⟩
          · rw [writeUnary0, if_neg h0, if_neg h31, if_pos rfl]
            simp only [hw1, hw2]
          · rw [hout2, hout1, valBits_ones, List.append_assoc]
          · rw [hcnt2]
            exact Nat.le_of_lt_succ (Nat.mod_lt _ (by norm_num))
        · by_cases h63 : n ≤ 63
          · obtain ⟨st1, hw1, hout1, hinv1, hcnt1, hsk1⟩ :=
              writeOp_spec E 64 n (2 ^ n - 1) st hq h7 hsink (by omega)
                (hone n)
            obtain ⟨st2, hw2, hout2, hinv2, hcnt2, hsk2⟩ :=
              writeBit_spec E false st1 hinv1
                (by rw [hcnt1]
                    exact Nat.le_of_lt_succ (Nat.mod_lt _ (by norm_num)))
                hsk1
            refine ⟨st2, ?_, ?_, hinv2, ?_, hsk2⟩
            · rw [writeUnary0, if_neg h0, if_neg h31, if_neg h32, if_pos h63]
              simp only [hw1, hw2]
            · rw [hout2, hout1, valBits_ones, List.append_assoc]
            · rw [hcnt2]
              exact Nat.le_of_lt_succ (Nat.mod_lt _ (by norm_num))
          · by_cases h64 : n = 64
            · subst h64
              obtain ⟨st1, hw1, hout1, hinv1, hcnt1, hsk1⟩ :=
                writeOp_spec E 64 64 (2 ^ 64 - 1) st hq h7 hsink (by omega)
                  (hone 64)
              obtain ⟨st2, hw2, hout2, hinv2, hcnt2, hsk2⟩ :=
                writeBit_spec E false st1 hinv1
                  (by rw [hcnt1]
                      exact Nat.le_of_lt_succ (Nat.mod_lt _ (by norm_num)))
                  hsk1
              refine ⟨st2, ?_, ?_, hinv2, ?_, hsk2⟩
              · rw [writeUnary0, if_neg h0, if_neg h31, if_neg h32,
                  if_neg h63, if_pos rfl]
                simp only [hw1, hw2]
              · rw [hout2, hout1, valBits_ones, List.append_assoc]
              · rw [hcnt2]
                exact Nat.le_of_lt_succ (Nat.mod_lt _ (by norm_num))
            · obtain ⟨st1, hw1, hout1, hinv1, hcnt1, hsk1⟩ :=
                writeOp_spec E 64 64 (2 ^ 64 - 1) st hq h7 hsink (by omega)
                  (hone 64)
              have h71 : st1.bq.count ≤ 7 := by
                rw [hcnt1]
                exact Nat.le_of_lt_succ (Nat.mod_lt _ (by norm_num))
              obtain ⟨st2, hw2, hout2, hinv2, hcnt2, hsk2⟩ :=
                ih (n - 64) (by omega) st1 hinv1 h71 hsk1
              refine ⟨st2, ?_, ?_, hinv2, hcnt2, hsk2⟩
              · rw [writeUnary0, if_neg h0, if_neg h31, if_neg h32,
                  if_neg h63, if_neg h64]
                simp only [hw1, hw2]
              · rw [hout2, hout1, valBits_ones, List.append_assoc]
                congr 1
                rw [← List.append_assoc, ← List.replicate_add]
                have h6 : 64 + (n - 64) = n := by omega
                rw [h6]

/-- `write_unary1(n)` appends exactly `n` zero bits and a terminating one
bit to the output stream, in up-to-64-bit chunks; the residual stays at
most 7 bits. -/
theorem writeUnary1_spec (E : Endian) (n : Nat) :
    ∀ st : Wtr, bqInv st.bq → st.bq.count ≤ 7 → (∀ x ∈ st.sink, x < 256) →
      ∃ st1, writeUnary1 E n st = (Except.ok (), st1) ∧
        outBits E st1 = outBits E st ++ (List.replicate n false ++ [true]) ∧
        bqInv st1.bq ∧ st1.bq.count ≤ 7 ∧ ∀ x ∈ st1.sink, x < 256 := by
  induction n using Nat.strong_induction_on with
  | _ n ih =>
    intro st hq h7 hsink
    have hzero : ∀ k : Nat, (0 : Nat) < 2 ^ k := fun k => Nat.two_pow_pos k
    by_cases h0 : n = 0
    · subst h0
      obtain ⟨st1, hw, hout, hinv, hcnt, hsk⟩ :=
        writeBit_spec E true st hq h7 hsink
      refine ⟨st1, ?_, ?_, hinv, ?_, hsk⟩
      · rw [writeUnary1, if_pos rfl]
        exact hw
      · rw [hout]
        simp
      · rw [hcnt]
        exact Nat.le_of_lt_succ (Nat.mod_lt _ (by norm_num))
    · by_cases h32 : n ≤ 32
      · obtain ⟨st1, hw1, hout1, hinv1, hcnt1, hsk1⟩ :=
          writeOp_spec E 32 n 0 st hq h7 hsink h32 (hzero n)
        obtain ⟨st2, hw2, hout2, hinv2, hcnt2, hsk2⟩ :=
          writeBit_spec E true st1 hinv1
            (by rw [hcnt1]; exact Nat.le_of_lt_succ (Nat.mod_lt _ (by norm_num)))
            hsk1
        refine ⟨st2, ?_, ?_, hinv2, ?_, hsk2⟩
        · rw [writeUnary1, if_neg h0, if_pos h32]
          simp only [hw1, hw2]
        · rw [hout2, hout1, valBits_zeros, List.append_assoc]
        · rw [hcnt2]
          exact Nat.le_of_lt_succ (Nat.mod_lt _ (by norm_num))
      · by_cases h64 : n ≤ 64
        · obtain ⟨st1, hw1, hout1, hinv1, hcnt1, hsk1⟩ :=
            writeOp_spec E 64 n 0 st hq h7 hsink h64 (hzero n)
          obtain ⟨st2, hw2, hout2, hinv2, hcnt2, hsk2⟩ :=
            writeBit_spec E true st1 hinv1
              (by rw [hcnt1]
                  exact Nat.le_of_lt_succ (Nat.mod_lt _ (by norm_num)))
              hsk1
          refine ⟨st2, ?_, ?_, hinv2, ?_, hsk2⟩
          · rw [writeUnary1, if_neg h0, if_neg h32, if_pos h64]
            simp only [hw1, hw2]
          · rw [hout2, hout1, valBits_zeros, List.append_assoc]
          · rw [hcnt2]
            exact Nat.le_of_lt_succ (Nat.mod_lt _ (by norm_num))
        · obtain ⟨st1, hw1, hout1, hinv1, hcnt1, hsk1⟩ :=
            writeOp_spec E 64 64 0 st hq h7 hsink (by omega) (hzero 64)
          have h71 : st1.bq.count ≤ 7 := by
            rw [hcnt1]
            exact Nat.le_of_lt_succ (Nat.mod_lt _ (by norm_num))
          obtain ⟨st2, hw2, hout2, hinv2, hcnt2, hsk2⟩ :=
            ih (n - 64) (by omega) st1 hinv1 h71 hsk1
          refine ⟨st2, ?_, ?_, hinv2, hcnt2, hsk2⟩
          · rw [writeUnary1, if_neg h0, if_neg h32, if_neg h64]
            simp only [hw1, hw2]
          · rw [hout2, hout1, valBits_zeros, List.append_assoc]
            congr 1
            rw [← List.append_assoc, ← List.replicate_add]
            have h6 : 64 + (n - 64) = n := by omega
            rw [h6]

/-- Claim C3: for every bit-order policy and every `n ≥ 0`, `write_unary0(n)`
on a fresh writer followed by `read_unary0()` on a fresh reader of the same
policy over the produced output (the flushed bytes, materialized by
`byte_align`) yields `n`; likewise `write_unary1(n)` followed by
`read_unary1()` yields `n`. -/
theorem claim_c3_unary_round_trip (E : Endian) (n : Nat) :
    (∃ st1, writeUnary0 E n mkWriter = (Except.ok (), st1) ∧
      (readUnary0 E (mkReader (wtrByteAlign E st1).sink)).1 = Except.ok n) ∧
    (∃ st1, writeUnary1 E n mkWriter = (Except.ok (), st1) ∧
      (readUnary1 E (mkReader (wtrByteAlign E st1).sink)).1 = Except.ok n) := by
  constructor
  · obtain ⟨st1, hw, hout, hinv, hcnt, hsk⟩ :=
      writeUnary0_spec E n mkWriter bqInv_zero (by show (0 : Nat) ≤ 7; norm_num)
        (by intro x hx; simp [mkWriter] at hx)
    refine ⟨st1, hw, ?_⟩
    obtain ⟨ha1, ha2, ha3⟩ := wtrByteAlign_spec E st1 hinv hcnt hsk
    have h2 : outBits E (wtrByteAlign E st1) =
        (wtrByteAlign E st1).sink.flatMap (byteBits E) := by
      simp [outBits, ha1, queueBits_zero]
    have hstream : streamBits E ⟨0, 0⟩ (wtrByteAlign E st1).sink =
        List.replicate n true ++ false ::
          List.replicate ((8 - st1.bq.count) % 8) false := by
      simp only [streamBits, queueBits_zero, List.nil_append]
      rw [← h2, ha2, hout, mkWriter_out, List.nil_append, List.append_assoc,
        List.singleton_append]
    obtain ⟨q1, B1, hr, hrest, hrinv, hr7, hrB⟩ :=
      readUnary0_spec E ⟨0, 0⟩ (wtrByteAlign E st1).sink n
        (List.replicate ((8 - st1.bq.count) % 8) false) bqInv_zero
        (by norm_num) ha3 hstream
    have hmk : mkReader (wtrByteAlign E st1).sink =
        ⟨okBytes (wtrByteAlign E st1).sink, ⟨0, 0⟩⟩ := rfl
    rw [hmk, hr]
  · obtain ⟨st1, hw, hout, hinv, hcnt, hsk⟩ :=
      writeUnary1_spec E n mkWriter bqInv_zero (by show (0 : Nat) ≤ 7; norm_num)
        (by intro x hx; simp [mkWriter] at hx)
    refine ⟨st1, hw, ?_⟩
    obtain ⟨ha1, ha2, ha3⟩ := wtrByteAlign_spec E st1 hinv hcnt hsk
    have h2 : outBits E (wtrByteAlign E st1) =
        (wtrByteAlign E st1).sink.flatMap (byteBits E) := by
      simp [outBits, ha1, queueBits_zero]
    have hstream : streamBits E ⟨0, 0⟩ (wtrByteAlign E st1).sink =
        List.replicate n false ++ true ::
          List.replicate ((8 - st1.bq.count) % 8) false := by
      simp only [streamBits, queueBits_zero, List.nil_append]
      rw [← h2, ha2, hout, mkWriter_out, List.nil_append, List.append_assoc,
        List.singleton_append]
    obtain ⟨q1, B1, hr, hrest, hrinv, hr7, hrB⟩ :=
      readUnary1_spec E ⟨0, 0⟩ (wtrByteAlign E st1).sink n
        (List.replicate ((8 - st1.bq.count) % 8) false) bqInv_zero
        (by norm_num) ha3 hstream
    have hmk : mkReader (wtrByteAlign E st1).sink =
        ⟨okBytes (wtrByteAlign E st1).sink, ⟨0, 0⟩⟩ := rfl
    rw [hmk, hr]

theorem decide_valOf_take_one (E : Endian) (a : Bool) (t : List Bool) :
    decide (valOf E (List.take 1 (a :: t)) = 1) = a := by
  rw [List.take_succ_cons, List.take_zero, valOf_single]
  cases a <;> simp

theorem getD_drop_zero (L : List Bool) (k : Nat) :
    (List.drop k L).getD 0 false = L.getD k false := by
  simp [List.getD_eq_getElem?_getD, List.getElem?_drop]

/-- `read_bit` returns exactly the first unread stream bit and advances the
stream by one bit, refilling from the source when the residual is empty. -/
theorem readBit_spec (E : Endian) (q : BQ) (B : List Nat)
    (hq : bqInv q) (h7 : q.count ≤ 7) (hB : ∀ b ∈ B, b < 256)
    (hav : 1 ≤ q.count + 8 * B.length) :
    ∃ q1 B1,
      readBit E ⟨okBytes B, q⟩ =
        (Except.ok ((streamBits E q B).getD 0 false), ⟨okBytes B1, q1⟩) ∧
      streamBits E q1 B1 = List.drop 1 (streamBits E q B) ∧
      bqInv q1 ∧ q1.count ≤ 7 ∧ ∀ b ∈ B1, b < 256 := by
  have h28 : (2 : Nat) ^ 8 = 256 := by norm_num
  by_cases h0 : q.count = 0
  · have hqz : q = ⟨0, 0⟩ := bq_count_zero_eq q hq h0
    subst hqz
    cases B with
    | nil => simp at hav
    | cons b t =>
      have hb : b < 256 := hB b (List.mem_cons_self b t)
      have hbinv : bqInv (⟨b, 8⟩ : BQ) := by
        show b < 2 ^ 8
        omega
      obtain ⟨hp1, hp2, hp3, hp4⟩ :=
        bqPop_spec E 1 ⟨b, 8⟩ hbinv (by show (1 : Nat) ≤ 8; norm_num)
      rcases hbb : byteBits E b with _ | ⟨a, L⟩
      · have hlen := byteBits_length E b
        rw [hbb] at hlen
        simp at hlen
      · have hqbb : queueBits E (⟨b, 8⟩ : BQ) = a :: L := by
          rw [queueBits_mk]
          exact hbb
        have hob : okBytes (b :: t) = Except.ok b :: okBytes t := rfl
        have hgoal : readBit E ⟨okBytes (b :: t), ⟨0, 0⟩⟩ =
            (Except.ok (decide ((bqPop E 1 ⟨b, 8⟩).1 = 1)),
              ⟨okBytes t, (bqPop E 1 ⟨b, 8⟩).2⟩) := by
          simp [readBit, hob, readByteS]
        have hval : decide ((bqPop E 1 (⟨b, 8⟩ : BQ)).1 = 1) = a := by
          rw [hp1, hqbb]
          exact decide_valOf_take_one E a L
        have hgd : (streamBits E ⟨0, 0⟩ (b :: t)).getD 0 false = a := by
          simp only [streamBits, queueBits_zero, List.nil_append,
            List.flatMap_cons, hbb, List.cons_append, List.getD_cons_zero]
        refine ⟨(bqPop E 1 ⟨b, 8⟩).2, t, ?_, ?_, hp4, ?_, ?_⟩
        · rw [hgoal, hval, hgd]
        · simp only [streamBits, queueBits_zero, List.nil_append,
            List.flatMap_cons, hbb, List.cons_append, List.drop_succ_cons,
            List.drop_zero]
          rw [hp2, hqbb, List.drop_succ_cons, List.drop_zero]
        · have hc8 := bq_mk_count b 8
          omega
        · exact fun x hx => hB x (List.mem_cons_of_mem b hx)
  · obtain ⟨hp1, hp2, hp3, hp4⟩ := bqPop_spec E 1 q hq (by omega)
    rcases hqb : queueBits E q with _ | ⟨a, L⟩
    · have hlen := queueBits_length E q
      rw [hqb] at hlen
      simp at hlen
      omega
    · have hgoal : readBit E ⟨okBytes B, q⟩ =
          (Except.ok (decide ((bqPop E 1 q).1 = 1)),
            ⟨okBytes B, (bqPop E 1 q).2⟩) := by
        simp [readBit, h0]
      have hval : decide ((bqPop E 1 q).1 = 1) = a := by
        rw [hp1, hqb]
        exact decide_valOf_take_one E a L
      have hgd : (streamBits E q B).getD 0 false = a := by
        simp only [streamBits, hqb, List.cons_append, List.getD_cons_zero]
      refine ⟨(bqPop E 1 q).2, B, ?_, ?_, hp4, by omega, hB⟩
      · rw [hgoal, hval, hgd]
      · simp only [streamBits, hqb, List.cons_append, List.drop_succ_cons,
          List.drop_zero]
        rw [hp2, hqb, List.drop_succ_cons, List.drop_zero]

/-- Claim C6: for `1 ≤ bits ≤ w`, `read_signed(bits)` under the MSB-first
policy consumes the sign bit first (stream bit 0) and then `bits-1`
magnitude bits, under the LSB-first policy consumes `bits-1` magnitude bits
first and then the sign bit (stream bit `bits-1`); in both cases a set sign
bit yields the two's-complement negative interpretation
`magnitude - 2^(bits-1)`, and exactly `bits` stream bits are consumed. -/
theorem claim_c6_read_signed (w bits : Nat) (q : BQ) (B : List Nat)
    (hq : bqInv q) (h7 : q.count ≤ 7) (hB : ∀ b ∈ B, b < 256)
    (h1 : 1 ≤ bits) (hw : bits ≤ w)
    (hav : bits ≤ q.count + 8 * B.length) :
    (∃ q1 B1,
      readSigned .be w bits ⟨okBytes B, q⟩ =
        (Except.ok
          (if (streamBits .be q B).getD 0 false then
            (valOf .be (List.take (bits - 1)
              (List.drop 1 (streamBits .be q B))) : Int) - 2 ^ (bits - 1)
          else
            (valOf .be (List.take (bits - 1)
              (List.drop 1 (streamBits .be q B))) : Int)),
         ⟨okBytes B1, q1⟩) ∧
      streamBits .be q1 B1 = List.drop bits (streamBits .be q B)) ∧
    (∃ q1 B1,
      readSigned .le w bits ⟨okBytes B, q⟩ =
        (Except.ok
          (if (streamBits .le q B).getD (bits - 1) false then
            (valOf .le (List.take (bits - 1) (streamBits .le q B)) : Int) -
              2 ^ (bits - 1)
          else
            (valOf .le (List.take (bits - 1) (streamBits .le q B)) : Int)),
         ⟨okBytes B1, q1⟩) ∧
      streamBits .le q1 B1 = List.drop bits (streamBits .le q B)) := by
  have hsub : sub1 bits = Except.ok (bits - 1) := by
    rw [sub1, if_neg (by omega)]
  constructor
  · obtain ⟨q1, B1, hb, hbs, hbi, hb7, hbB⟩ :=
      readBit_spec .be q B hq h7 hB (by omega)
    have hav1 : bits - 1 ≤ q1.count + 8 * B1.length := by
      have hl := streamBits_length .be q1 B1
      rw [hbs, List.length_drop, streamBits_length] at hl
      omega
    obtain ⟨q2, B2, hr, hrs, hri2, hr72, hrB2⟩ :=
      readOp_spec .be w (bits - 1) q1 B1 hbi hb7 hbB (by omega) hav1
    refine ⟨q2, B2, ?_, ?_⟩
    · simp only [readSigned, if_pos hw, hb, hsub, hr, asNegative]
      rw [hbs]
    · rw [hrs, hbs, List.drop_drop]
      congr 1
      omega
  · obtain ⟨q1, B1, hr, hrs, hri, hr7, hrB⟩ :=
      readOp_spec .le w (bits - 1) q B hq h7 hB (by omega) (by omega)
    have hav1 : 1 ≤ q1.count + 8 * B1.length := by
      have hl := streamBits_length .le q1 B1
      rw [hrs, List.length_drop, streamBits_length] at hl
      omega
    obtain ⟨q2, B2, hb, hbs, hbi2, hb72, hbB2⟩ :=
      readBit_spec .le q1 B1 hri hr7 hrB hav1
    have hgd : (streamBits .le q1 B1).getD 0 false =
        (streamBits .le q B).getD (bits - 1) false := by
      rw [hrs]
      exact getD_drop_zero (streamBits .le q B) (bits - 1)
    refine ⟨q2, B2, ?_, ?_⟩
    · simp only [readSigned, if_pos hw, hsub, hr, hb, asNegative]
      rw [hgd]
    · rw [hbs, hrs, List.drop_drop]
      congr 1
      omega

theorem claim_c6_witness :
    (bqInv (⟨0, 0⟩ : BQ) ∧ (⟨0, 0⟩ : BQ).count ≤ 7 ∧
        (∀ b ∈ [192], b < 256) ∧ 1 ≤ 2 ∧ 2 ≤ 8 ∧
        2 ≤ (⟨0, 0⟩ : BQ).count + 8 * [192].length) ∧
      ((∃ q1 B1,
        readSigned .be 8 2 ⟨okBytes [192], ⟨0, 0⟩⟩ =
          (Except.ok
            (if (streamBits .be ⟨0, 0⟩ [192]).getD 0 false then
              (valOf .be (List.take (2 - 1)
                (List.drop 1 (streamBits .be ⟨0, 0⟩ [192]))) : Int) -
                2 ^ (2 - 1)
            else
              (valOf .be (List.take (2 - 1)
                (List.drop 1 (streamBits .be ⟨0, 0⟩ [192]))) : Int)),
           ⟨okBytes B1, q1⟩) ∧
        streamBits .be q1 B1 =
          List.drop 2 (streamBits .be ⟨0, 0⟩ [192])) ∧
      (∃ q1 B1,
        readSigned .le 8 2 ⟨okBytes [192], ⟨0, 0⟩⟩ =
          (Except.ok
            (if (streamBits .le ⟨0, 0⟩ [192]).getD (2 - 1) false then
              (valOf .le (List.take (2 - 1)
                (streamBits .le ⟨0, 0⟩ [192])) : Int) - 2 ^ (2 - 1)
            else
              (valOf .le (List.take (2 - 1)
                (streamBits .le ⟨0, 0⟩ [192])) : Int)),
           ⟨okBytes B1, q1⟩) ∧
        streamBits .le q1 B1 =
          List.drop 2 (streamBits .le ⟨0, 0⟩ [192]))) :=
  ⟨⟨bqInv_zero, by decide, by decide, by decide, by decide, by decide⟩,
    claim_c6_read_signed 8 2 ⟨0, 0⟩ [192] bqInv_zero (by decide) (by decide)
      (by decide) (by decide) (by decide)⟩

/-- Adding a code that contains an element other than 0 or 1 into the
empty work-in-progress trie fails with InvalidBit: valid leading elements
only grow fresh tree nodes, so the first invalid element is reached at a
tree node, whose bit dispatch rejects it. -/
theorem add_empty_invalidBit (v : Nat) (c : List Nat)
    (h : ∃ b ∈ c, b ≠ 0 ∧ b ≠ 1) :
    WipT.add WipT.empty c v = Except.error HErr.invalidBit := by
  induction c with
  | nil => simp at h
  | cons b t ih =>
    obtain ⟨x, hx, hx0, hx1⟩ := h
    simp only [WipT.add]
    rcases List.mem_cons.mp hx with rfl | hxt
    · rw [if_neg hx0, if_neg hx1]
    · by_cases hb0 : b = 0
      · rw [if_pos hb0, ih ⟨x, hxt, hx0, hx1⟩]
        rfl
      · by_cases hb1 : b = 1
        · rw [if_neg hb0, if_pos hb1, ih ⟨x, hxt, hx0, hx1⟩]
          rfl
        · rw [if_neg hb0, if_neg hb1]

/-- A specification whose first code contains an element other than 0 or 1
fails compilation with InvalidBit. -/
theorem compileReadTree_invalidBit (v : Nat) (c : List Nat)
    (values : List (Nat × List Nat)) (h : ∃ b ∈ c, b ≠ 0 ∧ b ≠ 1) :
    compileReadTree ((v, c) :: values) = Except.error HErr.invalidBit := by
  rw [compileReadTree, List.foldlM_cons]
  rw [add_empty_invalidBit v c h]
  rfl

/-- Claim C4 (amended): each stated defective specification fails with
exactly the stated error — `{a:[0], c:[1,1]}` with MissingLeaf,
`{a:[0], b:[1,0], b2:[1,0]}` with DuplicateLeaf, `{a:[0], b:[0,1]}` with
OrphanedLeaf — and a specification whose first code contains an element
other than 0 or 1 fails with InvalidBit. (An invalid element in a later
code need not produce InvalidBit: a leaf collision on the path is reported
first; see the counterexample.) -/
theorem claim_c4_compile_errors :
    compileReadTree [(0, [0]), (2, [1, 1])] =
      Except.error HErr.missingLeaf ∧
    compileReadTree [(0, [0]), (1, [1, 0]), (2, [1, 0])] =
      Except.error HErr.duplicateLeaf ∧
    compileReadTree [(0, [0]), (1, [0, 1])] =
      Except.error HErr.orphanedLeaf ∧
    (∀ (v : Nat) (c : List Nat) (values : List (Nat × List Nat)),
      (∃ b ∈ c, b ≠ 0 ∧ b ≠ 1) →
        compileReadTree ((v, c) :: values) =
          Except.error HErr.invalidBit) := by
  refine ⟨?_, ?_, ?_, compileReadTree_invalidBit⟩
  · simp [compileReadTree, WipT.add, WipT.intoReadTree, Except.map, Except.bind, Bind.bind, pure, Except.pure]
  · simp [compileReadTree, WipT.add, WipT.intoReadTree, Except.map, Except.bind, Bind.bind, pure, Except.pure]
  · simp [compileReadTree, WipT.add, WipT.intoReadTree, Except.map, Except.bind, Bind.bind, pure, Except.pure]

/-- Claim C4 counterexample: the specification `{a:[0], b:[0,2]}` contains
the element 2, which is neither 0 nor 1, yet compiling fails with
OrphanedLeaf rather than InvalidBit: running past the existing leaf `a` is
reported before the invalid element is inspected. -/
theorem claim_c4_counterexample :
    compileReadTree [(0, [0]), (1, [0, 2])] =
      Except.error HErr.orphanedLeaf ∧
    HErr.orphanedLeaf ≠ HErr.invalidBit := by
  constructor
  · simp [compileReadTree, WipT.add, WipT.intoReadTree, Except.map, Except.bind, Bind.bind, pure, Except.pure]
  · decide

theorem claim_c4_witness :
    (∃ b ∈ [2], b ≠ 0 ∧ b ≠ 1) ∧
      compileReadTree [(5, [2])] = Except.error HErr.invalidBit :=
  ⟨by decide, claim_c4_compile_errors.2.2.2 5 [2] [] (by decide)⟩

/-- A `read` that must touch the source propagates an error raised by the
source's next read verbatim. -/
theorem readOp_err_head (E : Endian) (k : EK) (s : Src) (w bits : Nat)
    (q : BQ) (hfast : ¬ bits ≤ q.count) (hw : bits ≤ w) :
    (readOp E w bits ⟨Except.error k :: s, q⟩).1 =
      Except.error (Err.ioErr k) := by
  by_cases hd8 : (bits - q.count) / 8 = 0
  · have hm : (bits - q.count) % 8 ≠ 0 := by omega
    have h1 : takeBytes ((bits - q.count) / 8) (Except.error k :: s) =
        (Except.ok [], Except.error k :: s) := by
      rw [hd8]
      rfl
    simp only [readOp, if_pos hw, if_neg hfast, readAligned, h1,
      readUnaligned, if_neg hm, readByteS]
  · have h1 : takeBytes ((bits - q.count) / 8) (Except.error k :: s) =
        (Except.error (Err.ioErr k), s) := by
      rcases hm : (bits - q.count) / 8 with _ | j
      · omega
      · simp [takeBytes, readByteS]
    simp only [readOp, if_pos hw, if_neg hfast, readAligned, h1]

/-- `read_signed` that must touch the source propagates the source's
error verbatim (via the sign-bit read under MSB-first order, via the
magnitude read — or the sign-bit read when no magnitude bit is needed —
under LSB-first order). -/
theorem readSigned_err_head (E : Endian) (k : EK) (s : Src) (w bits : Nat)
    (h1 : 1 ≤ bits) (hw : bits ≤ w) :
    (readSigned E w bits ⟨Except.error k :: s, ⟨0, 0⟩⟩).1 =
      Except.error (Err.ioErr k) := by
  have hrb : readBit E ⟨Except.error k :: s, ⟨0, 0⟩⟩ =
      (Except.error (Err.ioErr k), ⟨s, ⟨0, 0⟩⟩) := by
    simp [readBit, readByteS]
  have hsub : sub1 bits = Except.ok (bits - 1) := by
    rw [sub1, if_neg (by omega)]
  cases E with
  | be => simp only [readSigned, if_pos hw, hrb]
  | le =>
    by_cases hb1 : bits = 1
    · subst hb1
      have hro : readOp .le w 0 ⟨Except.error k :: s, ⟨0, 0⟩⟩ =
          (Except.ok 0, ⟨Except.error k :: s, ⟨0, 0⟩⟩) := by
        simp [readOp, bqPop]
      simp only [readSigned, if_pos hw, hsub, hro, hrb]
    · rcases hro : readOp .le w (bits - 1) ⟨Except.error k :: s, ⟨0, 0⟩⟩
        with ⟨res, r1⟩
      have hres : res = Except.error (Err.ioErr k) := by
        have h := readOp_err_head .le k s w (bits - 1) ⟨0, 0⟩
          (by show ¬ bits - 1 ≤ (⟨0, 0⟩ : BQ).count
              have hc := bq_mk_count 0 0
              omega)
          (by omega)
        rw [hro] at h
        exact h
      subst hres
      simp only [readSigned, if_pos hw, hsub, hro]

/-- A `write_bit` that completes a byte returns the sink's `write_all`
error verbatim. -/
theorem fwriteBit_sinkErr (E : Endian) (k : EK) (b : Bool) (q : BQ)
    (ws : List (Except EK Unit)) (h7 : q.count = 7) :
    (fwriteBit E b ⟨Except.error k :: ws, q⟩).1 =
      Except.error (Err.ioErr k) := by
  have hfull : (bqPush E 1 (if b then 1 else 0) q).count = 8 := by
    rw [bqPush_count]
    omega
  simp only [fwriteBit, if_pos hfull, writeAllS]

/-- A permitted `write` that must flush the residual byte returns the
sink's `write_all` error verbatim. -/
theorem fwriteOp_sinkErr (E : Endian) (k : EK) (w bits v : Nat) (q : BQ)
    (ws : List (Except EK Unit)) (hb : 1 ≤ bits) (hw : bits ≤ w)
    (hnv : ¬ (bits < w ∧ 2 ^ bits ≤ v)) (h7 : q.count = 7) :
    (fwriteOp E w bits v ⟨Except.error k :: ws, q⟩).1 =
      Except.error (Err.ioErr k) := by
  have hg : ¬ bits > w := by omega
  have hfast : ¬ bits < 8 - q.count := by omega
  have h0 : q.count ≠ 0 := by omega
  have hc := bq_mk_count v bits
  have ht : min (8 - q.count) (⟨v, bits⟩ : BQ).count = 8 - q.count := by
    apply min_eq_left
    omega
  have hfull : (bqPush E (min (8 - q.count) (⟨v, bits⟩ : BQ).count)
      ((bqPop E (min (8 - q.count) (⟨v, bits⟩ : BQ).count)
        ⟨v, bits⟩).1 % 256) q).count = 8 := by
    rw [bqPush_count, ht]
    omega
  simp only [fwriteOp, if_neg hg, if_neg hnv, if_neg hfast, fwriteUnaligned,
    if_neg h0, if_pos hfull, writeAllS]

/-- `write_unary0` with a full residual returns the sink's error verbatim
from its first step. -/
theorem fwriteUnary0_sinkErr (E : Endian) (k : EK) (n : Nat) (q : BQ)
    (ws : List (Except EK Unit)) (h7 : q.count = 7) :
    (fwriteUnary0 E n ⟨Except.error k :: ws, q⟩).1 =
      Except.error (Err.ioErr k) := by
  have hone : ∀ m : Nat, (1 : Nat) ≤ 2 ^ m := fun m => Nat.one_le_two_pow
  by_cases h0 : n = 0
  · subst h0
    rw [fwriteUnary0, if_pos rfl]
    exact fwriteBit_sinkErr E k false q ws h7
  · by_cases h31 : n ≤ 31
    · rcases hw1 : fwriteOp E 32 n (2 ^ n - 1) ⟨Except.error k :: ws, q⟩
        with ⟨res, st1⟩
      have hres : res = Except.error (Err.ioErr k) := by
        have h := fwriteOp_sinkErr E k 32 n (2 ^ n - 1) q ws (by omega)
          (by omega) (by rintro ⟨hlt, hge⟩; have := hone n; omega) h7
        rw [hw1] at h
        exact h
      subst hres
      rw [fwriteUnary0, if_neg h0, if_pos h31]
      simp only [hw1]
    · by_cases h32 : n = 32
      · subst h32
        rcases hw1 : fwriteOp E 32 32 (2 ^ 32 - 1) ⟨Except.error k :: ws, q⟩
          with ⟨res, st1⟩
        have hres : res = Except.error (Err.ioErr k) := by
          have h := fwriteOp_sinkErr E k 32 32 (2 ^ 32 - 1) q ws (by omega)
            (by omega) (by rintro ⟨hlt, hge⟩; omega) h7
          rw [hw1] at h
          exact h
        subst hres
        rw [fwriteUnary0, if_neg h0, if_neg h31, if_pos rfl]
        simp only [hw1]
      · by_cases h63 : n ≤ 63
        · rcases hw1 : fwriteOp E 64 n (2 ^ n - 1) ⟨Except.error k :: ws, q⟩
            with ⟨res, st1⟩
          have hres : res = Except.error (Err.ioErr k) := by
            have h := fwriteOp_sinkErr E k 64 n (2 ^ n - 1) q ws (by omega)
              (by omega) (by rintro ⟨hlt, hge⟩; have := hone n; omega) h7
            rw [hw1] at h
            exact h
          subst hres
          rw [fwriteUnary0, if_neg h0, if_neg h31, if_neg h32, if_pos h63]
          simp only [hw1]
        · by_cases h64 : n = 64
          · subst h64
            rcases hw1 : fwriteOp E 64 64 (2 ^ 64 - 1)
              ⟨Except.error k :: ws, q⟩ with ⟨res, st1⟩
            have hres : res = Except.error (Err.ioErr k) := by
              have h := fwriteOp_sinkErr E k 64 64 (2 ^ 64 - 1) q ws
                (by omega) (by omega) (by rintro ⟨hlt, hge⟩; omega) h7
              rw [hw1] at h
              exact h
            subst hres
            rw [fwriteUnary0, if_neg h0, if_neg h31, if_neg h32, if_neg h63,
              if_pos rfl]
            simp only [hw1]
          · rcases hw1 : fwriteOp E 64 64 (2 ^ 64 - 1)
              ⟨Except.error k :: ws, q⟩ with ⟨res, st1⟩
            have hres : res = Except.error (Err.ioErr k) := by
              have h := fwriteOp_sinkErr E k 64 64 (2 ^ 64 - 1) q ws
                (by omega) (by omega) (by rintro ⟨hlt, hge⟩; omega) h7
              rw [hw1] at h
              exact h
            subst hres
            rw [fwriteUnary0, if_neg h0, if_neg h31, if_neg h32, if_neg h63,
              if_neg h64]
            simp only [hw1]

/-- `write_unary1` with a full residual returns the sink's error verbatim
from its first step. -/
theorem fwriteUnary1_sinkErr (E : Endian) (k : EK) (n : Nat) (q : BQ)
    (ws : List (Except EK Unit)) (h7 : q.count = 7) :
    (fwriteUnary1 E n ⟨Except.error k :: ws, q⟩).1 =
      Except.error (Err.ioErr k) := by
  have hone : ∀ m : Nat, (1 : Nat) ≤ 2 ^ m := fun m => Nat.one_le_two_pow
  by_cases h0 : n = 0
  · subst h0
    rw [fwriteUnary1, if_pos rfl]
    exact fwriteBit_sinkErr E k true q ws h7
  · by_cases h32 : n ≤ 32
    · rcases hw1 : fwriteOp E 32 n 0 ⟨Except.error k :: ws, q⟩
        with ⟨res, st1⟩
      have hres : res = Except.error (Err.ioErr k) := by
        have h := fwriteOp_sinkErr E k 32 n 0 q ws (by omega) (by omega)
          (by rintro ⟨hlt, hge⟩; have := hone n; omega) h7
        rw [hw1] at h
        exact h
      subst hres
      rw [fwriteUnary1, if_neg h0, if_pos h32]
      simp only [hw1]
    · by_cases h64 : n ≤ 64
      · rcases hw1 : fwriteOp E 64 n 0 ⟨Except.error k :: ws, q⟩
          with ⟨res, st1⟩
        have hres : res = Except.error (Err.ioErr k) := by
          have h := fwriteOp_sinkErr E k 64 n 0 q ws (by omega) (by omega)
            (by rintro ⟨hlt, hge⟩; have := hone n; omega) h7
          rw [hw1] at h
          exact h
        subst hres
        rw [fwriteUnary1, if_neg h0, if_neg h32, if_pos h64]
        simp only [hw1]
      · rcases hw1 : fwriteOp E 64 64 0 ⟨Except.error k :: ws, q⟩
          with ⟨res, st1⟩
        have hres : res = Except.error (Err.ioErr k) := by
          have h := fwriteOp_sinkErr E k 64 64 0 q ws (by omega) (by omega)
            (by rintro ⟨hlt, hge⟩; have := hone 64; omega) h7
          rw [hw1] at h
          exact h
        subst hres
        rw [fwriteUnary1, if_neg h0, if_neg h32, if_neg h64]
        simp only [hw1]

/-- `write_signed` of a non-negative value with a full residual returns
the sink's error verbatim (from the sign-bit write under MSB-first order,
from the magnitude write — or the sign-bit write when no magnitude bit is
needed — under LSB-first order). -/
theorem fwriteSigned_sinkErr (E : Endian) (k : EK) (w bits : Nat) (q : BQ)
    (ws : List (Except EK Unit)) (h1 : 1 ≤ bits) (hw : bits ≤ w)
    (h7 : q.count = 7) :
    (fwriteSigned E w bits 0 ⟨Except.error k :: ws, q⟩).1 =
      Except.error (Err.ioErr k) := by
  have hg : ¬ bits > w := by omega
  have hneg : ¬ (0 : Int) < 0 := by norm_num
  have hsub : sub1 bits = Except.ok (bits - 1) := by
    rw [sub1, if_neg (by omega)]
  cases E with
  | be =>
    rcases hwb : fwriteBit .be false ⟨Except.error k :: ws, q⟩
      with ⟨res, st1⟩
    have hres : res = Except.error (Err.ioErr k) := by
      have h := fwriteBit_sinkErr .be k false q ws h7
      rw [hwb] at h
      exact h
    subst hres
    simp only [fwriteSigned, if_neg hg, if_neg hneg, hwb]
  | le =>
    by_cases hb1 : bits = 1
    · subst hb1
      have hsub0 : sub1 1 = Except.ok 0 := by
        rw [sub1]
        norm_num
      have hfo : fwriteOp .le w 0 (Int.toNat 0) ⟨Except.error k :: ws, q⟩ =
          (Except.ok (),
            ⟨Except.error k :: ws, bqPush .le 0 (Int.toNat 0 % 256) q⟩) := by
        have hg0 : ¬ (0 : Nat) > w := by omega
        have hnv : ¬ ((0 : Nat) < w ∧ 2 ^ (0 : Nat) ≤ Int.toNat 0) := by
          rintro ⟨_, h⟩
          norm_num at h
        have hfast : (0 : Nat) < 8 - q.count := by omega
        simp only [fwriteOp, if_neg hg0, if_neg hnv, if_pos hfast]
      have h7p : (bqPush .le 0 (Int.toNat 0 % 256) q).count = 7 := by
        rw [bqPush_count]
        omega
      rcases hwb : fwriteBit .le false
        ⟨Except.error k :: ws, bqPush .le 0 (Int.toNat 0 % 256) q⟩
        with ⟨res, st1⟩
      have hres : res = Except.error (Err.ioErr k) := by
        have h := fwriteBit_sinkErr .le k false
          (bqPush .le 0 (Int.toNat 0 % 256) q) ws h7p
        rw [hwb] at h
        exact h
      subst hres
      simp only [fwriteSigned, if_neg hg, if_neg hneg, hsub0, hfo, hwb]
    · rcases hwo : fwriteOp .le w (bits - 1) (Int.toNat 0)
        ⟨Except.error k :: ws, q⟩ with ⟨res, st1⟩
      have hres : res = Except.error (Err.ioErr k) := by
        have h := fwriteOp_sinkErr .le k w (bits - 1) (Int.toNat 0) q ws
          (by omega) (by omega)
          (by rintro ⟨hlt, hge⟩
              have h2 := Nat.one_le_two_pow (n := bits - 1)
              norm_num at hge)
          h7
        rw [hwo] at h
        exact h
      subst hres
      simp only [fwriteSigned, if_neg hg, if_neg hneg, hsub, hwo]

/-- The padding loop of `byte_align` with a nonzero residual eventually
completes a byte, and returns the sink's error verbatim. -/
theorem fByteAlignLoop_sinkErr (E : Endian) (k : EK) :
    ∀ (f : Nat) (q : BQ) (ws : List (Except EK Unit)),
      q.count ≠ 0 → q.count ≤ 7 → 8 - q.count ≤ f →
      (fByteAlignLoop E f ⟨Except.error k :: ws, q⟩).1 =
        Except.error (Err.ioErr k) := by
  intro f
  induction f with
  | zero =>
    intro q ws h0 h7 hf
    omega
  | succ g ih =>
    intro q ws h0 h7 hf
    by_cases h77 : q.count = 7
    · rcases hwb : fwriteBit E false ⟨Except.error k :: ws, q⟩
        with ⟨res, st1⟩
      have hres : res = Except.error (Err.ioErr k) := by
        have h := fwriteBit_sinkErr E k false q ws h77
        rw [hwb] at h
        exact h
      subst hres
      simp only [fByteAlignLoop, if_neg h0, hwb]
    · have hwb : fwriteBit E false ⟨Except.error k :: ws, q⟩ =
          (Except.ok (), ⟨Except.error k :: ws, bqPush E 1 0 q⟩) := by
        simp only [fwriteBit, Bool.false_eq_true, if_false]
        split
        · exfalso
          rename_i hfull
          rw [bqPush_count] at hfull
          omega
        · rfl
      simp only [fByteAlignLoop, if_neg h0, hwb]
      exact ih (bqPush E 1 0 q) ws
        (by rw [bqPush_count]; omega) (by rw [bqPush_count]; omega)
        (by rw [bqPush_count]; omega)

/-- Claim C7 counterexample: the single source read on this script raises
the I/O error UnexpectedEof, yet `concatenate_reader` over the same script
returns Ok — the error is swallowed rather than propagated. -/
theorem claim_c7_counterexample :
    (readByteS [Except.error EK.unexpectedEof]).1 =
      Except.error (Err.ioErr EK.unexpectedEof) ∧
    concatenateReader .be ⟨[Except.error EK.unexpectedEof], ⟨0, 0⟩⟩
        ⟨[], ⟨0, 0⟩⟩ = Except.ok ⟨[], ⟨0, 0⟩⟩ :=
  ⟨rfl, rfl⟩

/-- Reaching a leaf along a fixed bit list agrees with bit-by-bit descent
over any extension of that list. -/
theorem walk_inr_decode {α : Type} (l : List Bool) :
    ∀ (t : RTree α) (m : List Bool) (v : α) (left : List Bool),
      walk t l = Sum.inr (v, left) →
      decodeTrie t (l ++ m) = some (v, left ++ m) := by
  induction l with
  | nil =>
    intro t m v left h
    cases t with
    | leaf w =>
      simp only [walk, Sum.inr.injEq, Prod.mk.injEq] at h
      obtain ⟨h1, h2⟩ := h
      subst h1
      subst h2
      simp [decodeTrie]
    | tree z o => simp [walk] at h
  | cons b bs ih =>
    intro t m v left h
    cases t with
    | leaf w =>
      simp only [walk, Sum.inr.injEq, Prod.mk.injEq] at h
      obtain ⟨h1, h2⟩ := h
      subst h1
      subst h2
      simp [decodeTrie]
    | tree z o =>
      simp only [walk] at h
      simp only [List.cons_append, decodeTrie]
      exact ih (if b then o else z) m v left h

/-- Running out of bits at an inner node agrees with bit-by-bit descent:
decoding an extension continues from that node. -/
theorem walk_inl_decode {α : Type} (l : List Bool) :
    ∀ (t : RTree α) (m : List Bool) (t1 : RTree α),
      walk t l = Sum.inl t1 →
      decodeTrie t (l ++ m) = decodeTrie t1 m := by
  induction l with
  | nil =>
    intro t m t1 h
    cases t with
    | leaf w => simp [walk] at h
    | tree z o =>
      simp only [walk, Sum.inl.injEq] at h
      subst h
      simp
  | cons b bs ih =>
    intro t m t1 h
    cases t with
    | leaf w => simp [walk] at h
    | tree z o =>
      simp only [walk] at h
      simp only [List.cons_append, decodeTrie]
      exact ih (if b then o else z) m t1 h

/-- The leftover bits at a leaf are a suffix of the bits walked. -/
theorem walk_inr_length {α : Type} (l : List Bool) :
    ∀ (t : RTree α) (v : α) (left : List Bool),
      walk t l = Sum.inr (v, left) → left.length ≤ l.length := by
  induction l with
  | nil =>
    intro t v left h
    cases t with
    | leaf w =>
      simp only [walk, Sum.inr.injEq, Prod.mk.injEq] at h
      rw [← h.2]
    | tree z o => simp [walk] at h
  | cons b bs ih =>
    intro t v left h
    cases t with
    | leaf w =>
      simp only [walk, Sum.inr.injEq, Prod.mk.injEq] at h
      rw [← h.2]
    | tree z o =>
      simp only [walk] at h
      have := ih (if b then o else z) v left h
      simp only [List.length_cons]
      omega

/-- Walking a tree node over a nonempty list consumes at least one bit. -/
theorem walk_tree_inr_length {α : Type} (z o : RTree α) (l : List Bool)
    (v : α) (left : List Bool)
    (h : walk (RTree.tree z o) l = Sum.inr (v, left)) :
    left.length < l.length := by
  cases l with
  | nil => simp [walk] at h
  | cons b bs =>
    simp only [walk] at h
    have := walk_inr_length bs (if b then o else z) v left h
    simp only [List.length_cons]
    omega

/-- Running out of bits lands on an inner node at depth at least the
number of bits walked; inner nodes have positive height. -/
theorem walk_inl_height {α : Type} (l : List Bool) :
    ∀ (t : RTree α) (t1 : RTree α),
      walk t l = Sum.inl t1 →
      t1.height + l.length ≤ t.height ∧ 1 ≤ t1.height := by
  induction l with
  | nil =>
    intro t t1 h
    cases t with
    | leaf w => simp [walk] at h
    | tree z o =>
      simp only [walk, Sum.inl.injEq] at h
      subst h
      simp only [List.length_nil, Nat.add_zero, RTree.height]
      omega
  | cons b bs ih =>
    intro t t1 h
    cases t with
    | leaf w => simp [walk] at h
    | tree z o =>
      simp only [walk] at h
      obtain ⟨h1, h2⟩ := ih (if b then o else z) t1 h
      have hch : (if b then o else z).height ≤ max z.height o.height := by
        cases b <;> simp
      simp only [List.length_cons, RTree.height]
      omega

/-- Indexing a transition table level with a byte yields the simulated
8-bit descent entry for that byte. -/
theorem tableF_get {α : Type} (E : Endian) (f : Nat) (t : RTree α) (b : Nat)
    (hb : b < 256) :
    (tableF E (f + 1) t).getD b HAut.invalidState =
      (match walk t (byteBits E b) with
       | Sum.inr p => HAut.done p.1 (valOf E p.2) p.2.length
       | Sum.inl t1 => HAut.cont (tableF E f t1)) := by
  simp [tableF, List.getD_eq_getElem?_getD, List.getElem?_map,
    List.getElem?_range, hb]

/-- Indexing the compiled automaton with the residual's lookup index
yields the entry for walking the trie over the residual's bits. -/
theorem compileAut_get {α : Type} (E : Endian) (t : RTree α) (q : BQ)
    (hq : bqInv q) (h7 : q.count ≤ 7) :
    (compileAut E t).getD (toState q) HAut.invalidState =
      (match walk t (queueBits E q) with
       | Sum.inr p => HAut.done p.1 (valOf E p.2) p.2.length
       | Sum.inl t1 => HAut.cont (tableF E t.height t1)) := by
  have hv : q.value < 2 ^ q.count := hq
  have h27 : (2 : Nat) ^ q.count ≤ 2 ^ 7 :=
    Nat.pow_le_pow_right (by norm_num) h7
  have h128 : (2 : Nat) ^ 7 = 128 := by norm_num
  have hone : (1 : Nat) ≤ 2 ^ q.count := Nat.one_le_two_pow
  have hts : toState q = 2 ^ q.count + q.value := rfl
  have hlt : toState q < 512 := by omega
  have hne : ¬ toState q = 0 := by omega
  have hlog : Nat.log2 (toState q) = q.count := by
    rw [hts, Nat.log2_eq_log_two]
    exact Nat.log_eq_of_pow_le_of_lt_pow (by omega)
      (by rw [pow_succ]; omega)
  have hsub : toState q - 2 ^ q.count = q.value := by
    rw [hts]
    omega
  simp only [compileAut, List.getD_eq_getElem?_getD, List.getElem?_map,
    List.getElem?_range, hlt, if_true, Option.map_some', Option.getD_some,
    if_neg hne, hlog, hsub]
  rfl

/-- Automaton loop refinement: with enough table levels, following
`Continue` entries byte by byte decodes exactly the symbol that bit-by-bit
descent of the trie decodes, and the `Done` entry restores the unconsumed
bits of the last fetched byte as the residual. -/
theorem readHuffmanLoop_spec {α : Type} (E : Endian) (f : Nat) :
    ∀ (t1 : RTree α) (B : List Nat) (v : α) (rest : List Bool),
      (∀ b ∈ B, b < 256) → 1 ≤ RTree.height t1 → RTree.height t1 ≤ 8 * f →
      decodeTrie t1 (B.flatMap (byteBits E)) = some (v, rest) →
      ∃ (left : List Bool) (B1 : List Nat),
        readHuffmanLoop (HAut.cont (tableF E f t1)) (okBytes B) =
          (Except.ok (v, ⟨valOf E left, left.length⟩), okBytes B1) ∧
        rest = left ++ B1.flatMap (byteBits E) ∧ left.length ≤ 7 ∧
        ∀ b ∈ B1, b < 256 := by
  induction f with
  | zero =>
    intro t1 B v rest hB h1 hf hd
    omega
  | succ g ih =>
    intro t1 B v rest hB h1 hf hd
    cases t1 with
    | leaf w => simp [RTree.height] at h1
    | tree z o =>
      cases B with
      | nil =>
        rw [List.flatMap_nil] at hd
        simp [decodeTrie] at hd
      | cons b Bt =>
        have hb : b < 256 := hB b (List.mem_cons_self b Bt)
        have hBt : ∀ x ∈ Bt, x < 256 :=
          fun x hx => hB x (List.mem_cons_of_mem b hx)
        rw [List.flatMap_cons] at hd
        have hob : okBytes (b :: Bt) = Except.ok b :: okBytes Bt := rfl
        have hstep :
            readHuffmanLoop (HAut.cont (tableF E (g + 1) (RTree.tree z o)))
              (okBytes (b :: Bt)) =
            readHuffmanLoop
              ((tableF E (g + 1) (RTree.tree z o)).getD b HAut.invalidState)
              (okBytes Bt) := by
          rw [hob]
          simp only [readHuffmanLoop]
        rcases hwb : walk (RTree.tree z o) (byteBits E b) with t2 | ⟨v1, left⟩
        · rw [walk_inl_decode (byteBits E b) (RTree.tree z o)
            (Bt.flatMap (byteBits E)) t2 hwb] at hd
          obtain ⟨hh, hpos⟩ :=
            walk_inl_height (byteBits E b) (RTree.tree z o) t2 hwb
          rw [byteBits_length] at hh
          obtain ⟨left, B1, hloop, hrest, h7, hB1⟩ :=
            ih t2 Bt v rest hBt hpos (by omega) hd
          refine ⟨left, B1, ?_, hrest, h7, hB1⟩
          rw [hstep, tableF_get E g (RTree.tree z o) b hb, hwb]
          exact hloop
        · rw [walk_inr_decode (byteBits E b) (RTree.tree z o)
            (Bt.flatMap (byteBits E)) v1 left hwb] at hd
          rw [Option.some.injEq, Prod.mk.injEq] at hd
          obtain ⟨hv, hrest⟩ := hd
          subst hv
          have hlen := walk_tree_inr_length z o (byteBits E b) v1 left hwb
          rw [byteBits_length] at hlen
          refine ⟨left, Bt, ?_, hrest.symm, by omega, hBt⟩
          rw [hstep, tableF_get E g (RTree.tree z o) b hb, hwb]
          simp only [readHuffmanLoop]

/-- Claim C5: for a trie accepted by the decode-tree compiler, the
byte-wise lookup automaton built by simulating 8-bit-at-a-time descent
(one 256-entry table per level) decodes, through `read_huffman`, exactly
the symbol that bit-by-bit descent of the trie decodes; the `Done` entry
restores the residual bits, and no `Invalid` entry is reached. -/
theorem claim_c5_byte_automaton {α : Type} (E : Endian)
    (values : List (α × List Nat)) (t : RTree α)
    (hc : compileReadTree values = Except.ok t)
    (q : BQ) (B : List Nat) (v : α) (rest : List Bool)
    (hq : bqInv q) (h7 : q.count ≤ 7) (hB : ∀ b ∈ B, b < 256)
    (hd : decodeTrie t (streamBits E q B) = some (v, rest)) :
    ∃ q1 B1,
      readHuffman (compileAut E t) ⟨okBytes B, q⟩ =
        (Except.ok v, ⟨okBytes B1, q1⟩) ∧
      streamBits E q1 B1 = rest ∧ bqInv q1 ∧ q1.count ≤ 7 ∧
      ∀ b ∈ B1, b < 256 := by
  simp only [streamBits] at hd
  have hget := compileAut_get E t q hq h7
  rcases hwq : walk t (queueBits E q) with t1 | ⟨v1, left⟩
  · rw [walk_inl_decode (queueBits E q) t (B.flatMap (byteBits E)) t1
      hwq] at hd
    obtain ⟨hh, hpos⟩ := walk_inl_height (queueBits E q) t t1 hwq
    rw [queueBits_length] at hh
    obtain ⟨left, B1, hloop, hrest, hl7, hB1⟩ :=
      readHuffmanLoop_spec E t.height t1 B v rest hB hpos (by omega) hd
    have hent : (compileAut E t).getD (toState q) HAut.invalidState =
        HAut.cont (tableF E t.height t1) := by
      rw [hget, hwq]
    refine ⟨⟨valOf E left, left.length⟩, B1, ?_, ?_, ?_, ?_, hB1⟩
    · simp only [readHuffman, hent, hloop]
    · simp only [streamBits, queueBits_mk, valBits_valOf]
      exact hrest.symm
    · exact valOf_lt E left
    · show left.length ≤ 7
      omega
  · rw [walk_inr_decode (queueBits E q) t (B.flatMap (byteBits E)) v1 left
      hwq] at hd
    rw [Option.some.injEq, Prod.mk.injEq] at hd
    obtain ⟨hv, hrest⟩ := hd
    subst hv
    have hlen := walk_inr_length (queueBits E q) t v1 left hwq
    rw [queueBits_length] at hlen
    have hent : (compileAut E t).getD (toState q) HAut.invalidState =
        HAut.done v1 (valOf E left) left.length := by
      rw [hget, hwq]
    refine ⟨⟨valOf E left, left.length⟩, B, ?_, ?_, ?_, ?_, hB⟩
    · have hdone : readHuffmanLoop
          (HAut.done v1 (valOf E left) left.length) (okBytes B) =
          (Except.ok (v1, (⟨valOf E left, left.length⟩ : BQ)), okBytes B) := by
        simp only [readHuffmanLoop]
      simp only [readHuffman, hent, hdone]
    · simp only [streamBits, queueBits_mk, valBits_valOf]
      exact hrest
    · exact valOf_lt E left
    · show left.length ≤ 7
      omega

theorem claim_c5_witness :
    (compileReadTree [(0, [0]), (1, [1, 0]), (2, [1, 1])] =
        Except.ok (RTree.tree (RTree.leaf 0)
          (RTree.tree (RTree.leaf 1) (RTree.leaf 2))) ∧
      bqInv (⟨0, 0⟩ : BQ) ∧ (⟨0, 0⟩ : BQ).count ≤ 7 ∧
      (∀ b ∈ [128], b < 256) ∧
      decodeTrie (RTree.tree (RTree.leaf 0)
          (RTree.tree (RTree.leaf 1) (RTree.leaf 2)))
        (streamBits .be ⟨0, 0⟩ [128]) =
        some (1, List.replicate 6 false)) ∧
    (∃ q1 B1,
      readHuffman (compileAut .be (RTree.tree (RTree.leaf 0)
          (RTree.tree (RTree.leaf 1) (RTree.leaf 2)))) ⟨okBytes [128], ⟨0, 0⟩⟩ =
        (Except.ok 1, ⟨okBytes B1, q1⟩) ∧
      streamBits .be q1 B1 = List.replicate 6 false ∧ bqInv q1 ∧
      q1.count ≤ 7 ∧ ∀ b ∈ B1, b < 256) :=
  ⟨⟨by simp [compileReadTree, WipT.add, WipT.intoReadTree, Except.map,
        Except.bind, Bind.bind, pure, Except.pure],
    bqInv_zero, by decide, by decide, by decide⟩,
    claim_c5_byte_automaton .be [(0, [0]), (1, [1, 0]), (2, [1, 1])]
      (RTree.tree (RTree.leaf 0) (RTree.tree (RTree.leaf 1) (RTree.leaf 2)))
      (by simp [compileReadTree, WipT.add, WipT.intoReadTree, Except.map,
        Except.bind, Bind.bind, pure, Except.pure])
      ⟨0, 0⟩ [128] 1 (List.replicate 6 false) bqInv_zero (by decide)
      (by decide) (by decide)⟩

/-- `read_huffman` that must fetch a byte propagates the source's error
verbatim. -/
theorem readHuffman_src_err {α : Type} (E : Endian) (k : EK) (s : Src)
    (t t1 : RTree α) (q : BQ) (hq : bqInv q) (h7 : q.count ≤ 7)
    (hwq : walk t (queueBits E q) = Sum.inl t1) :
    (readHuffman (compileAut E t) ⟨Except.error k :: s, q⟩).1 =
      Except.error (Err.ioErr k) := by
  have hget := compileAut_get E t q hq h7
  have hent : (compileAut E t).getD (toState q) HAut.invalidState =
      HAut.cont (tableF E t.height t1) := by
    rw [hget, hwq]
  have hloop : readHuffmanLoop (HAut.cont (tableF E t.height t1))
      (Except.error k :: s) = (Except.error (Err.ioErr k), s) := by
    simp only [readHuffmanLoop]
  simp only [readHuffman, hent, hloop]

/-- Claim C7 (amended): every I/O error raised by the byte source during a
read operation (`read`, `read_bit`, `skip`, `read_bytes`, `read_unary`,
`read_signed`, `read_huffman`, sub-reader creation) and every I/O error
raised by the sink's `write_all` during a write operation (`write_bit`,
`write`, `write_bytes`, `write_unary`, `write_signed`, `byte_align`) is
propagated verbatim to the caller; the copy-based operations
(`copy_reader_to_writer`, and `concatenate_reader` built on it) propagate
every error kind other than UnexpectedEof verbatim, but swallow
UnexpectedEof, treating it as end-of-data (see the counterexample). -/
theorem claim_c7_io_propagation (α : Type) (E : Endian) (k : EK) (s : Src) :
    (readByteS (Except.error k :: s)).1 = Except.error (Err.ioErr k) ∧
    (∀ w bits q, ¬ bits ≤ q.count → bits ≤ w →
      (readOp E w bits ⟨Except.error k :: s, q⟩).1 =
        Except.error (Err.ioErr k)) ∧
    (readBit E ⟨Except.error k :: s, ⟨0, 0⟩⟩).1 =
      Except.error (Err.ioErr k) ∧
    (∀ bits0, 1 ≤ bits0 →
      (skipOp E bits0 ⟨Except.error k :: s, ⟨0, 0⟩⟩).1 =
        Except.error (Err.ioErr k)) ∧
    (∀ n, 1 ≤ n →
      (readBytes E n ⟨Except.error k :: s, ⟨0, 0⟩⟩).1 =
        Except.error (Err.ioErr k)) ∧
    (readUnary0 E ⟨Except.error k :: s, ⟨0, 0⟩⟩).1 =
      Except.error (Err.ioErr k) ∧
    (readUnary1 E ⟨Except.error k :: s, ⟨0, 0⟩⟩).1 =
      Except.error (Err.ioErr k) ∧
    (∀ w bits : Nat, 1 ≤ bits → bits ≤ w →
      (readSigned E w bits ⟨Except.error k :: s, ⟨0, 0⟩⟩).1 =
        Except.error (Err.ioErr k)) ∧
    (∀ t t1 : RTree α, ∀ q : BQ, bqInv q → q.count ≤ 7 →
      walk t (queueBits E q) = Sum.inl t1 →
      (readHuffman (compileAut E t) ⟨Except.error k :: s, q⟩).1 =
        Except.error (Err.ioErr k)) ∧
    (∀ (c : Nat) (wtr : Wtr),
      (copyReaderToWriter E ⟨Except.error (EK.other c) :: s, ⟨0, 0⟩⟩ wtr).1 =
        Except.error (Err.ioErr (EK.other c))) ∧
    (∀ (c : Nat) (r2 : Rdr),
      concatenateReader E ⟨Except.error (EK.other c) :: s, ⟨0, 0⟩⟩ r2 =
        Except.error (Err.ioErr (EK.other c))) ∧
    (∀ bits, 1 ≤ bits →
      (createSubReader E bits ⟨Except.error k :: s, ⟨0, 0⟩⟩).1 =
        Except.error (Err.ioErr k)) ∧
    (∀ (b : Bool) (q : BQ) (ws : List (Except EK Unit)), q.count = 7 →
      (fwriteBit E b ⟨Except.error k :: ws, q⟩).1 =
        Except.error (Err.ioErr k)) ∧
    (∀ w bits v : Nat, ∀ q : BQ, ∀ ws : List (Except EK Unit),
      1 ≤ bits → bits ≤ w → ¬ (bits < w ∧ 2 ^ bits ≤ v) → q.count = 7 →
      (fwriteOp E w bits v ⟨Except.error k :: ws, q⟩).1 =
        Except.error (Err.ioErr k)) ∧
    (∀ (bs : List Nat) (ws : List (Except EK Unit)), bs ≠ [] →
      (fwriteBytes E bs ⟨Except.error k :: ws, ⟨0, 0⟩⟩).1 =
        Except.error (Err.ioErr k)) ∧
    (∀ (n : Nat) (q : BQ) (ws : List (Except EK Unit)), q.count = 7 →
      (fwriteUnary0 E n ⟨Except.error k :: ws, q⟩).1 =
        Except.error (Err.ioErr k)) ∧
    (∀ (n : Nat) (q : BQ) (ws : List (Except EK Unit)), q.count = 7 →
      (fwriteUnary1 E n ⟨Except.error k :: ws, q⟩).1 =
        Except.error (Err.ioErr k)) ∧
    (∀ w bits : Nat, ∀ q : BQ, ∀ ws : List (Except EK Unit),
      1 ≤ bits → bits ≤ w → q.count = 7 →
      (fwriteSigned E w bits 0 ⟨Except.error k :: ws, q⟩).1 =
        Except.error (Err.ioErr k)) ∧
    (∀ (q : BQ) (ws : List (Except EK Unit)), q.count ≠ 0 → q.count ≤ 7 →
      (fwtrByteAlign E ⟨Except.error k :: ws, q⟩).1 =
        Except.error (Err.ioErr k)) := by
  refine ⟨rfl, fun w bits q hf hw => readOp_err_head E k s w bits q hf hw,
    by simp [readBit, readByteS], ?_, ?_, by simp [readUnary0, readAlignedUnary],
    by simp [readUnary1, readAlignedUnary],
    fun w bits h1 hw => readSigned_err_head E k s w bits h1 hw,
    fun t t1 q hq h7 hwq => readHuffman_src_err E k s t t1 q hq h7 hwq,
    ?_, ?_, ?_,
    fun b q ws h7 => fwriteBit_sinkErr E k b q ws h7,
    fun w bits v q ws hb hw hnv h7 =>
      fwriteOp_sinkErr E k w bits v q ws hb hw hnv h7,
    ?_,
    fun n q ws h7 => fwriteUnary0_sinkErr E k n q ws h7,
    fun n q ws h7 => fwriteUnary1_sinkErr E k n q ws h7,
    fun w bits q ws h1 hw h7 => fwriteSigned_sinkErr E k w bits q ws h1 hw h7,
    ?_⟩
  · intro bits0 hb
    by_cases hd8 : bits0 / 8 = 0
    · have hm : bits0 % 8 > 0 := by omega
      have h1 : takeBytes (bits0 / 8) (Except.error k :: s) =
          (Except.ok [], Except.error k :: s) := by
        rw [hd8]
        rfl
      simp only [skipOp, Nat.zero_min, Nat.min_zero, Nat.sub_zero, h1,
        if_pos hm, readByteS]
    · have h1 : takeBytes (bits0 / 8) (Except.error k :: s) =
          (Except.error (Err.ioErr k), s) := by
        rcases hm : bits0 / 8 with _ | j
        · omega
        · simp [takeBytes, readByteS]
      simp only [skipOp, Nat.zero_min, Nat.min_zero, Nat.sub_zero, h1]
  · intro n hn
    rcases n with _ | j
    · omega
    · simp [readBytes, takeBytes, readByteS]
  · intro c wtr
    simp [copyReaderToWriter, copyLoop]
  · intro c r2
    have hcp : ∀ wtr : Wtr,
        copyReaderToWriter E ⟨Except.error (EK.other c) :: s, ⟨0, 0⟩⟩ wtr =
          (Except.error (Err.ioErr (EK.other c)), ⟨s, ⟨0, 0⟩⟩, wtr) := by
      intro wtr
      simp [copyReaderToWriter, copyLoop]
    by_cases hoff : r2.bq.count % 8 > 0
    · obtain ⟨w1, hw1, _, _, _, _⟩ :=
        writeOp_spec .le 32 (8 - r2.bq.count % 8) 0 mkWriter bqInv_zero
          (by show (0 : Nat) ≤ 7; norm_num)
          (by intro x hx; simp [mkWriter] at hx) (by omega)
          (Nat.two_pow_pos _)
      simp only [concatenateReader, Nat.zero_add, if_pos hoff, hw1, hcp]
    · simp only [concatenateReader, Nat.zero_add, if_neg hoff, hcp]
  · intro bits hb
    by_cases hrb : bits % 8 > 0
    · rcases hro : readOp E 8 (bits % 8) ⟨Except.error k :: s, ⟨0, 0⟩⟩
        with ⟨res, r1⟩
      have hres : res = Except.error (Err.ioErr k) := by
        have h := readOp_err_head E k s 8 (bits % 8) ⟨0, 0⟩
          (by show ¬ bits % 8 ≤ 0; omega) (by omega)
        rw [hro] at h
        exact h
      subst hres
      simp only [createSubReader, if_pos hrb, hro]
    · have h8 : 8 ≤ bits := by omega
      rcases hbd : bits / 8 with _ | j
      · omega
      · have h1 : takeBytes (bits / 8) (Except.error k :: s) =
            (Except.error (Err.ioErr k), s) := by
          rw [hbd]
          simp [takeBytes, readByteS]
        have hrbs : readBytes E (bits / 8) ⟨Except.error k :: s, ⟨0, 0⟩⟩ =
            (Except.error (Err.ioErr k), ⟨s, ⟨0, 0⟩⟩) := by
          simp [readBytes, h1]
        simp only [createSubReader, if_neg hrb, hrbs]
  · intro bs ws hbs
    simp [fwriteBytes, hbs, writeAllS]
  · intro q ws h0 h7
    simp only [fwtrByteAlign]
    exact fByteAlignLoop_sinkErr E k 8 q ws h0 h7 (by omega)

theorem claim_c7_witness :
    ((¬ 3 ≤ (⟨0, 0⟩ : BQ).count) ∧ 3 ≤ 8 ∧ 1 ≤ 4 ∧ 1 ≤ 5 ∧ 1 ≤ 9 ∧
      (1 ≤ 6 ∧ 6 ≤ 8) ∧ (⟨5, 7⟩ : BQ).count = 7 ∧
      (1 ≤ 3 ∧ 3 ≤ 8 ∧ ¬ ((3 : Nat) < 8 ∧ 2 ^ 3 ≤ 5)) ∧
      ([3, 4] : List Nat) ≠ [] ∧
      ((⟨1, 3⟩ : BQ).count ≠ 0 ∧ (⟨1, 3⟩ : BQ).count ≤ 7)) ∧
      ((readOp .be 8 3 ⟨[Except.error (EK.other 7)], ⟨0, 0⟩⟩).1 =
          Except.error (Err.ioErr (EK.other 7)) ∧
        (skipOp .be 4 ⟨[Except.error (EK.other 7)], ⟨0, 0⟩⟩).1 =
          Except.error (Err.ioErr (EK.other 7)) ∧
        (readBytes .be 5 ⟨[Except.error (EK.other 7)], ⟨0, 0⟩⟩).1 =
          Except.error (Err.ioErr (EK.other 7)) ∧
        (createSubReader .be 9 ⟨[Except.error (EK.other 7)], ⟨0, 0⟩⟩).1 =
          Except.error (Err.ioErr (EK.other 7)) ∧
        (readSigned .be 8 6 ⟨[Except.error (EK.other 7)], ⟨0, 0⟩⟩).1 =
          Except.error (Err.ioErr (EK.other 7)) ∧
        (fwriteBit .be true ⟨[Except.error (EK.other 7)], ⟨5, 7⟩⟩).1 =
          Except.error (Err.ioErr (EK.other 7)) ∧
        (fwriteOp .be 8 3 5 ⟨[Except.error (EK.other 7)], ⟨5, 7⟩⟩).1 =
          Except.error (Err.ioErr (EK.other 7)) ∧
        (fwriteBytes .be [3, 4] ⟨[Except.error (EK.other 7)], ⟨0, 0⟩⟩).1 =
          Except.error (Err.ioErr (EK.other 7)) ∧
        (fwriteUnary0 .be 2 ⟨[Except.error (EK.other 7)], ⟨5, 7⟩⟩).1 =
          Except.error (Err.ioErr (EK.other 7)) ∧
        (fwriteSigned .be 8 6 0 ⟨[Except.error (EK.other 7)], ⟨5, 7⟩⟩).1 =
          Except.error (Err.ioErr (EK.other 7)) ∧
        (fwtrByteAlign .be ⟨[Except.error (EK.other 7)], ⟨1, 3⟩⟩).1 =
          Except.error (Err.ioErr (EK.other 7))) :=
  ⟨⟨by decide, by decide, by decide, by decide, by decide,
      ⟨by decide, by decide⟩, by decide,
      ⟨by decide, by decide, by decide⟩, by decide,
      ⟨by decide, by decide⟩⟩,
    ⟨(claim_c7_io_propagation Nat .be (EK.other 7) []).2.1 8 3 ⟨0, 0⟩
        (by decide) (by decide),
      (claim_c7_io_propagation Nat .be (EK.other 7) []).2.2.2.1 4 (by decide),
      (claim_c7_io_propagation Nat .be (EK.other 7) []).2.2.2.2.1 5
        (by decide),
      (claim_c7_io_propagation Nat .be (EK.other 7) []).2.2.2.2.2.2.2.2.2.2.2.1
        9 (by decide),
      (claim_c7_io_propagation Nat .be (EK.other 7) []).2.2.2.2.2.2.2.1 8 6
        (by decide) (by decide),
      (claim_c7_io_propagation Nat .be
        (EK.other 7) []).2.2.2.2.2.2.2.2.2.2.2.2.1 true ⟨5, 7⟩ [] (by decide),
      (claim_c7_io_propagation Nat .be
        (EK.other 7) []).2.2.2.2.2.2.2.2.2.2.2.2.2.1 8 3 5 ⟨5, 7⟩ []
        (by decide) (by decide) (by decide) (by decide),
      (claim_c7_io_propagation Nat .be
        (EK.other 7) []).2.2.2.2.2.2.2.2.2.2.2.2.2.2.1 [3, 4] [] (by decide),
      (claim_c7_io_propagation Nat .be
        (EK.other 7) []).2.2.2.2.2.2.2.2.2.2.2.2.2.2.2.1 2 ⟨5, 7⟩ []
        (by decide),
      (claim_c7_io_propagation Nat .be
        (EK.other 7) []).2.2.2.2.2.2.2.2.2.2.2.2.2.2.2.2.2.1 8 6 ⟨5, 7⟩ []
        (by decide) (by decide) (by decide),
      (claim_c7_io_propagation Nat .be
        (EK.other 7) []).2.2.2.2.2.2.2.2.2.2.2.2.2.2.2.2.2.2 ⟨1, 3⟩ []
        (by decide) (by decide)⟩⟩

theorem bqPop_count_eq (E : Endian) (n : Nat) (q : BQ) :
    (bqPop E n q).2.count = q.count - n := by
  cases E <;> simp only [bqPop] <;> split <;> simp only [bq_mk_count] <;>
    omega

theorem readBit_count (E : Endian) (r : Rdr) (h7 : r.bq.count ≤ 7) :
    (readBit E r).2.bq.count ≤ 7 := by
  by_cases h0 : r.bq.count = 0
  · rcases hs : readByteS r.src with ⟨res, s1⟩
    rcases res with e | b
    · simp only [readBit, if_pos h0, hs]
      exact h7
    · simp only [readBit, if_pos h0, hs]
      show (bqPop E 1 (⟨b, 8⟩ : BQ)).2.count ≤ 7
      rw [bqPop_count_eq, bq_mk_count]
  · simp only [readBit, if_neg h0]
    show (bqPop E 1 r.bq).2.count ≤ 7
    rw [bqPop_count_eq]
    omega

theorem readOp_count (E : Endian) (w bits : Nat) (r : Rdr)
    (h7 : r.bq.count ≤ 7) : (readOp E w bits r).2.bq.count ≤ 7 := by
  by_cases hw : bits ≤ w
  · by_cases hfast : bits ≤ r.bq.count
    · simp only [readOp, if_pos hw, if_pos hfast]
      show (bqPop E bits r.bq).2.count ≤ 7
      rw [bqPop_count_eq]
      omega
    · rcases hra : readAligned E ((bits - r.bq.count) / 8) r.src
        ⟨(bqPop E r.bq.count r.bq).1, r.bq.count⟩ with ⟨res, s1, acc1⟩
      rcases res with e | u
      · simp only [readOp, if_pos hw, if_neg hfast, hra]
        show (bqPop E r.bq.count r.bq).2.count ≤ 7
        rw [bqPop_count_eq]
        omega
      · by_cases hm : (bits - r.bq.count) % 8 = 0
        · simp only [readOp, if_pos hw, if_neg hfast, hra, readUnaligned,
            if_pos hm]
          show (bqPop E r.bq.count r.bq).2.count ≤ 7
          rw [bqPop_count_eq]
          omega
        · rcases hrb : readByteS s1 with ⟨res2, s2⟩
          rcases res2 with e2 | b
          · simp only [readOp, if_pos hw, if_neg hfast, hra, readUnaligned,
              if_neg hm, hrb]
            show (bqPop E r.bq.count r.bq).2.count ≤ 7
            rw [bqPop_count_eq]
            omega
          · simp only [readOp, if_pos hw, if_neg hfast, hra, readUnaligned,
              if_neg hm, hrb]
            show (bqPop E ((bits - r.bq.count) % 8) (⟨b, 8⟩ : BQ)).2.count ≤ 7
            rw [bqPop_count_eq, bq_mk_count]
            omega
  · simp only [readOp, if_neg hw]
    exact h7

theorem skipOp_count (E : Endian) (bits0 : Nat) (r : Rdr)
    (h7 : r.bq.count ≤ 7) : (skipOp E bits0 r).2.bq.count ≤ 7 := by
  have hq1 : (if min r.bq.count bits0 ≠ 0 then
      (bqPop E (min r.bq.count bits0) r.bq).2 else r.bq).count ≤ 7 := by
    split
    · rw [bqPop_count_eq]
      omega
    · exact h7
  rcases hra : takeBytes ((bits0 - min r.bq.count bits0) / 8) r.src
    with ⟨res, s1⟩
  rcases res with e | u
  · simp only [skipOp, hra]
    exact hq1
  · by_cases hm : (bits0 - min r.bq.count bits0) % 8 > 0
    · rcases hrb : readByteS s1 with ⟨res2, s2⟩
      rcases res2 with e2 | b
      · simp only [skipOp, hra, if_pos hm, hrb]
        exact hq1
      · simp only [skipOp, hra, if_pos hm, hrb]
        show (bqPop E ((bits0 - min r.bq.count bits0) % 8)
          (⟨b, 8⟩ : BQ)).2.count ≤ 7
        rw [bqPop_count_eq, bq_mk_count]
        omega
    · simp only [skipOp, hra, if_neg hm]
      exact hq1

theorem readBytesLoop_count (E : Endian) : ∀ (k : Nat) (r : Rdr),
    r.bq.count ≤ 7 → (readBytesLoop E k r).2.bq.count ≤ 7 := by
  intro k
  induction k with
  | zero =>
    intro r h7
    exact h7
  | succ j ih =>
    intro r h7
    rcases hro : readOp E 8 8 r with ⟨res, r1⟩
    have h71 : r1.bq.count ≤ 7 := by
      have hc := readOp_count E 8 8 r h7
      rw [hro] at hc
      exact hc
    rcases res with e | b
    · simp only [readBytesLoop, hro]
      exact h71
    · rcases hrl : readBytesLoop E j r1 with ⟨res2, r2⟩
      have h72 : r2.bq.count ≤ 7 := by
        have hc := ih r1 h71
        rw [hrl] at hc
        exact hc
      rcases res2 with e2 | bs
      · simp only [readBytesLoop, hro, hrl]
        exact h72
      · simp only [readBytesLoop, hro, hrl]
        exact h72

theorem readBytes_count (E : Endian) (k : Nat) (r : Rdr)
    (h7 : r.bq.count ≤ 7) : (readBytes E k r).2.bq.count ≤ 7 := by
  by_cases h0 : r.bq.count = 0
  · rcases hra : takeBytes k r.src with ⟨res, s1⟩
    rcases res with e | bs
    · simp only [readBytes, if_pos h0, hra]
      exact h7
    · simp only [readBytes, if_pos h0, hra]
      exact h7
  · simp only [readBytes, if_neg h0]
    exact readBytesLoop_count E k r h7

theorem popOnes_count_le (E : Endian) (c : Nat) :
    ∀ q : BQ, q.count ≤ c → (popOnes E q).2.count ≤ q.count := by
  induction c with
  | zero =>
    intro q hc
    have h0 : q.count = 0 := by omega
    have hpe : popOnes E q = (0, q) := by
      rw [popOnes, dif_pos h0]
    rw [hpe]
  | succ j ih =>
    intro q hc
    by_cases h0 : q.count = 0
    · have hpe : popOnes E q = (0, q) := by
        rw [popOnes, dif_pos h0]
      rw [hpe]
    · have hcnt : (bqPop E 1 q).2.count = q.count - 1 := bqPop_count_eq E 1 q
      by_cases hb : (bqPop E 1 q).1 = 1
      · have hpe : popOnes E q = ((popOnes E (bqPop E 1 q).2).1 + 1,
            (popOnes E (bqPop E 1 q).2).2) := by
          conv_lhs => rw [popOnes]
          rw [dif_neg h0]
          simp [hb]
        rw [hpe]
        show (popOnes E (bqPop E 1 q).2).2.count ≤ q.count
        have hle := ih (bqPop E 1 q).2 (by omega)
        omega
      · have hpe : popOnes E q = (0, (bqPop E 1 q).2) := by
          conv_lhs => rw [popOnes]
          rw [dif_neg h0]
          simp [hb]
        rw [hpe]
        show (bqPop E 1 q).2.count ≤ q.count
        omega

theorem popOnes_count_lt (E : Endian) (q : BQ) (h0 : q.count ≠ 0) :
    (popOnes E q).2.count ≤ q.count - 1 := by
  have hcnt : (bqPop E 1 q).2.count = q.count - 1 := bqPop_count_eq E 1 q
  by_cases hb : (bqPop E 1 q).1 = 1
  · have hpe : popOnes E q = ((popOnes E (bqPop E 1 q).2).1 + 1,
        (popOnes E (bqPop E 1 q).2).2) := by
      conv_lhs => rw [popOnes]
      rw [dif_neg h0]
      simp [hb]
    rw [hpe]
    show (popOnes E (bqPop E 1 q).2).2.count ≤ q.count - 1
    have hle := popOnes_count_le E (bqPop E 1 q).2.count (bqPop E 1 q).2
      (le_refl _)
    omega
  · have hpe : popOnes E q = (0, (bqPop E 1 q).2) := by
      conv_lhs => rw [popOnes]
      rw [dif_neg h0]
      simp [hb]
    rw [hpe]
    show (bqPop E 1 q).2.count ≤ q.count - 1
    omega

theorem popZeros_count_le (E : Endian) (c : Nat) :
    ∀ q : BQ, q.count ≤ c → (popZeros E q).2.count ≤ q.count := by
  induction c with
  | zero =>
    intro q hc
    have h0 : q.count = 0 := by omega
    have hpe : popZeros E q = (0, q) := by
      rw [popZeros, dif_pos h0]
    rw [hpe]
  | succ j ih =>
    intro q hc
    by_cases h0 : q.count = 0
    · have hpe : popZeros E q = (0, q) := by
        rw [popZeros, dif_pos h0]
      rw [hpe]
    · have hcnt : (bqPop E 1 q).2.count = q.count - 1 := bqPop_count_eq E 1 q
      by_cases hb : (bqPop E 1 q).1 = 0
      · have hpe : popZeros E q = ((popZeros E (bqPop E 1 q).2).1 + 1,
            (popZeros E (bqPop E 1 q).2).2) := by
          conv_lhs => rw [popZeros]
          rw [dif_neg h0]
          simp [hb]
        rw [hpe]
        show (popZeros E (bqPop E 1 q).2).2.count ≤ q.count
        have hle := ih (bqPop E 1 q).2 (by omega)
        omega
      · have hpe : popZeros E q = (0, (bqPop E 1 q).2) := by
          conv_lhs => rw [popZeros]
          rw [dif_neg h0]
          simp [hb]
        rw [hpe]
        show (bqPop E 1 q).2.count ≤ q.count
        omega

theorem popZeros_count_lt (E : Endian) (q : BQ) (h0 : q.count ≠ 0) :
    (popZeros E q).2.count ≤ q.count - 1 := by
  have hcnt : (bqPop E 1 q).2.count = q.count - 1 := bqPop_count_eq E 1 q
  by_cases hb : (bqPop E 1 q).1 = 0
  · have hpe : popZeros E q = ((popZeros E (bqPop E 1 q).2).1 + 1,
        (popZeros E (bqPop E 1 q).2).2) := by
      conv_lhs => rw [popZeros]
      rw [dif_neg h0]
      simp [hb]
    rw [hpe]
    show (popZeros E (bqPop E 1 q).2).2.count ≤ q.count - 1
    have hle := popZeros_count_le E (bqPop E 1 q).2.count (bqPop E 1 q).2
      (le_refl _)
    omega
  · have hpe : popZeros E q = (0, (bqPop E 1 q).2) := by
      conv_lhs => rw [popZeros]
      rw [dif_neg h0]
      simp [hb]
    rw [hpe]
    show (bqPop E 1 q).2.count ≤ q.count - 1
    omega

theorem readUnary0_count (E : Endian) (r : Rdr) (h7 : r.bq.count ≤ 7) :
    (readUnary0 E r).2.bq.count ≤ 7 := by
  by_cases h0 : r.bq.count = 0
  · rcases hra : readAlignedUnary 255 r.src with ⟨res, s1⟩
    rcases res with e | ⟨u, stop⟩
    · simp only [readUnary0, if_pos h0, hra]
      exact h7
    · simp only [readUnary0, if_pos h0, hra]
      show (popOnes E (⟨stop, 8⟩ : BQ)).2.count ≤ 7
      have hlt := popOnes_count_lt E ⟨stop, 8⟩ (by
        show ¬ (8 : Nat) = 0
        decide)
      have hc8 := bq_mk_count stop 8
      omega
  · by_cases hall : allOnes r.bq = true
    · rcases hra : readAlignedUnary 255 r.src with ⟨res, s1⟩
      rcases res with e | ⟨u, stop⟩
      · simp only [readUnary0, if_neg h0, if_pos hall, hra]
        show (⟨0, 0⟩ : BQ).count ≤ 7
        decide
      · simp only [readUnary0, if_neg h0, if_pos hall, hra]
        show (popOnes E (⟨stop, 8⟩ : BQ)).2.count ≤ 7
        have hlt := popOnes_count_lt E ⟨stop, 8⟩ (by
          show ¬ (8 : Nat) = 0
          decide)
        have hc8 := bq_mk_count stop 8
        omega
    · simp only [readUnary0, if_neg h0, if_neg hall]
      show (popOnes E r.bq).2.count ≤ 7
      have hle := popOnes_count_le E r.bq.count r.bq (le_refl _)
      omega

theorem readUnary1_count (E : Endian) (r : Rdr) (h7 : r.bq.count ≤ 7) :
    (readUnary1 E r).2.bq.count ≤ 7 := by
  by_cases h0 : r.bq.count = 0
  · rcases hra : readAlignedUnary 0 r.src with ⟨res, s1⟩
    rcases res with e | ⟨u, stop⟩
    · simp only [readUnary1, if_pos h0, hra]
      exact h7
    · simp only [readUnary1, if_pos h0, hra]
      show (popZeros E (⟨stop, 8⟩ : BQ)).2.count ≤ 7
      have hlt := popZeros_count_lt E ⟨stop, 8⟩ (by
        show ¬ (8 : Nat) = 0
        decide)
      have hc8 := bq_mk_count stop 8
      omega
  · by_cases hall : allZeros r.bq = true
    · rcases hra : readAlignedUnary 0 r.src with ⟨res, s1⟩
      rcases res with e | ⟨u, stop⟩
      · simp only [readUnary1, if_neg h0, if_pos hall, hra]
        show (⟨0, 0⟩ : BQ).count ≤ 7
        decide
      · simp only [readUnary1, if_neg h0, if_pos hall, hra]
        show (popZeros E (⟨stop, 8⟩ : BQ)).2.count ≤ 7
        have hlt := popZeros_count_lt E ⟨stop, 8⟩ (by
          show ¬ (8 : Nat) = 0
          decide)
        have hc8 := bq_mk_count stop 8
        omega
    · simp only [readUnary1, if_neg h0, if_neg hall]
      show (popZeros E r.bq).2.count ≤ 7
      have hle := popZeros_count_le E r.bq.count r.bq (le_refl _)
      omega

theorem readSigned_count (E : Endian) (w bits : Nat) (r : Rdr)
    (h7 : r.bq.count ≤ 7) : (readSigned E w bits r).2.bq.count ≤ 7 := by
  cases E with
  | be =>
    by_cases hw : bits ≤ w
    · rcases hrb : readBit .be r with ⟨res, r1⟩
      have h71 : r1.bq.count ≤ 7 := by
        have hc := readBit_count .be r h7
        rw [hrb] at hc
        exact hc
      rcases res with e | sg
      · simp only [readSigned, if_pos hw, hrb]
        exact h71
      · rcases hsub : sub1 bits with e | bm
        · simp only [readSigned, if_pos hw, hrb, hsub]
          exact h71
        · rcases hro : readOp .be w bm r1 with ⟨res2, r2⟩
          have h72 : r2.bq.count ≤ 7 := by
            have hc := readOp_count .be w bm r1 h71
            rw [hro] at hc
            exact hc
          rcases res2 with e2 | u
          · simp only [readSigned, if_pos hw, hrb, hsub, hro]
            exact h72
          · simp only [readSigned, if_pos hw, hrb, hsub, hro]
            exact h72
    · simp only [readSigned, if_neg hw]
      exact h7
  | le =>
    by_cases hw : bits ≤ w
    · rcases hsub : sub1 bits with e | bm
      · simp only [readSigned, if_pos hw, hsub]
        exact h7
      · rcases hro : readOp .le w bm r with ⟨res, r1⟩
        have h71 : r1.bq.count ≤ 7 := by
          have hc := readOp_count .le w bm r h7
          rw [hro] at hc
          exact hc
        rcases res with e | u
        · simp only [readSigned, if_pos hw, hsub, hro]
          exact h71
        · rcases hrb : readBit .le r1 with ⟨res2, r2⟩
          have h72 : r2.bq.count ≤ 7 := by
            have hc := readBit_count .le r1 h71
            rw [hrb] at hc
            exact hc
          rcases res2 with e2 | sg
          · simp only [readSigned, if_pos hw, hsub, hro, hrb]
            exact h72
          · simp only [readSigned, if_pos hw, hsub, hro, hrb]
            exact h72
    · simp only [readSigned, if_neg hw]
      exact h7

theorem writeBit_count (E : Endian) (b : Bool) (st : Wtr)
    (h7 : st.bq.count ≤ 7) : (writeBit E b st).2.bq.count ≤ 7 := by
  by_cases hfull : (bqPush E 1 (if b then 1 else 0) st.bq).count = 8
  · simp only [writeBit, if_pos hfull]
    show (bqPop E 8 (bqPush E 1 (if b then 1 else 0) st.bq)).2.count ≤ 7
    rw [bqPop_count_eq]
    omega
  · simp only [writeBit, if_neg hfull]
    show (bqPush E 1 (if b then 1 else 0) st.bq).count ≤ 7
    rw [bqPush_count] at hfull ⊢
    omega

theorem popBytesAux_count (E : Endian) : ∀ (k : Nat) (q : BQ),
    (popBytesAux E k q).2.count = q.count - 8 * k := by
  intro k
  induction k with
  | zero =>
    intro q
    simp [popBytesAux]
  | succ j ih =>
    intro q
    simp only [popBytesAux]
    rw [ih, bqPop_count_eq]
    omega

theorem writeUnaligned_count_zero (E : Endian) (acc rem : BQ)
    (sink : List Nat) (h7 : rem.count ≤ 7)
    (hge : 8 - rem.count ≤ acc.count) :
    (writeUnaligned E acc rem sink).2.1.count = 0 := by
  by_cases h0 : rem.count = 0
  · simp only [writeUnaligned, if_pos h0]
    omega
  · have ht : min (8 - rem.count) acc.count = 8 - rem.count :=
      min_eq_left hge
    have hfull : (bqPush E (min (8 - rem.count) acc.count)
        ((bqPop E (min (8 - rem.count) acc.count) acc).1 % 256) rem).count =
        8 := by
      rw [bqPush_count, ht]
      omega
    simp only [writeUnaligned, if_neg h0, if_pos hfull]
    show (bqPop E 8 (bqPush E (min (8 - rem.count) acc.count)
        ((bqPop E (min (8 - rem.count) acc.count) acc).1 % 256) rem)).2.count
      = 0
    rw [bqPop_count_eq, hfull]

theorem writeOp_count (E : Endian) (w bits v : Nat) (st : Wtr)
    (h7 : st.bq.count ≤ 7) : (writeOp E w bits v st).2.bq.count ≤ 7 := by
  by_cases h1 : bits > w
  · simp only [writeOp, if_pos h1]
    exact h7
  · by_cases h2 : bits < w ∧ 2 ^ bits ≤ v
    · simp only [writeOp, if_neg h1, if_pos h2]
      exact h7
    · by_cases hfast : bits < 8 - st.bq.count
      · simp only [writeOp, if_neg h1, if_neg h2, if_pos hfast]
        show (bqPush E bits (v % 256) st.bq).count ≤ 7
        rw [bqPush_count]
        omega
      · have hge : 8 - st.bq.count ≤ (⟨v, bits⟩ : BQ).count := by
          have hc := bq_mk_count v bits
          omega
        have hz := writeUnaligned_count_zero E ⟨v, bits⟩ st.bq st.sink h7 hge
        simp only [writeOp, if_neg h1, if_neg h2, if_neg hfast, writeAligned]
        show (bqPush E (popBytesAux E
            ((writeUnaligned E ⟨v, bits⟩ st.bq st.sink).1.count / 8)
            (writeUnaligned E ⟨v, bits⟩ st.bq st.sink).1).2.count
          ((popBytesAux E
            ((writeUnaligned E ⟨v, bits⟩ st.bq st.sink).1.count / 8)
            (writeUnaligned E ⟨v, bits⟩ st.bq st.sink).1).2.value % 256)
          (writeUnaligned E ⟨v, bits⟩ st.bq st.sink).2.1).count ≤ 7
        rw [bqPush_count, hz, popBytesAux_count]
        omega

theorem writeBytesLoop_count (E : Endian) : ∀ (bs : List Nat) (st : Wtr),
    st.bq.count ≤ 7 → (writeBytesLoop E bs st).2.bq.count ≤ 7 := by
  intro bs
  induction bs with
  | nil =>
    intro st h7
    exact h7
  | cons b t ih =>
    intro st h7
    rcases hw1 : writeOp E 8 8 b st with ⟨res, st1⟩
    have h71 : st1.bq.count ≤ 7 := by
      have hc := writeOp_count E 8 8 b st h7
      rw [hw1] at hc
      exact hc
    rcases res with e | u
    · simp only [writeBytesLoop, hw1]
      exact h71
    · simp only [writeBytesLoop, hw1]
      exact ih st1 h71

theorem writeBytes_count (E : Endian) (bs : List Nat) (st : Wtr)
    (h7 : st.bq.count ≤ 7) : (writeBytes E bs st).2.bq.count ≤ 7 := by
  by_cases h0 : st.bq.count = 0
  · simp only [writeBytes, if_pos h0]
    exact h7
  · simp only [writeBytes, if_neg h0]
    exact writeBytesLoop_count E bs st h7

theorem writeUnary0_count (E : Endian) (n : Nat) : ∀ st : Wtr,
    st.bq.count ≤ 7 → (writeUnary0 E n st).2.bq.count ≤ 7 := by
  induction n using Nat.strong_induction_on with
  | _ n ih =>
    intro st h7
    by_cases h0 : n = 0
    · subst h0
      rw [writeUnary0, if_pos rfl]
      exact writeBit_count E false st h7
    · by_cases h31 : n ≤ 31
      · rcases hw1 : writeOp E 32 n (2 ^ n - 1) st with ⟨res, st1⟩
        have h71 : st1.bq.count ≤ 7 := by
          have hc := writeOp_count E 32 n (2 ^ n - 1) st h7
          rw [hw1] at hc
          exact hc
        rw [writeUnary0, if_neg h0, if_pos h31]
        rcases res with e | u
        · simp only [hw1]
          exact h71
        · simp only [hw1]
          exact writeBit_count E false st1 h71
      · by_cases h32 : n = 32
        · rcases hw1 : writeOp E 32 32 (2 ^ 32 - 1) st with ⟨res, st1⟩
          have h71 : st1.bq.count ≤ 7 := by
            have hc := writeOp_count E 32 32 (2 ^ 32 - 1) st h7
            rw [hw1] at hc
            exact hc
          subst h32
          rw [writeUnary0, if_neg h0, if_neg h31, if_pos rfl]
          rcases res with e | u
          · simp only [hw1]
            exact h71
          · simp only [hw1]
            exact writeBit_count E false st1 h71
        · by_cases h63 : n ≤ 63
          · rcases hw1 : writeOp E 64 n (2 ^ n - 1) st with ⟨res, st1⟩
            have h71 : st1.bq.count ≤ 7 := by
              have hc := writeOp_count E 64 n (2 ^ n - 1) st h7
              rw [hw1] at hc
              exact hc
            rw [writeUnary0, if_neg h0, if_neg h31, if_neg h32, if_pos h63]
            rcases res with e | u
            · simp only [hw1]
              exact h71
            · simp only [hw1]
              exact writeBit_count E false st1 h71
          · by_cases h64 : n = 64
            · rcases hw1 : writeOp E 64 64 (2 ^ 64 - 1) st with ⟨res, st1⟩
              have h71 : st1.bq.count ≤ 7 := by
                have hc := writeOp_count E 64 64 (2 ^ 64 - 1) st h7
                rw [hw1] at hc
                exact hc
              subst h64
              rw [writeUnary0, if_neg h0, if_neg h31, if_neg h32,
                if_neg h63, if_pos rfl]
              rcases res with e | u
              · simp only [hw1]
                exact h71
              · simp only [hw1]
                exact writeBit_count E false st1 h71
            · rcases hw1 : writeOp E 64 64 (2 ^ 64 - 1) st with ⟨res, st1⟩
              have h71 : st1.bq.count ≤ 7 := by
                have hc := writeOp_count E 64 64 (2 ^ 64 - 1) st h7
                rw [hw1] at hc
                exact hc
              rw [writeUnary0, if_neg h0, if_neg h31, if_neg h32,
                if_neg h63, if_neg h64]
              rcases res with e | u
              · simp only [hw1]
                exact h71
              · simp only [hw1]
                exact ih (n - 64) (by omega) st1 h71

theorem writeUnary1_count (E : Endian) (n : Nat) : ∀ st : Wtr,
    st.bq.count ≤ 7 → (writeUnary1 E n st).2.bq.count ≤ 7 := by
  induction n using Nat.strong_induction_on with
  | _ n ih =>
    intro st h7
    by_cases h0 : n = 0
    · subst h0
      rw [writeUnary1, if_pos rfl]
      exact writeBit_count E true st h7
    · by_cases h32 : n ≤ 32
      · rcases hw1 : writeOp E 32 n 0 st with ⟨res, st1⟩
        have h71 : st1.bq.count ≤ 7 := by
          have hc := writeOp_count E 32 n 0 st h7
          rw [hw1] at hc
          exact hc
        rw [writeUnary1, if_neg h0, if_pos h32]
        rcases res with e | u
        · simp only [hw1]
          exact h71
        · simp only [hw1]
          exact writeBit_count E true st1 h71
      · by_cases h64 : n ≤ 64
        · rcases hw1 : writeOp E 64 n 0 st with ⟨res, st1⟩
          have h71 : st1.bq.count ≤ 7 := by
            have hc := writeOp_count E 64 n 0 st h7
            rw [hw1] at hc
            exact hc
          rw [writeUnary1, if_neg h0, if_neg h32, if_pos h64]
          rcases res with e | u
          · simp only [hw1]
            exact h71
          · simp only [hw1]
            exact writeBit_count E true st1 h71
        · rcases hw1 : writeOp E 64 64 0 st with ⟨res, st1⟩
          have h71 : st1.bq.count ≤ 7 := by
            have hc := writeOp_count E 64 64 0 st h7
            rw [hw1] at hc
            exact hc
          rw [writeUnary1, if_neg h0, if_neg h32, if_neg h64]
          rcases res with e | u
          · simp only [hw1]
            exact h71
          · simp only [hw1]
            exact ih (n - 64) (by omega) st1 h71

theorem byteAlignLoop_count (E : Endian) : ∀ (f : Nat) (st : Wtr),
    st.bq.count ≤ 7 → (byteAlignLoop E f st).bq.count ≤ 7 := by
  intro f
  induction f with
  | zero =>
    intro st h7
    exact h7
  | succ g ih =>
    intro st h7
    by_cases h0 : st.bq.count = 0
    · simp only [byteAlignLoop, if_pos h0]
      exact h7
    · simp only [byteAlignLoop, if_neg h0]
      exact ih (writeBit E false st).2 (writeBit_count E false st h7)

theorem writeSigned_count (E : Endian) (w bits : Nat) (v : Int) (st : Wtr)
    (h7 : st.bq.count ≤ 7) : (writeSigned E w bits v st).2.bq.count ≤ 7 := by
  cases E with
  | be =>
    by_cases h1 : bits > w
    · simp only [writeSigned, if_pos h1]
      exact h7
    · by_cases hneg : v < 0
      · rcases hwb : writeBit .be true st with ⟨res, st1⟩
        have h71 : st1.bq.count ≤ 7 := by
          have hc := writeBit_count .be true st h7
          rw [hwb] at hc
          exact hc
        rcases res with e | u
        · simp only [writeSigned, if_neg h1, if_pos hneg, hwb]
          exact h71
        · rcases hsub : sub1 bits with e | bm
          · simp only [writeSigned, if_neg h1, if_pos hneg, hwb, hsub]
            exact h71
          · simp only [writeSigned, if_neg h1, if_pos hneg, hwb, hsub]
            exact writeOp_count .be w bm (asUnsigned v bits) st1 h71
      · rcases hwb : writeBit .be false st with ⟨res, st1⟩
        have h71 : st1.bq.count ≤ 7 := by
          have hc := writeBit_count .be false st h7
          rw [hwb] at hc
          exact hc
        rcases res with e | u
        · simp only [writeSigned, if_neg h1, if_neg hneg, hwb]
          exact h71
        · rcases hsub : sub1 bits with e | bm
          · simp only [writeSigned, if_neg h1, if_neg hneg, hwb, hsub]
            exact h71
          · simp only [writeSigned, if_neg h1, if_neg hneg, hwb, hsub]
            exact writeOp_count .be w bm v.toNat st1 h71
  | le =>
    by_cases h1 : bits > w
    · simp only [writeSigned, if_pos h1]
      exact h7
    · by_cases hneg : v < 0
      · rcases hsub : sub1 bits with e | bm
        · simp only [writeSigned, if_neg h1, if_pos hneg, hsub]
          exact h7
        · rcases hwo : writeOp .le w bm (asUnsigned v bits) st with ⟨res, st1⟩
          have h71 : st1.bq.count ≤ 7 := by
            have hc := writeOp_count .le w bm (asUnsigned v bits) st h7
            rw [hwo] at hc
            exact hc
          rcases res with e | u
          · simp only [writeSigned, if_neg h1, if_pos hneg, hsub, hwo]
            exact h71
          · simp only [writeSigned, if_neg h1, if_pos hneg, hsub, hwo]
            exact writeBit_count .le true st1 h71
      · rcases hsub : sub1 bits with e | bm
        · simp only [writeSigned, if_neg h1, if_neg hneg, hsub]
          exact h7
        · rcases hwo : writeOp .le w bm v.toNat st with ⟨res, st1⟩
          have h71 : st1.bq.count ≤ 7 := by
            have hc := writeOp_count .le w bm v.toNat st h7
            rw [hwo] at hc
            exact hc
          rcases res with e | u
          · simp only [writeSigned, if_neg h1, if_neg hneg, hsub, hwo]
            exact h71
          · simp only [writeSigned, if_neg h1, if_neg hneg, hsub, hwo]
            exact writeBit_count .le false st1 h71

theorem readHuffmanLoop_count {α : Type} (E : Endian) :
    ∀ (s : Src) (f : Nat) (z o : RTree α) (v : α) (q : BQ) (s1 : Src),
      readHuffmanLoop (HAut.cont (tableF E f (RTree.tree z o))) s =
        (Except.ok (v, q), s1) → q.count ≤ 7 := by
  intro s
  induction s with
  | nil =>
    intro f z o v q s1 h
    simp [readHuffmanLoop] at h
  | cons e rest ih =>
    intro f z o v q s1 h
    rcases e with k | b
    · simp [readHuffmanLoop] at h
    · have hstep : readHuffmanLoop
          (HAut.cont (tableF E f (RTree.tree z o))) (Except.ok b :: rest) =
          readHuffmanLoop
            ((tableF E f (RTree.tree z o)).getD b HAut.invalidState) rest := by
        simp only [readHuffmanLoop]
      rw [hstep] at h
      rcases f with _ | g
      · have hinv : (tableF E 0 (RTree.tree z o)).getD b HAut.invalidState =
            HAut.invalidState := by
          rw [show tableF E 0 (RTree.tree z o) =
            List.replicate 256 HAut.invalidState from rfl]
          rw [List.getD_eq_getElem?_getD]
          rcases hgb : (List.replicate 256
            (HAut.invalidState : HAut α))[b]? with _ | x
          · rfl
          · have hmem := List.getElem?_mem hgb
            have hx := List.eq_of_mem_replicate hmem
            rw [hx]
            rfl
        rw [hinv] at h
        simp [readHuffmanLoop] at h
      · by_cases hb : b < 256
        · rw [tableF_get E g (RTree.tree z o) b hb] at h
          rcases hwb : walk (RTree.tree z o) (byteBits E b)
            with t2 | ⟨v2, left2⟩
          · rw [hwb] at h
            obtain ⟨hh, hpos⟩ :=
              walk_inl_height (byteBits E b) (RTree.tree z o) t2 hwb
            cases t2 with
            | leaf w2 => simp [RTree.height] at hpos
            | tree z2 o2 => exact ih g z2 o2 v q s1 h
          · rw [hwb] at h
            simp only [readHuffmanLoop] at h
            rw [Prod.mk.injEq, Except.ok.injEq, Prod.mk.injEq] at h
            obtain ⟨⟨hv2, hq⟩, hs1⟩ := h
            have hlen := walk_tree_inr_length z o (byteBits E b) v2 left2 hwb
            rw [byteBits_length] at hlen
            rw [← hq]
            show left2.length ≤ 7
            omega
        · have hlen : (tableF E (g + 1) (RTree.tree z o)).length = 256 := by
            simp [tableF]
          rw [List.getD_eq_getElem?_getD,
            List.getElem?_eq_none (by rw [hlen]; omega),
            Option.getD_none] at h
          simp [readHuffmanLoop] at h

set_option maxRecDepth 4000 in
theorem readHuffman_count {α : Type} (E : Endian) (t : RTree α) (r : Rdr)
    (hq : bqInv r.bq) (h7 : r.bq.count ≤ 7) (v : α) (r1 : Rdr)
    (h : readHuffman (compileAut E t) r = (Except.ok v, r1)) :
    r1.bq.count ≤ 7 := by
  have hget := compileAut_get E t r.bq hq h7
  rcases hl : readHuffmanLoop
    ((compileAut E t).getD (toState r.bq) HAut.invalidState) r.src
    with ⟨res, s⟩
  rcases res with e | ⟨v2, q2⟩
  · simp only [readHuffman, hl] at h
    rw [Prod.mk.injEq] at h
    exact absurd h.1 (by simp)
  · simp only [readHuffman, hl] at h
    rw [Prod.mk.injEq] at h
    obtain ⟨hv, hr1⟩ := h
    rw [← hr1]
    show q2.count ≤ 7
    rcases hwq : walk t (queueBits E r.bq) with t1 | ⟨v1, left⟩
    · rw [hget, hwq] at hl
      obtain ⟨hh, hpos⟩ := walk_inl_height (queueBits E r.bq) t t1 hwq
      cases t1 with
      | leaf w1 => simp [RTree.height] at hpos
      | tree z1 o1 =>
        exact readHuffmanLoop_count E r.src t.height z1 o1 v2 q2 s hl
    · rw [hget, hwq] at hl
      simp only [readHuffmanLoop] at hl
      rw [Prod.mk.injEq, Except.ok.injEq, Prod.mk.injEq] at hl
      obtain ⟨⟨hv1, hq2⟩, hs⟩ := hl
      have hlen := walk_inr_length (queueBits E r.bq) t v1 left hwq
      rw [queueBits_length] at hlen
      rw [← hq2]
      show left.length ≤ 7
      omega

/-- Claim C9: for both reader and writer, under either policy, the
residual bit queue holds at most 7 bits immediately after construction and
after every modelled public operation (for every outcome of the
operation, so in particular whenever it returns Ok); consequently
`into_unread` and `into_unwritten` report a bit count between 0 and 7. -/
theorem claim_c9_residual_bound (α : Type) (E : Endian) :
    (∀ B : List Nat, (intoUnread (mkReader B)).1 ≤ 7) ∧
    (∀ r : Rdr, r.bq.count ≤ 7 → (readBit E r).2.bq.count ≤ 7) ∧
    (∀ w bits : Nat, ∀ r : Rdr, r.bq.count ≤ 7 →
      (readOp E w bits r).2.bq.count ≤ 7) ∧
    (∀ bits0 : Nat, ∀ r : Rdr, r.bq.count ≤ 7 →
      (skipOp E bits0 r).2.bq.count ≤ 7) ∧
    (∀ n : Nat, ∀ r : Rdr, r.bq.count ≤ 7 →
      (readBytes E n r).2.bq.count ≤ 7) ∧
    (∀ r : Rdr, r.bq.count ≤ 7 → (readUnary0 E r).2.bq.count ≤ 7) ∧
    (∀ r : Rdr, r.bq.count ≤ 7 → (readUnary1 E r).2.bq.count ≤ 7) ∧
    (∀ w bits : Nat, ∀ r : Rdr, r.bq.count ≤ 7 →
      (readSigned E w bits r).2.bq.count ≤ 7) ∧
    (∀ t : RTree α, ∀ r : Rdr, ∀ v : α, ∀ r1 : Rdr,
      bqInv r.bq → r.bq.count ≤ 7 →
      readHuffman (compileAut E t) r = (Except.ok v, r1) →
      r1.bq.count ≤ 7) ∧
    (∀ r : Rdr, (intoUnread (rdrByteAlign r)).1 ≤ 7) ∧
    ((intoUnwritten mkWriter).1 ≤ 7) ∧
    (∀ b : Bool, ∀ st : Wtr, st.bq.count ≤ 7 →
      (writeBit E b st).2.bq.count ≤ 7) ∧
    (∀ w bits v : Nat, ∀ st : Wtr, st.bq.count ≤ 7 →
      (writeOp E w bits v st).2.bq.count ≤ 7) ∧
    (∀ bs : List Nat, ∀ st : Wtr, st.bq.count ≤ 7 →
      (writeBytes E bs st).2.bq.count ≤ 7) ∧
    (∀ n : Nat, ∀ st : Wtr, st.bq.count ≤ 7 →
      (writeUnary0 E n st).2.bq.count ≤ 7) ∧
    (∀ n : Nat, ∀ st : Wtr, st.bq.count ≤ 7 →
      (writeUnary1 E n st).2.bq.count ≤ 7) ∧
    (∀ w bits : Nat, ∀ v : Int, ∀ st : Wtr, st.bq.count ≤ 7 →
      (writeSigned E w bits v st).2.bq.count ≤ 7) ∧
    (∀ st : Wtr, st.bq.count ≤ 7 →
      (intoUnwritten (wtrByteAlign E st)).1 ≤ 7) :=
  ⟨fun B => by show (0 : Nat) ≤ 7; norm_num,
    fun r h7 => readBit_count E r h7,
    fun w bits r h7 => readOp_count E w bits r h7,
    fun bits0 r h7 => skipOp_count E bits0 r h7,
    fun n r h7 => readBytes_count E n r h7,
    fun r h7 => readUnary0_count E r h7,
    fun r h7 => readUnary1_count E r h7,
    fun w bits r h7 => readSigned_count E w bits r h7,
    fun t r v r1 hq h7 h => readHuffman_count E t r hq h7 v r1 h,
    fun r => by show (0 : Nat) ≤ 7; norm_num,
    by show (0 : Nat) ≤ 7; norm_num,
    fun b st h7 => writeBit_count E b st h7,
    fun w bits v st h7 => writeOp_count E w bits v st h7,
    fun bs st h7 => writeBytes_count E bs st h7,
    fun n st h7 => writeUnary0_count E n st h7,
    fun n st h7 => writeUnary1_count E n st h7,
    fun w bits v st h7 => writeSigned_count E w bits v st h7,
    fun st h7 => byteAlignLoop_count E 8 st h7⟩

theorem claim_c9_witness :
    ((⟨okBytes [7], ⟨1, 3⟩⟩ : Rdr).bq.count ≤ 7 ∧
        (⟨[], ⟨1, 3⟩⟩ : Wtr).bq.count ≤ 7) ∧
      ((intoUnread (mkReader [5])).1 ≤ 7 ∧
        (readOp .be 8 5 ⟨okBytes [7], ⟨1, 3⟩⟩).2.bq.count ≤ 7 ∧
        (readUnary0 .be ⟨okBytes [7], ⟨1, 3⟩⟩).2.bq.count ≤ 7 ∧
        (writeOp .be 8 5 9 ⟨[], ⟨1, 3⟩⟩).2.bq.count ≤ 7 ∧
        (writeUnary1 .be 5 ⟨[], ⟨1, 3⟩⟩).2.bq.count ≤ 7) :=
  ⟨⟨by decide, by decide⟩,
    (claim_c9_residual_bound Nat .be).1 [5],
    (claim_c9_residual_bound Nat .be).2.2.1 8 5 ⟨okBytes [7], ⟨1, 3⟩⟩
      (by decide),
    (claim_c9_residual_bound Nat .be).2.2.2.2.2.1 ⟨okBytes [7], ⟨1, 3⟩⟩
      (by decide),
    (claim_c9_residual_bound Nat .be).2.2.2.2.2.2.2.2.2.2.2.2.1 8 5 9
      ⟨[], ⟨1, 3⟩⟩ (by decide),
    (claim_c9_residual_bound Nat
      .be).2.2.2.2.2.2.2.2.2.2.2.2.2.2.2.1 5 ⟨[], ⟨1, 3⟩⟩ (by decide)⟩
